import Mathlib

/-!
Verification of the maze generation and representation engine of the
`bevy_knossos` repository: the cell/grid data model, the generation
algorithms, the builder, the connectivity validator, the ASCII formatters,
the maze iterators, and the all-ends pathfinder.

Definitions are shallow embeddings of the Rust sources under `src/`.
The files `src/maze/grid.rs` and `src/maze/grid/cell.rs` (the `Grid` and
`Cell` types), nine of the ten algorithm files, the error type files and
most of the `pathfind` module are not present in the source tree; those
definitions are modelled from the specification, as marked by their doc
comments.
-/

namespace Knossos

/-- A passage direction. In the source, directions are the four `Cell`
bitflags `NORTH`, `SOUTH`, `EAST`, `WEST`. -/
inductive Dir where
  | north
  | south
  | east
  | west
deriving DecidableEq, Repr

/-- Modelled from the spec: the opposite of a direction, used by
`carve_passage` to set the twin flag at the neighbouring cell. -/
def Dir.opposite : Dir → Dir
  | .north => .south
  | .south => .north
  | .east => .west
  | .west => .east

/-- Modelled from the spec (`src/maze/grid/cell.rs` is absent): a `Cell` is a
set of up to 4 independent boolean flags NORTH, SOUTH, EAST, WEST, each
meaning "a passage is carved in this direction". -/
structure Cell where
  north : Bool
  south : Bool
  east : Bool
  west : Bool
deriving DecidableEq, Repr

/-- The empty cell: no passage carved in any direction. -/
def Cell.empty : Cell := ⟨false, false, false, false⟩

/-- Whether the flag for direction `d` is set (bitflags `contains`). -/
def Cell.contains (c : Cell) : Dir → Bool
  | .north => c.north
  | .south => c.south
  | .east => c.east
  | .west => c.west

/-- Setting the flag for direction `d` (bitflags `insert`). -/
def Cell.insert (c : Cell) : Dir → Cell
  | .north => { c with north := true }
  | .south => { c with south := true }
  | .east => { c with east := true }
  | .west => { c with west := true }

/-- Clearing the flag for direction `d` (bitflags `remove`); used by the
spec-modelled Recursive Division algorithm when it erects walls. -/
def Cell.remove (c : Cell) : Dir → Cell
  | .north => { c with north := false }
  | .south => { c with south := false }
  | .east => { c with east := false }
  | .west => { c with west := false }

/-- Modelled from the spec: `walls_count()` = 4 minus the number of set
flags. -/
def Cell.walls_count (c : Cell) : Nat :=
  4 - ((if c.north then 1 else 0) + (if c.south then 1 else 0) +
       (if c.east then 1 else 0) + (if c.west then 1 else 0))

/-- Whether a cell has no flag set (bitflags `is_empty`). -/
def Cell.is_empty (c : Cell) : Bool :=
  !c.north && !c.south && !c.east && !c.west

/-- Modelled from the spec (`pathfind/mod.rs` is absent): a cell is a maze
end (dead end) iff it has exactly one passage, i.e. exactly 3 walls. -/
def Cell.is_end (c : Cell) : Bool :=
  c.walls_count == 3

/-- A pair of unsigned integers (x, y), 0-indexed, x increasing rightward,
y increasing downward (`src/utils/types.rs`). -/
abbrev Coords := Nat × Nat

/-- Modelled from the spec (`src/maze/grid.rs` is absent): a `Grid` owns a
flat ordered sequence of `width * height` cells in row-major order
(index = y*width + x). -/
structure Grid where
  width : Nat
  height : Nat
  cells : List Cell
deriving DecidableEq, Repr

/-- The well-formedness invariant established by `Grid::new` and preserved
by every grid operation: the flat sequence has exactly `width * height`
cells. -/
def Grid.WF (g : Grid) : Prop := g.cells.length = g.width * g.height

/-- Modelled from the spec: `Grid::new(width, height)` creates a grid with
all cells empty. -/
def Grid.new (width height : Nat) : Grid :=
  ⟨width, height, List.replicate (width * height) Cell.empty⟩

/-- Row-major index of a coordinate. -/
def Grid.idx (g : Grid) (c : Coords) : Nat := c.2 * g.width + c.1

/-- Whether a coordinate lies inside the grid. -/
def Grid.inBounds (g : Grid) (c : Coords) : Bool :=
  c.1 < g.width && c.2 < g.height

/-- Cell lookup by coordinates (total, defaulting to the empty cell; in the
source an out-of-range access is a contract violation). -/
def Grid.get_cell (g : Grid) (c : Coords) : Cell :=
  g.cells.getD (g.idx c) Cell.empty

/-- Replacing one cell of the grid. -/
def Grid.set_cell (g : Grid) (c : Coords) (cell : Cell) : Grid :=
  { g with cells := g.cells.set (g.idx c) cell }

/-- Modelled from the spec: `get_next_cell_coords(coords, direction)` is a
pure bounds check without mutation: it returns the neighbouring coordinate
in the given direction, and fails (here: `none`, for the source's
`TransitError`) when that neighbour would be out of bounds. -/
def Grid.get_next_cell_coords (g : Grid) (c : Coords) (d : Dir) : Option Coords :=
  if g.inBounds c then
    let next? : Option Coords :=
      match d with
      | .north => if c.2 = 0 then none else some (c.1, c.2 - 1)
      | .south => some (c.1, c.2 + 1)
      | .east => some (c.1 + 1, c.2)
      | .west => if c.1 = 0 then none else some (c.1 - 1, c.2)
    match next? with
    | some n => if g.inBounds n then some n else none
    | none => none
  else none

/-- Modelled from the spec: `carve_passage(coords, direction)` sets the
direction flag at `coords` and the opposite flag at the neighbour, returns
the neighbour's coordinates on success, and fails when the neighbour would
be out of bounds. -/
def Grid.carve_passage (g : Grid) (c : Coords) (d : Dir) : Option (Coords × Grid) :=
  match g.get_next_cell_coords c d with
  | none => none
  | some n =>
    let g1 := g.set_cell c ((g.get_cell c).insert d)
    let g2 := g1.set_cell n ((g1.get_cell n).insert d.opposite)
    some (n, g2)

/-- Modelled from the spec: `is_carved(coords, direction)` reads a flag and
never fails: a direction against an edge simply reads as not carved. -/
def Grid.is_carved (g : Grid) (c : Coords) (d : Dir) : Bool :=
  g.inBounds c && (g.get_cell c).contains d

/-- Modelled from the spec: `is_cell_visited(coords)` is true iff the
cell's wall state is non-empty (a generation-time "processed" signal). -/
def Grid.is_cell_visited (g : Grid) (c : Coords) : Bool :=
  !(g.get_cell c).is_empty

/-- Folding a list of carve operations over a grid, failing as soon as one
carve fails; mirrors the chained `carve_passage(..).unwrap()` calls of the
source fixtures. -/
def Grid.carve_seq (g : Grid) (steps : List (Coords × Dir)) : Option Grid :=
  steps.foldlM (fun g s => (g.carve_passage s.1 s.2).map (·.2)) g

/-- The carve sequence of the canonical 4x4 test fixture
(`generate_valid_maze` in `src/maze/maze.rs` and
`generate_maze` in `src/maze/formatters/ascii.rs`). -/
def fixtureSteps : List (Coords × Dir) :=
  [((0, 0), .south), ((0, 1), .east), ((0, 2), .east), ((0, 2), .south),
   ((0, 3), .east),
   ((1, 0), .east), ((1, 1), .east), ((1, 1), .south), ((1, 2), .east),
   ((1, 3), .east),
   ((2, 0), .east), ((2, 2), .east), ((2, 3), .east),
   ((3, 1), .north), ((3, 1), .south)]

/-- The canonical 4x4 fixture grid (the worked carve sequence). -/
def fixtureGrid : Grid :=
  ((Grid.new 4 4).carve_seq fixtureSteps).getD (Grid.new 4 4)

/-- Modelled from the spec (the `rand` crate is external): a deterministic
random source is a function from draw positions to naturals together with a
counter; `StdRng` seeded from a `u64` is one such function. Quantifying
over the function covers every seed and every platform PRNG. -/
structure Rng where
  f : Nat → Nat
  k : Nat

/-- Drawing one natural from the source advances the counter. -/
def Rng.next (r : Rng) : Nat × Rng :=
  (r.f r.k, { r with k := r.k + 1 })

/-- Modelled from the spec: a stand-in for `StdRng::seed_from_u64`; the
code relies only on it being a deterministic function of the seed. -/
def stdRng (seed : Nat) : Rng :=
  ⟨fun k => seed + k, 0⟩

/-- The direction array `[NORTH, SOUTH, WEST, EAST]` that both
`carve_passages_from` and the validator's `visit` shuffle. -/
def dirs4 : List Dir := [.north, .south, .west, .east]

/-- All 24 orderings of the four directions; a shuffle of `dirs4` returns
one of them. -/
def perms4 : List (List Dir) :=
  [[.north, .south, .west, .east], [.north, .south, .east, .west],
   [.north, .west, .south, .east], [.north, .west, .east, .south],
   [.north, .east, .south, .west], [.north, .east, .west, .south],
   [.south, .north, .west, .east], [.south, .north, .east, .west],
   [.south, .west, .north, .east], [.south, .west, .east, .north],
   [.south, .east, .north, .west], [.south, .east, .west, .north],
   [.west, .north, .south, .east], [.west, .north, .east, .south],
   [.west, .south, .north, .east], [.west, .south, .east, .north],
   [.west, .east, .north, .south], [.west, .east, .south, .north],
   [.east, .north, .south, .west], [.east, .north, .west, .south],
   [.east, .south, .north, .west], [.east, .south, .west, .north],
   [.east, .west, .north, .south], [.east, .west, .south, .north]]

/-- Modelled from the spec: `dirs.shuffle(rng)` returns some ordering of
the four directions determined by the random source. -/
def Rng.shuffle (r : Rng) : List Dir × Rng :=
  let (n, r1) := r.next
  (perms4.getD (n % 24) dirs4, r1)

/-- Modelled from the spec: `rng.random_bool(0.5)` / a fair coin. -/
def Rng.bool (r : Rng) : Bool × Rng :=
  let (n, r1) := r.next
  (n % 2 == 0, r1)

/-- Modelled from the spec: a draw from `0..k` (`rng.random_range`). -/
def Rng.below (r : Rng) (k : Nat) : Nat × Rng :=
  let (n, r1) := r.next
  (n % k, r1)

/-- The sequence yielded by the borrowing maze iterator
(`OrthogonalMazeIterator::next`): while `index < cells.len()`, yield
`((index % width, index / width), cells[index])`. -/
def maze_iter (g : Grid) : List (Coords × Cell) :=
  (List.range g.cells.length).map
    (fun i => ((i % g.width, i / g.width), g.cells.getD i Cell.empty))

/-- `OrthogonalMaze::ends`: all `(coords, cell)` pairs of the iterator
whose cell has `walls_count() == 3`. -/
def ends (g : Grid) : List (Coords × Cell) :=
  (maze_iter g).filter (fun p => p.2.walls_count == 3)

/-- One step of the consuming iterator
(`OrthogonalMazeIntoIterator::next`): if the cell list is empty, `none`;
otherwise remove the first cell and yield it at
`(index % width, index / width)`. -/
def into_iter_next (width : Nat) (index : Nat) (g : Grid) :
    Option ((Coords × Cell) × Grid) :=
  match g.cells with
  | [] => none
  | cell :: rest =>
    some (((index % width, index / width), cell), { g with cells := rest })

/-- Running the consuming iterator to exhaustion, returning the yielded
sequence and the final maze state. -/
def into_iter_run (width index : Nat) (g : Grid) : List (Coords × Cell) × Grid :=
  match h : g.cells with
  | [] => ([], g)
  | cell :: rest =>
    let p := into_iter_run width (index + 1) { g with cells := rest }
    (((index % width, index / width), cell) :: p.1, p.2)
termination_by g.cells.length
decreasing_by simp [h]

/-- `n` copies of a string glued together (`str.repeat(n)`). -/
def strRepeat (s : String) (n : Nat) : String :=
  String.join (List.replicate n s)

/-- The two characters `AsciiNarrow::format` emits for cell `(x, y)`: an
underscore or space for the south wall, then a pipe, underscore or space
for the east wall. -/
def narrow_cell (g : Grid) (x y : Nat) : String :=
  (if g.is_carved (x, y) .south then " " else "_") ++
    (if g.is_carved (x, y) .east then
      (if g.is_carved (x, y) .south || g.is_carved (x + 1, y) .south then " "
       else "_")
     else "|")

/-- One output line of `AsciiNarrow::format` for grid row `y`. -/
def narrow_row (g : Grid) (y : Nat) : String :=
  "|" ++ String.join ((List.range g.width).map (fun x => narrow_cell g x y)) ++ "\n"

/-- `AsciiNarrow::format`. The leading border is `width * 2 - 1`
underscores; that length is computed in unsigned arithmetic, so a zero
width underflows and the call panics (modelled as `none`) instead of
returning a string. -/
def ascii_narrow (g : Grid) : Option String :=
  if g.width = 0 then none
  else
    some (" " ++ strRepeat "_" (g.width * 2 - 1) ++ " \n" ++
      String.join ((List.range g.height).map (narrow_row g)))

/-- The side-walls ("top") line `AsciiBroad::format` builds for grid row
`y`. -/
def broad_top (g : Grid) (y : Nat) : String :=
  "|" ++ String.join ((List.range g.width).map
    (fun x => "   " ++ (if g.is_carved (x, y) .east then " " else "|")))

/-- The south-walls ("bottom") line `AsciiBroad::format` builds for grid
row `y`. -/
def broad_bottom (g : Grid) (y : Nat) : String :=
  "+" ++ String.join ((List.range g.width).map
    (fun x => (if g.is_carved (x, y) .south then "   " else "---") ++ "+"))

/-- `AsciiBroad::format`: a top border, then for each grid row its two text
lines. In the source the two lines are pushed to the output when
`x == grid.width() - 1`, so a zero-width grid contributes no row lines. -/
def ascii_broad (g : Grid) : String :=
  "+" ++ strRepeat "---+" g.width ++ "\n" ++
    (if g.width = 0 then ""
     else String.join ((List.range g.height).map
       (fun y => broad_top g y ++ "\n" ++ broad_bottom g y ++ "\n")))

/-- The pure coordinate step of `get_next_cell_coords`, before any bounds
check on the destination. -/
def dirStep (c : Coords) : Dir → Option Coords
  | .north => if c.2 = 0 then none else some (c.1, c.2 - 1)
  | .south => some (c.1, c.2 + 1)
  | .east => some (c.1 + 1, c.2)
  | .west => if c.1 = 0 then none else some (c.1 - 1, c.2)

/-- The symmetry invariant of the spec: whenever the neighbour of `(x, y)`
in direction `d` exists, `(x, y)` is carved toward `d` iff the neighbour is
carved toward the opposite direction. -/
def SymInv (g : Grid) : Prop :=
  ∀ c d n, g.get_next_cell_coords c d = some n →
    (g.is_carved c d = true ↔ g.is_carved n d.opposite = true)

/-- The reference sequence of the consuming iterator: one entry per cell,
indexed from `index`. -/
def into_list (w index : Nat) : List Cell → List (Coords × Cell)
  | [] => []
  | c :: rest => ((index % w, index / w), c) :: into_list w (index + 1) rest

/-- Number of still-empty (unvisited) cells of a grid; the fuel measure of
the depth-first algorithms. -/
def Grid.emptyCount (g : Grid) : Nat :=
  (g.cells.filter (fun c => c.is_empty)).length

/-- The ten generation algorithms selectable through the builder. -/
inductive AlgKind where
  | aldousBroder
  | binaryTree
  | eller
  | growingTree
  | huntAndKill
  | kruskal
  | prim
  | recursiveBacktracking
  | recursiveDivision
  | sidewinder
deriving DecidableEq, Repr

/-- `Algorithm::has_start_coords`. The `RecursiveBacktracking` value is
from the source; the others are modelled from the spec: RecursiveDivision
and Sidewinder declare no start-coordinate support, the remaining
algorithms accept a start coordinate. -/
def AlgKind.has_start_coords : AlgKind → Bool
  | .recursiveDivision => false
  | .sidewinder => false
  | _ => true

/-- `Algorithm::name`. `RecursiveBacktracking` is from the source and
`RecursiveDivision` from the builder test; the rest are modelled from the
spec as the algorithm type names. -/
def AlgKind.name : AlgKind → String
  | .aldousBroder => "AldousBroder"
  | .binaryTree => "BinaryTree"
  | .eller => "Eller"
  | .growingTree => "GrowingTree"
  | .huntAndKill => "HuntAndKill"
  | .kruskal => "Kruskal"
  | .prim => "Prim"
  | .recursiveBacktracking => "RecursiveBacktracking"
  | .recursiveDivision => "RecursiveDivision"
  | .sidewinder => "Sidewinder"

/-- Modelled from the spec (`errors/builder_error.rs` is absent): the
build-time error carrying the offending algorithm's name as its reason. -/
structure BuildError where
  reason : String
deriving DecidableEq, Repr

/-- `BuildError::reason`. -/
def BuildError.of_reason (r : String) : BuildError := ⟨r⟩

/-- The `Display` rendering of a `BuildError`, as pinned by the builder
test. -/
def BuildError.message (e : BuildError) : String :=
  "Cannot build maze. Reason: Algorithm `" ++ e.reason ++
    "` doesn't support `start_coords`"

/-- The builder configuration (`OrthogonalMazeBuilder::new` defaults). -/
structure OrthogonalMazeBuilder where
  width : Nat := 10
  height : Nat := 10
  algorithm : AlgKind := .recursiveBacktracking
  start_coords : Option Coords := none
  seed : Option Nat := none

/-- `OrthogonalMazeBuilder::build`, parameterised over the dispatch of the
chosen algorithm's `generate` (`gen`) and over the system-entropy source
`os` used when no seed was supplied: allocate a fresh grid, construct the
random generator (seeded deterministically when a seed was supplied), fail
with `BuildError` when a start coordinate was supplied to an algorithm
without start-coordinate support, and otherwise run the algorithm. -/
def buildWith {M : Type} (gen : AlgKind → Grid → Option Coords → Rng → M)
    (os : Rng) (b : OrthogonalMazeBuilder) : Except BuildError M :=
  let grid := Grid.new b.width b.height
  let rng := (b.seed.map stdRng).getD os
  if b.start_coords.isSome && !b.algorithm.has_start_coords then
    Except.error (BuildError.of_reason b.algorithm.name)
  else
    Except.ok (gen b.algorithm grid b.start_coords rng)

mutual

/-- `carve_passages_from` of RecursiveBacktracking: shuffle the four
directions, and for each direction whose neighbour exists and is
unvisited, carve into it and recurse from there. The fuel only bounds the
recursion depth; with fuel above the number of empty cells it never runs
out. -/
def carve_passages_from (fuel : Nat) (coords : Coords) (g : Grid) (r : Rng) :
    Grid × Rng :=
  match fuel with
  | 0 => (g, r)
  | f + 1 =>
    let p := r.shuffle
    carve_dirs f p.1 coords g p.2
termination_by (fuel, 0)

/-- The direction loop of `carve_passages_from`. -/
def carve_dirs (f : Nat) (ds : List Dir) (coords : Coords) (g : Grid)
    (r : Rng) : Grid × Rng :=
  match ds with
  | [] => (g, r)
  | d :: rest =>
    match g.get_next_cell_coords coords d with
    | none => carve_dirs f rest coords g r
    | some next =>
      if g.is_cell_visited next then carve_dirs f rest coords g r
      else
        match g.carve_passage coords d with
        | none => carve_dirs f rest coords g r
        | some p =>
          let q := carve_passages_from f p.1 p.2 r
          carve_dirs f rest coords q.1 q.2
termination_by (f, ds.length + 1)

end

/-- `RecursiveBacktracking::generate`: start from the given coordinate
(default origin) and carve depth-first. -/
def generate_rb (g : Grid) (start : Option Coords) (r : Rng) : Grid × Rng :=
  carve_passages_from (g.emptyCount + 1) (start.getD (0, 0)) g r

mutual

/-- The validator's `visit`: shuffle the four directions and explore any
carved, unvisited neighbour, pushing it onto the visited list. -/
def visit (fuel : Nat) (coords : Coords) (g : Grid) (visited : List Coords)
    (r : Rng) : List Coords × Rng :=
  match fuel with
  | 0 => (visited, r)
  | f + 1 =>
    let p := r.shuffle
    visit_dirs f p.1 coords g visited p.2
termination_by (fuel, 0)

/-- The direction loop of the validator's `visit`. -/
def visit_dirs (f : Nat) (ds : List Dir) (coords : Coords) (g : Grid)
    (visited : List Coords) (r : Rng) : List Coords × Rng :=
  match ds with
  | [] => (visited, r)
  | d :: rest =>
    match g.get_next_cell_coords coords d with
    | none => visit_dirs f rest coords g visited r
    | some next =>
      if visited.contains next then visit_dirs f rest coords g visited r
      else if !(g.is_carved coords d) then visit_dirs f rest coords g visited r
      else
        let q := visit f next g (visited ++ [next]) r
        visit_dirs f rest coords g q.1 q.2
termination_by (f, ds.length + 1)

end

/-- `validate(grid)`: grow a visited set from (0,0) through carved
passages in randomised direction order and compare its size with
`width * height`. The direction shuffles come from a random source of
their own (`rand::rng()` in the source), here passed as `r`. -/
def validate (g : Grid) (r : Rng) : Bool :=
  let q := visit (g.width * g.height + 1) (0, 0) g [(0, 0)] r
  q.1.length == g.width * g.height

/-- Two cells are carved-adjacent when a passage is carved between them. -/
def Grid.carvedAdj (g : Grid) (a b : Coords) : Prop :=
  ∃ d, g.get_next_cell_coords a d = some b ∧ g.is_carved a d = true

/-- Reachability through carved passages. -/
def Grid.Reach (g : Grid) (a b : Coords) : Prop :=
  Relation.ReflTransGen g.carvedAdj a b

/-- Executable test for one carved-adjacency step. -/
def adjStep (g : Grid) (x y : Coords) : Bool :=
  dirs4.any (fun d =>
    g.get_next_cell_coords x d == some y && g.is_carved x d)

/-- Executable test that a list of cells forms a carved path from `a`
to `b`. -/
def chainOk (g : Grid) : Coords → List Coords → Coords → Bool
  | a, [], b => a == b
  | a, x :: t, b => adjStep g a x && chainOk g x t b

/-- Two cells are grid-adjacent when one is the other's neighbour,
regardless of walls. -/
def Grid.gridAdj (g : Grid) (a b : Coords) : Prop :=
  ∃ d, g.get_next_cell_coords a d = some b

/-- Reachability through grid adjacency (ignoring walls). -/
def Grid.GReach (g : Grid) (a b : Coords) : Prop :=
  Relation.ReflTransGen g.gridAdj a b

/-- One grid extends another: same dimensions and cell count, and every
carved flag of the first is carved in the second. Algorithms that only
carve passages produce extensions. -/
def cellsLe (g g' : Grid) : Prop :=
  g'.width = g.width ∧ g'.height = g.height ∧
    g'.cells.length = g.cells.length ∧
    ∀ x e, g.is_carved x e = true → g'.is_carved x e = true

/-- Post-condition of `carve_passages_from` at `c`: the grid only grows,
newly visited cells are carved-reachable from `c` and fully explored, and
every grid-neighbour of `c` ends up visited. -/
def RBFromPost (c : Coords) (g g' : Grid) : Prop :=
  g'.WF ∧ cellsLe g g' ∧ g'.emptyCount ≤ g.emptyCount ∧
    (∀ x, g.inBounds x = true → g.is_cell_visited x = false →
      g'.is_cell_visited x = true → g'.Reach c x) ∧
    (∀ x, g.inBounds x = true → g.is_cell_visited x = false →
      g'.is_cell_visited x = true →
      ∀ m, g.gridAdj x m → g'.is_cell_visited m = true) ∧
    (∀ m, g.gridAdj c m → g'.is_cell_visited m = true)

/-- Post-condition of the direction loop of `carve_passages_from`: as
`RBFromPost`, except that the loop only guarantees the neighbours in the
remaining direction list, and full exploration only for newly visited
cells other than `c` itself. -/
def RBDirsPost (c : Coords) (ds : List Dir) (g g' : Grid) : Prop :=
  g'.WF ∧ cellsLe g g' ∧ g'.emptyCount ≤ g.emptyCount ∧
    (∀ x, g.inBounds x = true → g.is_cell_visited x = false →
      g'.is_cell_visited x = true → g'.Reach c x) ∧
    (∀ x, x ≠ c → g.inBounds x = true → g.is_cell_visited x = false →
      g'.is_cell_visited x = true →
      ∀ m, g.gridAdj x m → g'.is_cell_visited m = true) ∧
    (∀ d ∈ ds, ∀ m, g.get_next_cell_coords c d = some m →
      g'.is_cell_visited m = true)

/-- All in-bounds coordinates of a grid, row by row. -/
def Grid.allCoords (g : Grid) : List Coords :=
  (List.range g.height).flatMap (fun y => (List.range g.width).map (fun x => (x, y)))

/-- Number of in-bounds coordinates not on the visited list; the fuel
measure of the validator's search. -/
def unvisitedCount (g : Grid) (v : List Coords) : Nat :=
  (g.allCoords.filter (fun c => !(v.contains c))).length

/-- Post-condition of the validator's `visit` at `c`: the visited list
only grows, stays duplicate-free, gains only in-bounds cells, newly added
cells are fully explored, and every carved neighbour of `c` ends up on the
list. -/
def VisitPost (g : Grid) (c : Coords) (v v' : List Coords) : Prop :=
  (∀ x, x ∈ v → x ∈ v') ∧
    (v.Nodup → v'.Nodup) ∧
    (∀ x, x ∈ v' → x ∈ v ∨ g.inBounds x = true) ∧
    (∀ x, x ∈ v' → x ∉ v → ∀ m, g.carvedAdj x m → m ∈ v') ∧
    (∀ m, g.carvedAdj c m → m ∈ v')

/-- Post-condition of the validator's direction loop: as `VisitPost`, but
only the remaining directions of `c` are guaranteed explored. -/
def VisitDirsPost (g : Grid) (c : Coords) (ds : List Dir) (v v' : List Coords) :
    Prop :=
  (∀ x, x ∈ v → x ∈ v') ∧
    (v.Nodup → v'.Nodup) ∧
    (∀ x, x ∈ v' → x ∈ v ∨ g.inBounds x = true) ∧
    (∀ x, x ∈ v' → x ∉ v → ∀ m, g.carvedAdj x m → m ∈ v') ∧
    (∀ d ∈ ds, ∀ m, g.get_next_cell_coords c d = some m →
      g.is_carved c d = true → m ∈ v')

/-- Directions whose neighbour exists and is still unvisited. -/
def unvisitedDirs (g : Grid) (c : Coords) : List Dir :=
  dirs4.filter (fun d =>
    match g.get_next_cell_coords c d with
    | some m => !(g.is_cell_visited m)
    | none => false)

/-- Modelled from the spec: picking a random element of a non-empty
direction list. -/
def pickDir (r : Rng) (l : List Dir) : Dir × Rng :=
  let p := r.below l.length
  (l.getD p.1 .north, p.2)

/-- Modelled from the spec (`aldous_broder.rs` is absent): the uniform
random walk of Aldous-Broder. From the current cell, step to a random
neighbour, carving a passage only when that neighbour has not been
reached before; stop when every cell has been visited. The fuel models
the unbounded walk: running out yields `none` (the walk is still going). -/
def ab_loop : Nat → Coords → Grid → Rng → Option Grid
  | 0, _, _, _ => none
  | f + 1, c, g, r =>
    if g.emptyCount = 0 then some g
    else
      let p := r.next
      let d := dirs4.getD (p.1 % 4) .north
      match g.get_next_cell_coords c d with
      | none => ab_loop f c g p.2
      | some next =>
        if g.is_cell_visited next then ab_loop f next g p.2
        else
          match g.carve_passage c d with
          | none => ab_loop f next g p.2
          | some q => ab_loop f q.1 q.2 p.2

/-- `AldousBroder::generate`: walk from the given (or random) start. -/
def generate_ab (g : Grid) (s : Option Coords) (r : Rng) : Option Grid :=
  let p1 := r.next
  let p2 := p1.2.next
  let c0 := s.getD (p1.1 % g.width, p2.1 % g.height)
  ab_loop ((g.emptyCount + 1) * (g.emptyCount + 1) * 64) c0 g p2.2

/-- The in-bounds bias directions of a cell for the default north-east
Binary Tree bias. -/
def bt_available (g : Grid) (c : Coords) : List Dir :=
  [Dir.north, Dir.east].filter (fun d => (g.get_next_cell_coords c d).isSome)

/-- One Binary Tree cell: carve toward a random available bias
direction, if any. -/
def bt_step (p : Grid × Rng) (c : Coords) : Grid × Rng :=
  let avail := bt_available p.1 c
  if avail.isEmpty then p
  else
    let q := pickDir p.2 avail
    match p.1.carve_passage c q.1 with
    | some res => (res.2, q.2)
    | none => (p.1, q.2)

/-- Modelled from the spec (`binary_tree.rs` is absent): for every cell,
carve toward one of the available bias directions (default bias
north-east, the builder default), chosen randomly when both are
available. -/
def generate_bt (g : Grid) (r : Rng) : Grid × Rng :=
  g.allCoords.foldl bt_step (g, r)

/-- One Sidewinder cell of a running row: extend the run eastward or
close it, carving one random run cell northward into the row above. The
state is (run start, grid, random source). -/
def sw_cell (w y : Nat) (st2 : Nat × Grid × Rng) (x : Nat) :
    Nat × Grid × Rng :=
  let run_start := st2.1
  let pc := st2.2.2.bool
  if x + 1 = w || pc.1 then
    let pk := pc.2.below (x - run_start + 1)
    match st2.2.1.carve_passage (run_start + pk.1, y) .north with
    | some res => (x + 1, res.2, pk.2)
    | none => (x + 1, st2.2.1, pk.2)
  else
    match st2.2.1.carve_passage (x, y) .east with
    | some res => (run_start, res.2, pc.2)
    | none => (run_start, st2.2.1, pc.2)

/-- One Sidewinder row (`y ≥ 1`): walk left to right through the cells. -/
def sw_row (w y : Nat) (st : Grid × Rng) : Grid × Rng :=
  let q := (List.range w).foldl (sw_cell w y) (0, st.1, st.2)
  (q.2.1, q.2.2)

/-- The east fusing of one cell of row 0. -/
def sw_fuse_step (p : Grid × Rng) (x : Nat) : Grid × Rng :=
  match p.1.carve_passage (x, 0) .east with
  | some res => (res.2, p.2)
  | none => p

/-- The per-row dispatch of Sidewinder: row 0 was fused, other rows run. -/
def sw_rows_step (w : Nat) (p : Grid × Rng) (y : Nat) : Grid × Rng :=
  if y = 0 then p else sw_row w y p

/-- Modelled from the spec (`sidewinder.rs` is absent): Sidewinder
processes the grid row by row. The spec requires each closed run to carve
"northward into the row above", which forces the row without a row above
(row 0) to be the fully east-west fused one; rows below it run randomly.
(The spec's "the last row is fully fused" clause contradicts its own
northward-carving clause and is resolved in favour of the latter.) -/
def generate_sw (g : Grid) (r : Rng) : Grid × Rng :=
  let p0 := (List.range g.width).foldl sw_fuse_step (g, r)
  (List.range g.height).foldl (sw_rows_step g.width) p0

/-- Modelled from the spec (`growing_tree.rs` is absent): Growing Tree
with the builder's default method (newest = stack-like). Select the
newest active cell, carve toward a random unvisited neighbour if one
exists (adding the neighbour to the list), and drop the cell once no
unvisited neighbour remains. -/
def gt_loop : Nat → List Coords → Grid → Rng → Option Grid
  | 0, active, g, _ => if active.isEmpty then some g else none
  | f + 1, active, g, r =>
    match active with
    | [] => some g
    | c :: rest =>
      let un := unvisitedDirs g c
      if un.isEmpty then gt_loop f rest g r
      else
        let q := pickDir r un
        match g.carve_passage c q.1 with
        | some res => gt_loop f (res.1 :: (c :: rest)) res.2 q.2
        | none => gt_loop f (c :: rest) g q.2

/-- `GrowingTree::generate` from the given start (default origin). -/
def generate_gt (g : Grid) (s : Option Coords) (r : Rng) : Option Grid :=
  gt_loop (2 * g.emptyCount + 2) [s.getD (0, 0)] g r

/-- The hunt phase: the first (fixed scan order) unvisited cell adjacent
to a visited one. -/
def hunt_find (g : Grid) : Option Coords :=
  g.allCoords.find? (fun u =>
    !(g.is_cell_visited u) &&
    dirs4.any (fun d =>
      match g.get_next_cell_coords u d with
      | some m => g.is_cell_visited m
      | none => false))

/-- The first direction from `u` whose neighbour is visited. -/
def hk_visited_dir (g : Grid) (u : Coords) : Option Dir :=
  dirs4.find? (fun d =>
    match g.get_next_cell_coords u d with
    | some m => g.is_cell_visited m
    | none => false)

/-- Modelled from the spec (`hunt_and_kill.rs` is absent): random-walk
carving until stuck, then hunt for the first unvisited cell adjacent to
a visited one, carve that connection and resume walking from there;
terminate when the hunt finds no candidate. -/
def hk_loop : Nat → Coords → Grid → Rng → Option Grid
  | 0, _, _, _ => none
  | f + 1, c, g, r =>
    let un := unvisitedDirs g c
    if un.isEmpty then
      match hunt_find g with
      | none => some g
      | some u =>
        match hk_visited_dir g u with
        | none => some g
        | some d0 =>
          match g.carve_passage u d0 with
          | some res => hk_loop f u res.2 r
          | none => hk_loop f u g r
    else
      let q := pickDir r un
      match g.carve_passage c q.1 with
      | some res => hk_loop f res.1 res.2 q.2
      | none => hk_loop f c g q.2

/-- `HuntAndKill::generate` from the given start (default origin). -/
def generate_hk (g : Grid) (s : Option Coords) (r : Rng) : Option Grid :=
  hk_loop (2 * g.emptyCount + 2) (s.getD (0, 0)) g r

/-- The frontier edges contributed by cell `c`: every direction whose
neighbour exists and is unvisited. -/
def prim_expand (g : Grid) (c : Coords) : List (Coords × Dir) :=
  dirs4.filterMap (fun d =>
    match g.get_next_cell_coords c d with
    | some m => if g.is_cell_visited m then none else some (c, d)
    | none => none)

/-- Modelled from the spec (`prim.rs` is absent): Prim keeps a frontier
of reachable-but-uncarved edges, repeatedly extracts a random edge,
carves it when its far endpoint is unvisited, and expands the frontier
with the far endpoint's edges; terminates when the frontier empties. -/
def prim_loop : Nat → List (Coords × Dir) → Grid → Rng → Option Grid
  | 0, frontier, g, _ => if frontier.isEmpty then some g else none
  | f + 1, frontier, g, r =>
    match frontier with
    | [] => some g
    | _ :: _ =>
      let pk := r.below frontier.length
      let e := frontier.getD pk.1 ((0, 0), .north)
      let frontier2 := frontier.eraseIdx pk.1
      match g.get_next_cell_coords e.1 e.2 with
      | none => prim_loop f frontier2 g pk.2
      | some m =>
        if g.is_cell_visited m then prim_loop f frontier2 g pk.2
        else
          match g.carve_passage e.1 e.2 with
          | some res => prim_loop f (prim_expand res.2 m ++ frontier2) res.2 pk.2
          | none => prim_loop f frontier2 g pk.2

/-- `Prim::generate` from the given start (default origin). -/
def generate_prim (g : Grid) (s : Option Coords) (r : Rng) : Option Grid :=
  let c0 := s.getD (0, 0)
  prim_loop (5 * g.emptyCount + 5) (prim_expand g c0) g r

/-- Every potential inter-cell edge, once: each cell contributes its
in-bounds south and east edges, in row-major order. -/
def canonicalEdges (g : Grid) : List (Coords × Dir) :=
  g.allCoords.flatMap (fun c =>
    ([Dir.south, Dir.east].filter
      (fun d => (g.get_next_cell_coords c d).isSome)).map (fun d => (c, d)))

/-- Modelled from the spec: Fisher-Yates-style list shuffle by repeated
random extraction (fuel = list length). -/
def shuffleList {α : Type} (dflt : α) : Nat → List α → Rng → List α × Rng
  | 0, l, r => (l, r)
  | f + 1, l, r =>
    match l with
    | [] => ([], r)
    | _ :: _ =>
      let pk := r.below l.length
      let x := l.getD pk.1 dflt
      let q := shuffleList dflt f (l.eraseIdx pk.1) pk.2
      (x :: q.1, q.2)

/-- The disjoint-set labels: initially cell `i` carries label `i`. -/
def labelsInit (g : Grid) : List Nat := List.range g.cells.length

/-- The set label of a cell, read through the row-major index. -/
def labelOf (g : Grid) (labels : List Nat) (c : Coords) : Nat :=
  labels.getD (g.idx c) 0

/-- Merging two sets: relabel every `lb` cell as `la`. -/
def mergeLabels (labels : List Nat) (la lb : Nat) : List Nat :=
  labels.map (fun v => if v = lb then la else v)

/-- One Kruskal edge: carve it and merge the two sets when its endpoints
carry different labels. -/
def kruskal_step (st : Grid × List Nat) (e : Coords × Dir) :
    Grid × List Nat :=
  match st.1.get_next_cell_coords e.1 e.2 with
  | none => st
  | some m =>
    let la := labelOf st.1 st.2 e.1
    let lb := labelOf st.1 st.2 m
    if la = lb then st
    else
      match st.1.carve_passage e.1 e.2 with
      | some res => (res.2, mergeLabels st.2 la lb)
      | none => st

/-- Modelled from the spec (`kruskal.rs` is absent): walk the shuffled
edge list, carving each edge whose endpoints lie in different sets and
merging the sets. -/
def kruskal_process (edges : List (Coords × Dir)) (g : Grid)
    (labels : List Nat) : Grid × List Nat :=
  edges.foldl kruskal_step (g, labels)

/-- `Kruskal::generate`: shuffle the canonical edge list, then process. -/
def generate_kruskal (g : Grid) (r : Rng) : Grid × Rng :=
  let es := canonicalEdges g
  let p := shuffleList ((0, 0), Dir.north) es.length es r
  ((kruskal_process p.1 g (labelsInit g)).1, p.2)

/-- One Eller horizontal pass over row `y`: walk the `w - 1` adjacent
pairs, merging (carving east and unifying labels) when the two cells are
in different sets, randomly in ordinary rows and always when `force` is
set (the last row). State: (grid, row labels, random source). -/
def eller_merge_step (y : Nat) (force : Bool) (st2 : Grid × List Nat × Rng)
    (x : Nat) : Grid × List Nat × Rng :=
  let la := st2.2.1.getD x 0
  let lb := st2.2.1.getD (x + 1) 0
  let pc := if force then (true, st2.2.2) else st2.2.2.bool
  if la = lb then (st2.1, st2.2.1, pc.2)
  else if pc.1 then
    match st2.1.carve_passage (x, y) .east with
    | some res => (res.2, mergeLabels st2.2.1 la lb, pc.2)
    | none => (st2.1, st2.2.1, pc.2)
  else (st2.1, st2.2.1, pc.2)

def eller_row_merge (w y : Nat) (force : Bool) (st : Grid × List Nat × Rng) :
    Grid × List Nat × Rng :=
  (List.range (w - 1)).foldl (eller_merge_step y force) st

/-- One Eller vertical pass from row `y` to row `y + 1`: each cell
carves south randomly, and the leftmost cell of every set always does
(guaranteeing each set connects downward at least once). Cells that
carve keep their label in the next row; the rest get the globally fresh
label `(y + 1) * w + x`. Returns (grid, next-row labels, random source). -/
def eller_south_step (w y : Nat) (labels : List Nat)
    (st2 : Grid × List Nat × Rng) (x : Nat) : Grid × List Nat × Rng :=
  let pc := st2.2.2.bool
  let first := (List.range x).all
    (fun x2 => !(labels.getD x2 0 == labels.getD x 0))
  if pc.1 || first then
    match st2.1.carve_passage (x, y) .south with
    | some res => (res.2, st2.2.1 ++ [labels.getD x 0], pc.2)
    | none => (st2.1, st2.2.1 ++ [labels.getD x 0], pc.2)
  else (st2.1, st2.2.1 ++ [(y + 1) * w + x], pc.2)

def eller_row_south (w y : Nat) (labels : List Nat) (st : Grid × Rng) :
    Grid × List Nat × Rng :=
  (List.range w).foldl (eller_south_step w y labels) (st.1, [], st.2)

/-- Modelled from the spec (`eller.rs` is absent): Eller processes the
grid row by row with set labels per row, randomly merging within a row,
guaranteeing one downward carve per set, and fully merging the last
row. -/
def generate_eller (g : Grid) (r : Rng) : Grid × Rng :=
  let fin := (List.range g.height).foldl
    (fun (st : Grid × List Nat × Rng) y =>
      if y + 1 = g.height then eller_row_merge g.width y true st
      else
        let st1 := eller_row_merge g.width y false st
        eller_row_south g.width y st1.2.1 (st1.1, st1.2.2))
    (g, List.range g.width, r)
  (fin.1, fin.2.2)

/-- Modelled from the spec: the inverse of `carve_passage`, used when
Recursive Division erects a wall: clears the direction flag at `coords`
and the opposite flag at the neighbour; fails when the neighbour would
be out of bounds. -/
def Grid.remove_passage (g : Grid) (c : Coords) (d : Dir) : Option (Coords × Grid) :=
  match g.get_next_cell_coords c d with
  | none => none
  | some n =>
    let g1 := g.set_cell c ((g.get_cell c).remove d)
    some (n, g1.set_cell n ((g1.get_cell n).remove d.opposite))

/-- Carving one cell's east and south passages where in bounds. -/
def carve_all_step (gg : Grid) (c : Coords) : Grid :=
  let g1 := match gg.carve_passage c .east with
    | some res => res.2
    | none => gg
  match g1.carve_passage c .south with
  | some res => res.2
  | none => g1

/-- Open the whole grid into a single chamber: carve every in-bounds
east and south passage of every cell. -/
def carve_all (g : Grid) : Grid :=
  g.allCoords.foldl carve_all_step g

/-- Erecting one wall segment: remove the passage at the `i`-th cell of
the wall line in direction `d`, skipping the gap position. -/
def rd_wall_step (coord : Nat → Coords) (d : Dir) (gap : Nat) (gg : Grid)
    (i : Nat) : Grid :=
  if i = gap then gg
  else match gg.remove_passage (coord i) d with
    | some res => res.2
    | none => gg

/-- Modelled from the spec (`recursive_division.rs` is absent): bisect
the chamber at `(x0, y0)` of size `w0 × h0` with a randomly placed wall
(orientation from the aspect ratio, a coin on ties) leaving exactly one
randomly placed gap, then recurse into both halves; chambers with a
dimension below 2 are left as open corridors. Exhausted fuel leaves the
chamber open. -/
def divide : Nat → Nat → Nat → Nat → Nat → Grid → Rng → Grid × Rng
  | 0, _, _, _, _, g, r => (g, r)
  | f + 1, x0, y0, w0, h0, g, r =>
    if w0 < 2 || h0 < 2 then (g, r)
    else
      let po := if w0 < h0 then (true, r) else if h0 < w0 then (false, r) else r.bool
      if po.1 then
        let pw := po.2.below (h0 - 1)
        let pg := pw.2.below w0
        let g1 := (List.range w0).foldl
          (rd_wall_step (fun i => (x0 + i, y0 + pw.1)) .south pg.1) g
        let p1 := divide f x0 y0 w0 (pw.1 + 1) g1 pg.2
        divide f x0 (y0 + pw.1 + 1) w0 (h0 - pw.1 - 1) p1.1 p1.2
      else
        let pw := po.2.below (w0 - 1)
        let pg := pw.2.below h0
        let g1 := (List.range h0).foldl
          (rd_wall_step (fun i => (x0 + pw.1, y0 + i)) .east pg.1) g
        let p1 := divide f x0 y0 (pw.1 + 1) h0 g1 pg.2
        divide f (x0 + pw.1 + 1) y0 (w0 - pw.1 - 1) h0 p1.1 p1.2

/-- `RecursiveDivision::generate`: open the whole grid, then divide. -/
def generate_rd (g : Grid) (r : Rng) : Grid × Rng :=
  divide (g.width * g.height + 1) 0 0 g.width g.height (carve_all g) r

/-- Modelled from the spec (`pathfind/mod.rs` is absent): the cost of
entering a cell is 1 unless overridden by an external cost annotation. -/
def costOf (costs : Coords → Option Nat) (c : Coords) : Nat :=
  (costs c).getD 1

/-- Modelled from the spec: `MazePath::successors` — the neighbours
reachable from a cell through a carved passage, each paired with its
entry cost. -/
def successors (g : Grid) (costs : Coords → Option Nat) (c : Coords) :
    List (Coords × Nat) :=
  dirs4.filterMap (fun d =>
    match g.get_next_cell_coords c d with
    | some m => if g.is_carved c d then some (m, costOf costs m) else none
    | none => none)

/-- The accumulated cost of a path: the entry costs of every cell after
the start. -/
def pathCost (costs : Coords → Option Nat) (p : List Coords) : Nat :=
  (p.drop 1).foldl (fun a c => a + costOf costs c) 0

/-- Modelled from the spec: the search loop behind the external `astar`
call, over the carved-adjacency graph. Queue entries carry (cell, path
from the start, accumulated cost); a popped goal returns its path, an
already-seen cell is skipped, and a new cell enqueues its successors.
(The claim under check needs existence and endpoints of the returned
path, not the visiting order, so the priority queue is modelled as a
plain queue.) -/
def astar_go (g : Grid) (costs : Coords → Option Nat) (goal : Coords) :
    Nat → List Coords → List (Coords × List Coords × Nat) →
      Option (List Coords × Nat)
  | 0, _, _ => none
  | f + 1, seen, queue =>
    match queue with
    | [] => none
    | (c, p, k) :: rest =>
      if c = goal then some (p, k)
      else if seen.contains c then astar_go g costs goal f seen rest
      else astar_go g costs goal f (c :: seen)
        (rest ++ (successors g costs c).map (fun q => (q.1, p ++ [q.1], k + q.2)))

/-- One `astar` search from `start` to `goal`; the fuel dominates the
search measure (queue length plus five per unseen cell). -/
def astar_model (g : Grid) (costs : Coords → Option Nat)
    (start goal : Coords) : Option (List Coords × Nat) :=
  astar_go g costs goal (5 * (g.width * g.height) + 2) [] [(start, [start], 0)]

/-- `find_maze_ends_paths`: one entry per dead end whose search from the
single start succeeds, keyed by the (start, end) pair and storing the
(path, cost) result; unreachable ends are dropped by the `filter_map`. -/
def find_maze_ends_paths (g : Grid) (costs : Coords → Option Nat)
    (start : Coords) : List ((Coords × Coords) × (List Coords × Nat)) :=
  (ends g).filterMap (fun p =>
    match astar_model g costs start p.1 with
    | some res => some ((start, p.1), res)
    | none => none)

/-- The dispatch of `Algorithm::generate` over the ten variants.
Algorithms without start-coordinate support ignore the coordinate (the
builder rejects such configurations before this call). The fuelled
algorithms yield `none` when their fuel runs out, modelling a run that
has not yet terminated. -/
def generate (alg : AlgKind) (g : Grid) (s : Option Coords) (r : Rng) :
    Option Grid :=
  match alg with
  | .aldousBroder => generate_ab g s r
  | .binaryTree => some (generate_bt g r).1
  | .eller => some (generate_eller g r).1
  | .growingTree => generate_gt g s r
  | .huntAndKill => generate_hk g s r
  | .kruskal => some (generate_kruskal g r).1
  | .prim => generate_prim g s r
  | .recursiveBacktracking => some (generate_rb g s r).1
  | .recursiveDivision => some (generate_rd g r).1
  | .sidewinder => some (generate_sw g r).1

/-- `OrthogonalMazeBuilder::build` with the real algorithm dispatch. -/
def build (os : Rng) (b : OrthogonalMazeBuilder) :
    Except BuildError (Option Grid) :=
  buildWith generate os b

/-- The grid invariant carried through every algorithm proof: the current
grid is well-formed, satisfies the symmetry invariant, and extends the
base grid. -/
def GOk (g0 g : Grid) : Prop := g.WF ∧ SymInv g ∧ cellsLe g0 g

/-- The grid invariant for Recursive Division, whose wall pass also
removes passages: well-formed, symmetric, same dimensions. -/
def DOk (g0 g : Grid) : Prop :=
  g.WF ∧ SymInv g ∧ g.width = g0.width ∧ g.height = g0.height

/-- Membership in the chamber with corner (x0, y0) and size w0 x h0. -/
def inRect (x0 y0 w0 h0 : Nat) (c : Coords) : Prop :=
  x0 ≤ c.1 ∧ c.1 < x0 + w0 ∧ y0 ≤ c.2 ∧ c.2 < y0 + h0

/-- A carved step that stays inside the region `P`. -/
def RAdj (g : Grid) (P : Coords → Prop) (a b : Coords) : Prop :=
  g.carvedAdj a b ∧ P a ∧ P b

/-- Reachability through carved passages inside the region `P`. -/
def ReachIn (g : Grid) (P : Coords → Prop) (a b : Coords) : Prop :=
  Relation.ReflTransGen (RAdj g P) a b

/-- The Kruskal fold invariant: grid invariant, label-list length, and
label-equality implying reachability. -/
def KruskalInv (g0 : Grid) (st : Grid × List Nat) : Prop :=
  GOk g0 st.1 ∧ st.2.length = g0.cells.length ∧
    ∀ a b : Coords, g0.inBounds a = true → g0.inBounds b = true →
      labelOf g0 st.2 a = labelOf g0 st.2 b → st.1.Reach a b

theorem listGetD_set_self {α : Type} (l : List α) (i : Nat) (a d : α)
    (h : i < l.length) : (l.set i a).getD i d = a := by
  induction l generalizing i with
  | nil => simp at h
  | cons b t ih =>
    cases i with
    | zero => simp
    | succ j =>
      simp only [List.set_cons_succ, List.getD_cons_succ]
      exact ih j (by simpa using h)

theorem listGetD_set_ne {α : Type} (l : List α) {i j : Nat} (hne : i ≠ j)
    (a d : α) : (l.set i a).getD j d = l.getD j d := by
  induction l generalizing i j with
  | nil => simp
  | cons b t ih =>
    cases i with
    | zero =>
      cases j with
      | zero => exact absurd rfl hne
      | succ k => simp
    | succ i2 =>
      cases j with
      | zero => simp
      | succ k =>
        simp only [List.set_cons_succ, List.getD_cons_succ]
        exact ih (i := i2) (j := k) (by omega)

theorem Grid.inBounds_iff {g : Grid} {c : Coords} :
    g.inBounds c = true ↔ c.1 < g.width ∧ c.2 < g.height := by
  simp [Grid.inBounds]

theorem Grid.idx_lt {g : Grid} (hwf : g.WF) {c : Coords}
    (hc : g.inBounds c = true) : g.idx c < g.cells.length := by
  rcases Grid.inBounds_iff.1 hc with ⟨h1, h2⟩
  have h3 : g.idx c < (c.2 + 1) * g.width := by
    simp only [Grid.idx, Nat.succ_mul]
    omega
  have h4 : (c.2 + 1) * g.width ≤ g.height * g.width :=
    Nat.mul_le_mul_right _ h2
  rw [hwf, Nat.mul_comm]
  omega

theorem Grid.idx_inj {g : Grid} {a b : Coords} (ha : g.inBounds a = true)
    (hb : g.inBounds b = true) (h : g.idx a = g.idx b) : a = b := by
  rcases Grid.inBounds_iff.1 ha with ⟨ha1, _⟩
  rcases Grid.inBounds_iff.1 hb with ⟨hb1, _⟩
  have h1 : a.1 = b.1 := by
    have h2 := congrArg (· % g.width) h
    simp only [Grid.idx] at h2
    rw [Nat.add_comm (a.2 * g.width) a.1, Nat.add_comm (b.2 * g.width) b.1,
      Nat.add_mul_mod_self_right, Nat.add_mul_mod_self_right,
      Nat.mod_eq_of_lt ha1, Nat.mod_eq_of_lt hb1] at h2
    exact h2
  have hw : 0 < g.width := Nat.lt_of_le_of_lt (Nat.zero_le _) ha1
  have h2 : a.2 = b.2 := by
    have h3 : a.2 * g.width = b.2 * g.width := by
      simp only [Grid.idx, h1] at h
      omega
    exact Nat.eq_of_mul_eq_mul_right hw h3
  exact Prod.ext h1 h2

theorem Cell.contains_insert (c : Cell) (d e : Dir) :
    (c.insert d).contains e = (c.contains e || decide (d = e)) := by
  cases d <;> cases e <;> simp [Cell.insert, Cell.contains]

theorem Cell.contains_empty (e : Dir) : Cell.empty.contains e = false := by
  cases e <;> rfl

theorem Cell.is_empty_eq_false_of_contains {c : Cell} {d : Dir}
    (h : c.contains d = true) : c.is_empty = false := by
  rcases c with ⟨n, s, e, w⟩
  cases d <;> simp_all [Cell.contains, Cell.is_empty]

theorem Cell.is_empty_iff {c : Cell} :
    c.is_empty = true ↔ ∀ d, c.contains d = false := by
  rcases c with ⟨n, s, e, w⟩
  constructor
  · intro h d
    cases d <;> simp_all [Cell.contains, Cell.is_empty]
  · intro h
    have h1 := h .north
    have h2 := h .south
    have h3 := h .east
    have h4 := h .west
    simp_all [Cell.contains, Cell.is_empty]

theorem Dir.opposite_opposite (d : Dir) : d.opposite.opposite = d := by
  cases d <;> rfl

theorem Dir.opposite_inj {d e : Dir} (h : d.opposite = e.opposite) : d = e := by
  cases d <;> cases e <;> simp_all [Dir.opposite]

theorem Grid.next_eq_dirStep (g : Grid) (c : Coords) (d : Dir) :
    g.get_next_cell_coords c d =
      if g.inBounds c then
        match dirStep c d with
        | some n => if g.inBounds n then some n else none
        | none => none
      else none := by
  cases d <;> rfl

theorem Grid.next_eq_some {g : Grid} {c n : Coords} {d : Dir} :
    g.get_next_cell_coords c d = some n ↔
      g.inBounds c = true ∧ g.inBounds n = true ∧ dirStep c d = some n := by
  rw [Grid.next_eq_dirStep]
  by_cases hb : g.inBounds c = true
  · rw [if_pos hb]
    simp only [hb, true_and]
    cases hs : dirStep c d with
    | none => simp
    | some m =>
      dsimp only
      by_cases hn : g.inBounds m = true
      · rw [if_pos hn]
        constructor
        · intro h
          injection h with h
          subst h
          exact ⟨hn, rfl⟩
        · rintro ⟨_, h⟩
          exact h
      · rw [if_neg hn]
        constructor
        · intro h
          exact absurd h (by simp)
        · rintro ⟨h1, h2⟩
          injection h2 with h2
          subst h2
          exact absurd h1 hn
  · rw [if_neg hb]
    simp [hb]

theorem dirStep_symm {c n : Coords} {d : Dir} (h : dirStep c d = some n) :
    dirStep n d.opposite = some c := by
  cases d with
  | north =>
    simp only [dirStep] at h
    by_cases h0 : c.2 = 0
    · simp [h0] at h
    · simp only [h0, if_false] at h
      injection h with h
      subst h
      simp only [Dir.opposite, dirStep]
      congr 1
      have : c.2 - 1 + 1 = c.2 := by omega
      rw [this]
  | south =>
    simp only [dirStep] at h
    injection h with h
    subst h
    simp only [Dir.opposite, dirStep]
    simp
  | east =>
    simp only [dirStep] at h
    injection h with h
    subst h
    simp only [Dir.opposite, dirStep]
    simp
  | west =>
    simp only [dirStep] at h
    by_cases h0 : c.1 = 0
    · simp [h0] at h
    · simp only [h0, if_false] at h
      injection h with h
      subst h
      simp only [Dir.opposite, dirStep]
      congr 1
      have : c.1 - 1 + 1 = c.1 := by omega
      rw [this]

theorem dirStep_ne {c n : Coords} {d : Dir} (h : dirStep c d = some n) :
    n ≠ c := by
  cases d <;> simp only [dirStep] at h
  · by_cases h0 : c.2 = 0
    · simp [h0] at h
    · simp only [h0, if_false] at h
      injection h with h
      subst h
      intro he
      have := congrArg Prod.snd he
      simp at this
      omega
  · injection h with h
    subst h
    intro he
    have := congrArg Prod.snd he
    simp at this
  · injection h with h
    subst h
    intro he
    have := congrArg Prod.fst he
    simp at this
  · by_cases h0 : c.1 = 0
    · simp [h0] at h
    · simp only [h0, if_false] at h
      injection h with h
      subst h
      intro he
      have := congrArg Prod.fst he
      simp at this
      omega

theorem Grid.next_symm {g : Grid} {c n : Coords} {d : Dir}
    (h : g.get_next_cell_coords c d = some n) :
    g.get_next_cell_coords n d.opposite = some c := by
  rcases Grid.next_eq_some.1 h with ⟨hc, hn, hs⟩
  exact Grid.next_eq_some.2 ⟨hn, hc, dirStep_symm hs⟩

theorem Grid.next_ne {g : Grid} {c n : Coords} {d : Dir}
    (h : g.get_next_cell_coords c d = some n) : n ≠ c :=
  dirStep_ne (Grid.next_eq_some.1 h).2.2

theorem Grid.next_src_unique {g : Grid} {a b n : Coords} {d : Dir}
    (ha : g.get_next_cell_coords a d = some n)
    (hb : g.get_next_cell_coords b d = some n) : a = b := by
  have h1 := Grid.next_symm ha
  have h2 := Grid.next_symm hb
  rw [h1] at h2
  exact Option.some_inj.1 h2

theorem Grid.next_idx_ne {g : Grid} {c n : Coords} {d : Dir}
    (h : g.get_next_cell_coords c d = some n) : g.idx n ≠ g.idx c := by
  rcases Grid.next_eq_some.1 h with ⟨hc, hn, hs⟩
  have hw : 0 < g.width := Nat.lt_of_le_of_lt (Nat.zero_le _)
    (Grid.inBounds_iff.1 hc).1
  cases d <;> simp only [dirStep] at hs
  · by_cases h0 : c.2 = 0
    · simp [h0] at hs
    · simp only [h0, if_false] at hs
      injection hs with hs
      subst hs
      simp only [Grid.idx]
      have h5 : (c.2 - 1) * g.width + g.width = c.2 * g.width := by
        have h6 : c.2 - 1 + 1 = c.2 := by omega
        calc (c.2 - 1) * g.width + g.width = (c.2 - 1 + 1) * g.width := by
              rw [Nat.succ_mul]
          _ = c.2 * g.width := by rw [h6]
      omega
  · injection hs with hs
    subst hs
    simp only [Grid.idx, Nat.succ_mul]
    omega
  · injection hs with hs
    subst hs
    simp only [Grid.idx]
    omega
  · by_cases h0 : c.1 = 0
    · simp [h0] at hs
    · simp only [h0, if_false] at hs
      injection hs with hs
      subst hs
      simp only [Grid.idx]
      omega

theorem listGetD_replicate {α : Type} (n i : Nat) (a : α) :
    (List.replicate n a).getD i a = a := by
  induction n generalizing i with
  | zero => simp
  | succ m ih =>
    cases i with
    | zero => simp [List.replicate_succ]
    | succ j => simp [List.replicate_succ, ih]

theorem Grid.get_cell_new (w h : Nat) (c : Coords) :
    (Grid.new w h).get_cell c = Cell.empty :=
  listGetD_replicate _ _ _

theorem Grid.new_WF (w h : Nat) : (Grid.new w h).WF := by
  simp [Grid.WF, Grid.new]

theorem Grid.get_cell_set_self {g : Grid} (hwf : g.WF) {c : Coords}
    (hc : g.inBounds c = true) (cell : Cell) :
    (g.set_cell c cell).get_cell c = cell :=
  listGetD_set_self _ _ _ _ (Grid.idx_lt hwf hc)

theorem Grid.get_cell_set_ne {g : Grid} {c x : Coords}
    (hne : g.idx c ≠ g.idx x) (cell : Cell) :
    (g.set_cell c cell).get_cell x = g.get_cell x :=
  listGetD_set_ne _ hne _ _

theorem Grid.set_cell_WF {g : Grid} (hwf : g.WF) (c : Coords) (cell : Cell) :
    (g.set_cell c cell).WF := by
  simpa [Grid.WF, Grid.set_cell] using hwf

theorem Grid.set_cell_inBounds (g : Grid) (c : Coords) (cell : Cell) (x : Coords) :
    (g.set_cell c cell).inBounds x = g.inBounds x := rfl

theorem Grid.carve_some {g : Grid} {c : Coords} {d : Dir} {n : Coords} {g' : Grid}
    (h : g.carve_passage c d = some (n, g')) :
    g.get_next_cell_coords c d = some n ∧
      g' = (g.set_cell c ((g.get_cell c).insert d)).set_cell n
        (((g.set_cell c ((g.get_cell c).insert d)).get_cell n).insert
          d.opposite) := by
  unfold Grid.carve_passage at h
  cases hnx : g.get_next_cell_coords c d with
  | none =>
    rw [hnx] at h
    exact absurd h (by simp)
  | some m =>
    rw [hnx] at h
    dsimp only at h
    rw [Option.some.injEq, Prod.mk.injEq] at h
    obtain ⟨h1, h2⟩ := h
    subst h1
    exact ⟨rfl, h2.symm⟩

theorem Grid.carve_width {g : Grid} {c : Coords} {d : Dir} {n : Coords}
    {g' : Grid} (h : g.carve_passage c d = some (n, g')) :
    g'.width = g.width := by
  obtain ⟨_, h2⟩ := Grid.carve_some h
  subst h2
  rfl

theorem Grid.carve_height {g : Grid} {c : Coords} {d : Dir} {n : Coords}
    {g' : Grid} (h : g.carve_passage c d = some (n, g')) :
    g'.height = g.height := by
  obtain ⟨_, h2⟩ := Grid.carve_some h
  subst h2
  rfl

theorem Grid.carve_WF {g : Grid} {c : Coords} {d : Dir} {n : Coords}
    {g' : Grid} (hwf : g.WF) (h : g.carve_passage c d = some (n, g')) :
    g'.WF := by
  obtain ⟨_, h2⟩ := Grid.carve_some h
  subst h2
  exact Grid.set_cell_WF (Grid.set_cell_WF hwf _ _) _ _

theorem Grid.carve_next {g : Grid} {c : Coords} {d : Dir} {n : Coords}
    {g' : Grid} (h : g.carve_passage c d = some (n, g')) :
    g.get_next_cell_coords c d = some n :=
  (Grid.carve_some h).1

theorem Grid.carve_inBounds {g : Grid} {c : Coords} {d : Dir} {n : Coords}
    {g' : Grid} (h : g.carve_passage c d = some (n, g')) (x : Coords) :
    g'.inBounds x = g.inBounds x := by
  simp [Grid.inBounds, Grid.carve_width h, Grid.carve_height h]

theorem Grid.carve_get_cell {g : Grid} {c : Coords} {d : Dir} {n : Coords}
    {g' : Grid} (hwf : g.WF) (h : g.carve_passage c d = some (n, g'))
    (x : Coords) (hx : g.inBounds x = true) :
    g'.get_cell x =
      if x = c then (g.get_cell c).insert d
      else if x = n then (g.get_cell n).insert d.opposite
      else g.get_cell x := by
  obtain ⟨hnx, hg⟩ := Grid.carve_some h
  have hc : g.inBounds c = true := (Grid.next_eq_some.1 hnx).1
  have hn : g.inBounds n = true := (Grid.next_eq_some.1 hnx).2.1
  have hidx : g.idx n ≠ g.idx c := Grid.next_idx_ne hnx
  subst hg
  set g1 := g.set_cell c ((g.get_cell c).insert d) with hg1
  have hwf1 : g1.WF := Grid.set_cell_WF hwf _ _
  by_cases hxc : x = c
  · subst hxc
    rw [if_pos rfl]
    have step1 : (g1.set_cell n ((g1.get_cell n).insert d.opposite)).get_cell x =
        g1.get_cell x :=
      Grid.get_cell_set_ne (show g1.idx n ≠ g1.idx x from hidx) _
    rw [step1, hg1]
    exact Grid.get_cell_set_self hwf hc _
  · rw [if_neg hxc]
    by_cases hxn : x = n
    · subst hxn
      rw [if_pos rfl]
      have step1 : (g1.set_cell x ((g1.get_cell x).insert d.opposite)).get_cell x =
          (g1.get_cell x).insert d.opposite :=
        Grid.get_cell_set_self hwf1 (show g1.inBounds x = true from hn) _
      have step2 : g1.get_cell x = g.get_cell x := by
        rw [hg1]
        exact Grid.get_cell_set_ne (fun he => hxc (Grid.idx_inj hx hc he.symm)) _
      rw [step1, step2]
    · rw [if_neg hxn]
      have step1 : (g1.set_cell n ((g1.get_cell n).insert d.opposite)).get_cell x =
          g1.get_cell x :=
        Grid.get_cell_set_ne
          (show g1.idx n ≠ g1.idx x from
            fun he => hxn (Grid.idx_inj hn hx he).symm) _
      have step2 : g1.get_cell x = g.get_cell x := by
        rw [hg1]
        exact Grid.get_cell_set_ne (fun he => hxc (Grid.idx_inj hx hc he.symm)) _
      rw [step1, step2]

theorem Grid.is_carved_carve {g : Grid} {c : Coords} {d : Dir} {n : Coords}
    {g' : Grid} (hwf : g.WF) (h : g.carve_passage c d = some (n, g'))
    (x : Coords) (e : Dir) :
    g'.is_carved x e = true ↔
      (g.is_carved x e = true ∨ (x = c ∧ e = d) ∨ (x = n ∧ e = d.opposite)) := by
  have hc : g.inBounds c = true := (Grid.next_eq_some.1 (Grid.carve_next h)).1
  have hn : g.inBounds n = true := (Grid.next_eq_some.1 (Grid.carve_next h)).2.1
  by_cases hx : g.inBounds x = true
  · simp only [Grid.is_carved]
    rw [Grid.carve_inBounds h, hx]
    simp only [Bool.true_and]
    rw [Grid.carve_get_cell hwf h x hx]
    by_cases hxc : x = c
    · subst hxc
      rw [if_pos rfl, Cell.contains_insert, Bool.or_eq_true, decide_eq_true_eq]
      have hxn : x ≠ n := (Grid.next_ne (Grid.carve_next h)).symm
      constructor
      · rintro (h1 | h2)
        · exact Or.inl h1
        · exact Or.inr (Or.inl ⟨rfl, h2.symm⟩)
      · rintro (h1 | ⟨_, h2⟩ | ⟨h3, _⟩)
        · exact Or.inl h1
        · exact Or.inr h2.symm
        · exact absurd h3 hxn
    · rw [if_neg hxc]
      by_cases hxn : x = n
      · subst hxn
        rw [if_pos rfl, Cell.contains_insert, Bool.or_eq_true, decide_eq_true_eq]
        constructor
        · rintro (h1 | h2)
          · exact Or.inl h1
          · exact Or.inr (Or.inr ⟨rfl, h2.symm⟩)
        · rintro (h1 | ⟨h3, _⟩ | ⟨_, h2⟩)
          · exact Or.inl h1
          · exact absurd h3 hxc
          · exact Or.inr h2.symm
      · rw [if_neg hxn]
        simp [hxc, hxn]
  · have hx' : g'.inBounds x = false := by
      rw [Grid.carve_inBounds h]
      simpa using hx
    simp only [Grid.is_carved]
    rw [hx', (by simpa using hx : g.inBounds x = false)]
    simp only [Bool.false_and]
    constructor
    · intro hfalse
      exact absurd hfalse (by simp)
    · rintro (hl | ⟨he, _⟩ | ⟨he, _⟩)
      · exact absurd hl (by simp)
      · exact absurd (he ▸ hc) (by simpa using hx)
      · exact absurd (he ▸ hn) (by simpa using hx)

theorem Grid.is_carved_carve_mono {g : Grid} {c : Coords} {d : Dir}
    {n : Coords} {g' : Grid} (hwf : g.WF)
    (h : g.carve_passage c d = some (n, g')) (x : Coords) (e : Dir)
    (hce : g.is_carved x e = true) : g'.is_carved x e = true :=
  (Grid.is_carved_carve hwf h x e).2 (Or.inl hce)

theorem Grid.visited_carve {g : Grid} {c : Coords} {d : Dir} {n : Coords}
    {g' : Grid} (hwf : g.WF) (h : g.carve_passage c d = some (n, g'))
    (x : Coords) (hx : g.inBounds x = true) :
    g'.is_cell_visited x = true ↔
      (g.is_cell_visited x = true ∨ x = c ∨ x = n) := by
  unfold Grid.is_cell_visited
  rw [Grid.carve_get_cell hwf h x hx]
  by_cases hxc : x = c
  · subst hxc
    rw [if_pos rfl]
    have hne : ((g.get_cell x).insert d).is_empty = false :=
      Cell.is_empty_eq_false_of_contains (d := d)
        (by rw [Cell.contains_insert]; simp)
    simp [hne]
  · rw [if_neg hxc]
    by_cases hxn : x = n
    · subst hxn
      rw [if_pos rfl]
      have hne : ((g.get_cell x).insert d.opposite).is_empty = false :=
        Cell.is_empty_eq_false_of_contains (d := d.opposite)
          (by rw [Cell.contains_insert]; simp)
      simp [hne]
    · rw [if_neg hxn]
      simp [hxc, hxn]

theorem symInv_new (w h : Nat) : SymInv (Grid.new w h) := by
  intro c d n _
  simp [Grid.is_carved, Grid.get_cell_new, Cell.contains_empty]

theorem Grid.next_congr {g g' : Grid} (hw : g'.width = g.width)
    (hh : g'.height = g.height) (c : Coords) (d : Dir) :
    g'.get_next_cell_coords c d = g.get_next_cell_coords c d := by
  have hb : ∀ x, g'.inBounds x = g.inBounds x := by
    intro x
    simp [Grid.inBounds, hw, hh]
  rw [Grid.next_eq_dirStep, Grid.next_eq_dirStep]
  simp only [hb]

theorem symInv_carve {g : Grid} {c : Coords} {d : Dir} {n : Coords}
    {g' : Grid} (hwf : g.WF) (h : g.carve_passage c d = some (n, g'))
    (hs : SymInv g) : SymInv g' := by
  intro c' d' n' hn'
  rw [Grid.next_congr (Grid.carve_width h) (Grid.carve_height h)] at hn'
  have hcd : g.get_next_cell_coords c d = some n := Grid.carve_next h
  rw [Grid.is_carved_carve hwf h c' d', Grid.is_carved_carve hwf h n' d'.opposite]
  have hIH := hs c' d' n' hn'
  constructor
  · rintro (hl | ⟨hec, hed⟩ | ⟨hen, hed⟩)
    · exact Or.inl (hIH.1 hl)
    · subst hec
      subst hed
      have he : n' = n := by
        rw [hn'] at hcd
        exact Option.some_inj.1 hcd
      exact Or.inr (Or.inr ⟨he, rfl⟩)
    · subst hen
      subst hed
      have he : n' = c := by
        have h2 := Grid.next_symm hcd
        rw [hn'] at h2
        exact Option.some_inj.1 h2
      exact Or.inr (Or.inl ⟨he, Dir.opposite_opposite d⟩)
  · rintro (hr | ⟨hec, hed⟩ | ⟨hen, hed⟩)
    · exact Or.inl (hIH.2 hr)
    · subst hec
      have hd' : d' = d.opposite := by
        have := congrArg Dir.opposite hed
        rwa [Dir.opposite_opposite] at this
      subst hd'
      have hc' : c' = n := by
        have h2 := Grid.next_symm hn'
        rw [Dir.opposite_opposite] at h2
        rw [h2] at hcd
        exact Option.some_inj.1 hcd
      exact Or.inr (Or.inr ⟨hc', rfl⟩)
    · subst hen
      have hd' : d' = d := Dir.opposite_inj hed
      subst hd'
      have hc' : c' = c := Grid.next_src_unique hn' hcd
      exact Or.inr (Or.inl ⟨hc', rfl⟩)

theorem carve_seq_wf_sym {steps : List (Coords × Dir)} {g g2 : Grid}
    (hwf : g.WF) (hs : SymInv g) (h : g.carve_seq steps = some g2) :
    g2.WF ∧ SymInv g2 := by
  induction steps generalizing g with
  | nil =>
    simp only [Grid.carve_seq, List.foldlM_nil, Option.pure_def,
      Option.some.injEq] at h
    subst h
    exact ⟨hwf, hs⟩
  | cons s rest ih =>
    simp only [Grid.carve_seq, List.foldlM_cons] at h
    cases hc : g.carve_passage s.1 s.2 with
    | none => rw [hc] at h; simp at h
    | some p =>
      rw [hc] at h
      simp only [Option.map_some, Option.bind_eq_bind, Option.some_bind] at h
      exact ih (Grid.carve_WF hwf hc) (symInv_carve hwf hc hs) h

/-- C2: starting from an empty grid, any sequence of successful
`carve_passage` operations preserves the symmetry invariant (`is_carved`
at a cell iff `is_carved` in the opposite direction at the in-bounds
neighbour), and a single successful `carve_passage` sets both twin flags
simultaneously. -/
theorem C2_carve_symmetry :
    (∀ (w h : Nat) (steps : List (Coords × Dir)) (g : Grid),
      (Grid.new w h).carve_seq steps = some g → SymInv g) ∧
    (∀ (g : Grid) (c : Coords) (d : Dir) (n : Coords) (g' : Grid), g.WF →
      g.carve_passage c d = some (n, g') →
      g'.is_carved c d = true ∧ g'.is_carved n d.opposite = true) := by
  constructor
  · intro w h steps g hseq
    exact (carve_seq_wf_sym (Grid.new_WF w h) (symInv_new w h) hseq).2
  · intro g c d n g' hwf hcv
    constructor
    · exact (Grid.is_carved_carve hwf hcv c d).2 (Or.inr (Or.inl ⟨rfl, rfl⟩))
    · exact (Grid.is_carved_carve hwf hcv n d.opposite).2
        (Or.inr (Or.inr ⟨rfl, rfl⟩))

/-- Witness for C2 at concrete inputs: the canonical fixture satisfies the
symmetry invariant, and carving east from (0,0) in a fresh 2x1 grid sets
both twin flags. -/
theorem C2_carve_symmetry_witness :
    SymInv fixtureGrid ∧
    ((Grid.mk 2 1 [⟨false, false, true, false⟩,
        ⟨false, false, false, true⟩]).is_carved (0, 0) .east = true ∧
      (Grid.mk 2 1 [⟨false, false, true, false⟩,
        ⟨false, false, false, true⟩]).is_carved (1, 0) Dir.east.opposite = true) :=
  ⟨C2_carve_symmetry.1 4 4 fixtureSteps fixtureGrid (by decide),
   C2_carve_symmetry.2 (Grid.new 2 1) (0, 0) .east (1, 0)
     (Grid.mk 2 1 [⟨false, false, true, false⟩, ⟨false, false, false, true⟩])
     (Grid.new_WF 2 1) (by decide)⟩

theorem maze_iter_length (g : Grid) : (maze_iter g).length = g.cells.length := by
  simp [maze_iter]

theorem maze_iter_getD (g : Grid) (k : Nat) (hk : k < g.cells.length) :
    (maze_iter g).getD k ((0, 0), Cell.empty) =
      ((k % g.width, k / g.width), g.cells.getD k Cell.empty) := by
  unfold maze_iter
  rw [List.getD_eq_getElem?_getD, List.getElem?_map, List.getElem?_range hk]
  simp [List.getD_eq_getElem?_getD]

theorem into_iter_run_spec (w : Nat) : ∀ (n : Nat) (g : Grid) (index : Nat),
    g.cells.length = n →
    (into_iter_run w index g).1 = into_list w index g.cells ∧
      ((into_iter_run w index g).2).cells = [] := by
  intro n
  induction n with
  | zero =>
    intro g index h
    rw [into_iter_run.eq_def]
    split
    next heq =>
      refine ⟨?_, heq⟩
      rw [heq]
      rfl
    next cell rest heq =>
      rw [heq] at h
      simp at h
  | succ m ih =>
    intro g index h
    rw [into_iter_run.eq_def]
    split
    next heq =>
      rw [heq] at h
      simp at h
    next cell rest heq =>
      have hr : ({ g with cells := rest } : Grid).cells.length = m := by
        rw [heq] at h
        simpa using h
      obtain ⟨ih1, ih2⟩ := ih { g with cells := rest } (index + 1) hr
      constructor
      · dsimp only
        rw [heq]
        simp only [into_list]
        exact congrArg _ ih1
      · dsimp only
        exact ih2

theorem into_list_eq (w : Nat) : ∀ (cells : List Cell) (k : Nat),
    into_list w k cells =
      (List.range cells.length).map
        (fun i => (((k + i) % w, (k + i) / w), cells.getD i Cell.empty)) := by
  intro cells
  induction cells with
  | nil => intro k; simp [into_list]
  | cons c rest ih =>
    intro k
    rw [List.length_cons, List.range_succ_eq_map]
    simp only [List.map_cons, List.map_map]
    simp only [into_list]
    rw [List.cons.injEq]
    constructor
    · simp
    · rw [ih (k + 1)]
      apply List.map_congr_left
      intro i _
      simp only [Function.comp_apply]
      have h1 : k + 1 + i = k + (i + 1) := by omega
      rw [h1]
      simp

theorem maze_iter_eq_into_list (g : Grid) :
    maze_iter g = into_list g.width 0 g.cells := by
  rw [into_list_eq]
  unfold maze_iter
  apply List.map_congr_left
  intro i _
  simp

/-- C5: `ends()` returns exactly the `(coordinate, cell)` pairs of the
row-major iterator whose cell has `walls_count() == 3` (as a sublist, so in
row-major order), and on the canonical 4x4 fixture it returns exactly
[((0,0), SOUTH), ((1,0), EAST), ((2,1), WEST), ((3,3), WEST)]. -/
theorem C5_ends :
    (∀ (g : Grid) (p : Coords × Cell),
      p ∈ ends g ↔ p ∈ maze_iter g ∧ p.2.walls_count = 3) ∧
    (∀ g : Grid, (ends g).Sublist (maze_iter g)) ∧
    ends fixtureGrid =
      [((0, 0), ⟨false, true, false, false⟩),
       ((1, 0), ⟨false, false, true, false⟩),
       ((2, 1), ⟨false, false, false, true⟩),
       ((3, 3), ⟨false, false, false, true⟩)] := by
  refine ⟨?_, ?_, by decide⟩
  · intro g p
    unfold ends
    rw [List.mem_filter]
    simp [beq_iff_eq]
  · intro g
    exact List.filter_sublist _

/-- C8: the borrowing iterator over an N-cell grid yields exactly N
entries, the k-th being `((k % width, k / width), cells[k])`, whose
coordinates satisfy `y * width + x = k`; the consuming iterator yields the
same sequence and leaves the underlying cell list empty. -/
theorem C8_iterators :
    (∀ g : Grid, (maze_iter g).length = g.cells.length) ∧
    (∀ (g : Grid) (k : Nat), k < g.cells.length →
      (maze_iter g).getD k ((0, 0), Cell.empty) =
        ((k % g.width, k / g.width), g.cells.getD k Cell.empty)) ∧
    (∀ (g : Grid) (k : Nat), g.WF → k < g.cells.length →
      ((maze_iter g).getD k ((0, 0), Cell.empty)).1.2 * g.width +
        ((maze_iter g).getD k ((0, 0), Cell.empty)).1.1 = k) ∧
    (∀ g : Grid, (into_iter_run g.width 0 g).1 = maze_iter g) ∧
    (∀ g : Grid, ((into_iter_run g.width 0 g).2).cells = []) := by
  refine ⟨maze_iter_length, maze_iter_getD, ?_, ?_, ?_⟩
  · intro g k hwf hk
    rw [maze_iter_getD g k hk]
    have hw : 0 < g.width := by
      rcases Nat.eq_zero_or_pos g.width with h0 | h0
      · rw [Grid.WF, h0, Nat.zero_mul] at hwf
        omega
      · exact h0
    simp only
    rw [Nat.mul_comm]
    exact Nat.div_add_mod k g.width
  · intro g
    rw [(into_iter_run_spec g.width g.cells.length g 0 rfl).1]
    exact (maze_iter_eq_into_list g).symm
  · intro g
    exact (into_iter_run_spec g.width g.cells.length g 0 rfl).2

/-- Witness for C8 at the fixture, k = 5. -/
theorem C8_iterators_witness :
    (5 < fixtureGrid.cells.length ∧
      (maze_iter fixtureGrid).getD 5 ((0, 0), Cell.empty) =
        ((5 % fixtureGrid.width, 5 / fixtureGrid.width),
          fixtureGrid.cells.getD 5 Cell.empty)) ∧
    (fixtureGrid.WF ∧
      ((maze_iter fixtureGrid).getD 5 ((0, 0), Cell.empty)).1.2 *
          fixtureGrid.width +
        ((maze_iter fixtureGrid).getD 5 ((0, 0), Cell.empty)).1.1 = 5) :=
  ⟨⟨by decide, C8_iterators.2.1 fixtureGrid 5 (by decide)⟩,
   ⟨rfl, C8_iterators.2.2.1 fixtureGrid 5 rfl (by decide)⟩⟩

theorem stringJoin_length (l : List String) :
    (String.join l).length = (l.map String.length).sum := by
  rw [String.join_eq]
  show (List.map String.data l).flatten.length = _
  rw [List.length_flatten, List.map_map]
  rfl

theorem strRepeat_length (s : String) (n : Nat) :
    (strRepeat s n).length = n * s.length := by
  unfold strRepeat
  rw [stringJoin_length]
  rw [List.map_replicate, List.sum_replicate, smul_eq_mul]

theorem narrow_cell_length (g : Grid) (x y : Nat) :
    (narrow_cell g x y).length = 2 := by
  unfold narrow_cell
  split_ifs <;> rfl

theorem narrow_row_length (g : Grid) (y : Nat) :
    (narrow_row g y).length = 2 * g.width + 2 := by
  unfold narrow_row
  rw [String.length_append, String.length_append, stringJoin_length]
  have h1 : ((List.range g.width).map (fun x => narrow_cell g x y)).map
      String.length = List.replicate g.width 2 := by
    rw [List.map_map]
    apply List.eq_replicate_iff.2
    refine ⟨by simp, ?_⟩
    intro b hb
    rcases List.mem_map.1 hb with ⟨x, _, hx⟩
    rw [← hx]
    exact narrow_cell_length g x y
  rw [h1, List.sum_replicate, smul_eq_mul]
  show 1 + g.width * 2 + 1 = 2 * g.width + 2
  omega

theorem broad_top_length (g : Grid) (y : Nat) :
    (broad_top g y).length = 4 * g.width + 1 := by
  unfold broad_top
  rw [String.length_append, stringJoin_length]
  have h1 : ((List.range g.width).map
      (fun x => "   " ++ (if g.is_carved (x, y) .east then " " else "|"))).map
      String.length = List.replicate g.width 4 := by
    rw [List.map_map]
    apply List.eq_replicate_iff.2
    refine ⟨by simp, ?_⟩
    intro b hb
    rcases List.mem_map.1 hb with ⟨x, _, hx⟩
    rw [← hx]
    simp only [Function.comp]
    split_ifs <;> rfl
  rw [h1, List.sum_replicate, smul_eq_mul]
  show 1 + g.width * 4 = 4 * g.width + 1
  omega

theorem broad_bottom_length (g : Grid) (y : Nat) :
    (broad_bottom g y).length = 4 * g.width + 1 := by
  unfold broad_bottom
  rw [String.length_append, stringJoin_length]
  have h1 : ((List.range g.width).map
      (fun x => (if g.is_carved (x, y) .south then "   " else "---") ++ "+")).map
      String.length = List.replicate g.width 4 := by
    rw [List.map_map]
    apply List.eq_replicate_iff.2
    refine ⟨by simp, ?_⟩
    intro b hb
    rcases List.mem_map.1 hb with ⟨x, _, hx⟩
    rw [← hx]
    simp only [Function.comp]
    split_ifs <;> rfl
  rw [h1, List.sum_replicate, smul_eq_mul]
  show 1 + g.width * 4 = 4 * g.width + 1
  omega

/-- C6: for every grid of positive width, `AsciiNarrow::format` emits a
first line of `width*2-1` underscores flanked by spaces, followed by one
line per grid row (each of `2*width+2` characters, underscores and spaces
for south walls, pipes for east walls, as defined by `narrow_row`); on the
canonical 4x4 fixture the output is the exact literal of the test suite. -/
theorem C6_ascii_narrow :
    (∀ g : Grid, 1 ≤ g.width →
      ascii_narrow g =
        some (" " ++ strRepeat "_" (g.width * 2 - 1) ++ " \n" ++
          String.join ((List.range g.height).map (narrow_row g)))) ∧
    (∀ n : Nat, (strRepeat "_" n).length = n) ∧
    (∀ (g : Grid) (y : Nat), (narrow_row g y).length = 2 * g.width + 2) ∧
    ascii_narrow fixtureGrid =
      some " _______ \n| |___  |\n|_   _| |\n|  _____|\n|_______|\n" := by
  refine ⟨?_, ?_, narrow_row_length, by decide⟩
  · intro g hw
    unfold ascii_narrow
    rw [if_neg (by omega)]
  · intro n
    rw [strRepeat_length]
    have h1 : "_".length = 1 := rfl
    rw [h1, Nat.mul_one]

/-- Witness for C6 at the fixture grid. -/
theorem C6_ascii_narrow_witness :
    1 ≤ fixtureGrid.width ∧
    ascii_narrow fixtureGrid =
      some (" " ++ strRepeat "_" (fixtureGrid.width * 2 - 1) ++ " \n" ++
        String.join ((List.range fixtureGrid.height).map
          (narrow_row fixtureGrid))) :=
  ⟨by decide, C6_ascii_narrow.1 fixtureGrid (by decide)⟩

/-- C7: `AsciiBroad::format` emits a top border line (`+` then `width`
copies of `---+`), then for each grid row one side-walls line and one
south-walls line, each `4*width+1` characters of `+`, `-`, `|` and spaces
(three-character-wide cells); a zero-width grid contributes no row lines;
on the canonical 4x4 fixture the output is the exact literal of the test
suite. -/
theorem C7_ascii_broad :
    (∀ g : Grid, ascii_broad g =
      "+" ++ strRepeat "---+" g.width ++ "\n" ++
        (if g.width = 0 then ""
         else String.join ((List.range g.height).map
           (fun y => broad_top g y ++ "\n" ++ broad_bottom g y ++ "\n")))) ∧
    (∀ g : Grid, ("+" ++ strRepeat "---+" g.width).length = 4 * g.width + 1) ∧
    (∀ (g : Grid) (y : Nat), (broad_top g y).length = 4 * g.width + 1) ∧
    (∀ (g : Grid) (y : Nat), (broad_bottom g y).length = 4 * g.width + 1) ∧
    ascii_broad fixtureGrid =
      "+---+---+---+---+\n|   |           |\n+   +---+---+   +\n|           |   |\n+---+   +---+   +\n|               |\n+   +---+---+---+\n|               |\n+---+---+---+---+\n" := by
  refine ⟨fun g => rfl, ?_, broad_top_length, broad_bottom_length, by decide⟩
  intro g
  rw [String.length_append, strRepeat_length]
  show 1 + g.width * 4 = 4 * g.width + 1
  omega

/-- C10: `AsciiNarrow::format` computes the top-border length as
`width*2-1` in unsigned arithmetic; for a zero-width grid this underflows
and the call panics (no string is returned, modelled as `none`), while for
any positive width the subtraction is safe and a string is produced. -/
theorem C10_narrow_zero_width :
    (∀ g : Grid, g.width = 0 → ascii_narrow g = none) ∧
    (∀ g : Grid, 1 ≤ g.width → (ascii_narrow g).isSome = true) := by
  constructor
  · intro g h0
    unfold ascii_narrow
    rw [if_pos h0]
  · intro g hw
    unfold ascii_narrow
    rw [if_neg (by omega)]
    rfl

/-- Witness for C10: a 0x5 grid yields no string, the 4x4 fixture does. -/
theorem C10_narrow_zero_width_witness :
    ((Grid.new 0 5).width = 0 ∧ ascii_narrow (Grid.new 0 5) = none) ∧
    (1 ≤ fixtureGrid.width ∧ (ascii_narrow fixtureGrid).isSome = true) :=
  ⟨⟨rfl, C10_narrow_zero_width.1 (Grid.new 0 5) rfl⟩,
   ⟨by decide, C10_narrow_zero_width.2 fixtureGrid (by decide)⟩⟩

theorem Cell.not_is_empty_iff {c : Cell} :
    c.is_empty = false ↔ ∃ d, c.contains d = true := by
  rcases c with ⟨n, s, e, w⟩
  constructor
  · intro h
    cases n
    · cases s
      · cases e
        · cases w
          · simp [Cell.is_empty] at h
          · exact ⟨.west, rfl⟩
        · exact ⟨.east, rfl⟩
      · exact ⟨.south, rfl⟩
    · exact ⟨.north, rfl⟩
  · rintro ⟨d, hd⟩
    exact Cell.is_empty_eq_false_of_contains hd

theorem Cell.insert_not_empty (c : Cell) (d : Dir) :
    (c.insert d).is_empty = false :=
  Cell.is_empty_eq_false_of_contains (d := d)
    (by rw [Cell.contains_insert]; simp)

theorem Grid.visited_iff_exists {g : Grid} {x : Coords}
    (hx : g.inBounds x = true) :
    g.is_cell_visited x = true ↔ ∃ d, g.is_carved x d = true := by
  unfold Grid.is_cell_visited Grid.is_carved
  rw [hx]
  simp only [Bool.true_and, Bool.not_eq_true']
  exact Cell.not_is_empty_iff

theorem cellsLe_refl (g : Grid) : cellsLe g g :=
  ⟨rfl, rfl, rfl, fun _ _ h => h⟩

theorem cellsLe_trans {g1 g2 g3 : Grid} (h1 : cellsLe g1 g2)
    (h2 : cellsLe g2 g3) : cellsLe g1 g3 :=
  ⟨h2.1.trans h1.1, h2.2.1.trans h1.2.1, h2.2.2.1.trans h1.2.2.1,
   fun x e h => h2.2.2.2 x e (h1.2.2.2 x e h)⟩

theorem cellsLe_of_carve {g : Grid} {c : Coords} {d : Dir} {n : Coords}
    {g' : Grid} (hwf : g.WF) (h : g.carve_passage c d = some (n, g')) :
    cellsLe g g' := by
  refine ⟨Grid.carve_width h, Grid.carve_height h, ?_, ?_⟩
  · obtain ⟨_, h2⟩ := Grid.carve_some h
    subst h2
    simp [Grid.set_cell]
  · intro x e he
    exact Grid.is_carved_carve_mono hwf h x e he

theorem cellsLe_inBounds {g g' : Grid} (h : cellsLe g g') (x : Coords) :
    g'.inBounds x = g.inBounds x := by
  simp [Grid.inBounds, h.1, h.2.1]

theorem cellsLe_next {g g' : Grid} (h : cellsLe g g') (c : Coords) (d : Dir) :
    g'.get_next_cell_coords c d = g.get_next_cell_coords c d :=
  Grid.next_congr h.1 h.2.1 c d

theorem cellsLe_visited_mono {g g' : Grid} (h : cellsLe g g') {x : Coords}
    (hx : g.inBounds x = true) (hv : g.is_cell_visited x = true) :
    g'.is_cell_visited x = true := by
  have hx' : g'.inBounds x = true := by rw [cellsLe_inBounds h]; exact hx
  rcases (Grid.visited_iff_exists hx).1 hv with ⟨d, hd⟩
  exact (Grid.visited_iff_exists hx').2 ⟨d, h.2.2.2 x d hd⟩

theorem reach_mono {g g' : Grid} (h : cellsLe g g') {a b : Coords}
    (hr : g.Reach a b) : g'.Reach a b := by
  refine Relation.ReflTransGen.mono ?_ hr
  rintro x y ⟨d, hnext, hcv⟩
  exact ⟨d, by rw [cellsLe_next h]; exact hnext, h.2.2.2 x d hcv⟩

theorem symInv_carvedAdj_symm {g : Grid} (hs : SymInv g) {a b : Coords}
    (h : g.carvedAdj a b) : g.carvedAdj b a := by
  rcases h with ⟨d, hnext, hcv⟩
  exact ⟨d.opposite, Grid.next_symm hnext, (hs a d b hnext).1 hcv⟩

theorem symInv_reach_symm {g : Grid} (hs : SymInv g) {a b : Coords}
    (h : g.Reach a b) : g.Reach b a := by
  induction h with
  | refl => exact Relation.ReflTransGen.refl
  | tail hab hbc ih =>
    exact Relation.ReflTransGen.head (symInv_carvedAdj_symm hs hbc) ih

theorem Grid.gridAdj_symm {g : Grid} {a b : Coords} (h : g.gridAdj a b) :
    g.gridAdj b a := by
  rcases h with ⟨d, hd⟩
  exact ⟨d.opposite, Grid.next_symm hd⟩

theorem Grid.gReach_symm {g : Grid} {a b : Coords} (h : g.GReach a b) :
    g.GReach b a := by
  induction h with
  | refl => exact Relation.ReflTransGen.refl
  | tail hab hbc ih =>
    exact Relation.ReflTransGen.head (Grid.gridAdj_symm hbc) ih

theorem gReach_east (g : Grid) (y : Nat) :
    ∀ (k x1 : Nat), x1 + k < g.width → y < g.height →
      g.GReach (x1, y) (x1 + k, y) := by
  intro k
  induction k with
  | zero =>
    intro x1 _ _
    exact Relation.ReflTransGen.refl
  | succ m ih =>
    intro x1 h1 h2
    have hstep : g.gridAdj (x1, y) (x1 + 1, y) := by
      refine ⟨.east, Grid.next_eq_some.2 ⟨?_, ?_, rfl⟩⟩
      · exact Grid.inBounds_iff.2 ⟨by omega, h2⟩
      · exact Grid.inBounds_iff.2 ⟨by omega, h2⟩
    have ih2 := ih (x1 + 1) (by omega) h2
    have heq : x1 + 1 + m = x1 + (m + 1) := by omega
    rw [heq] at ih2
    exact Relation.ReflTransGen.head hstep ih2

theorem gReach_south (g : Grid) (x : Nat) :
    ∀ (k y1 : Nat), y1 + k < g.height → x < g.width →
      g.GReach (x, y1) (x, y1 + k) := by
  intro k
  induction k with
  | zero =>
    intro y1 _ _
    exact Relation.ReflTransGen.refl
  | succ m ih =>
    intro y1 h1 h2
    have hstep : g.gridAdj (x, y1) (x, y1 + 1) := by
      refine ⟨.south, Grid.next_eq_some.2 ⟨?_, ?_, rfl⟩⟩
      · exact Grid.inBounds_iff.2 ⟨h2, by omega⟩
      · exact Grid.inBounds_iff.2 ⟨h2, by omega⟩
    have ih2 := ih (y1 + 1) (by omega) h2
    have heq : y1 + 1 + m = y1 + (m + 1) := by omega
    rw [heq] at ih2
    exact Relation.ReflTransGen.head hstep ih2

theorem gReach_horiz (g : Grid) {x1 x2 y : Nat} (h1 : x1 < g.width)
    (h2 : x2 < g.width) (hy : y < g.height) : g.GReach (x1, y) (x2, y) := by
  rcases Nat.le_total x1 x2 with hle | hle
  · have := gReach_east g y (x2 - x1) x1 (by omega) hy
    have heq : x1 + (x2 - x1) = x2 := by omega
    rwa [heq] at this
  · have := gReach_east g y (x1 - x2) x2 (by omega) hy
    have heq : x2 + (x1 - x2) = x1 := by omega
    rw [heq] at this
    exact Grid.gReach_symm this

theorem gReach_vert (g : Grid) {x y1 y2 : Nat} (h1 : y1 < g.height)
    (h2 : y2 < g.height) (hx : x < g.width) : g.GReach (x, y1) (x, y2) := by
  rcases Nat.le_total y1 y2 with hle | hle
  · have := gReach_south g x (y2 - y1) y1 (by omega) hx
    have heq : y1 + (y2 - y1) = y2 := by omega
    rwa [heq] at this
  · have := gReach_south g x (y1 - y2) y2 (by omega) hx
    have heq : y2 + (y1 - y2) = y1 := by omega
    rw [heq] at this
    exact Grid.gReach_symm this

theorem Grid.gReach_all {g : Grid} {a b : Coords} (ha : g.inBounds a = true)
    (hb : g.inBounds b = true) : g.GReach a b := by
  rcases Grid.inBounds_iff.1 ha with ⟨ha1, ha2⟩
  rcases Grid.inBounds_iff.1 hb with ⟨hb1, hb2⟩
  have h1 : g.GReach (a.1, a.2) (b.1, a.2) := gReach_horiz g ha1 hb1 ha2
  have h2 : g.GReach (b.1, a.2) (b.1, b.2) := gReach_vert g ha2 hb2 hb1
  exact Relation.ReflTransGen.trans h1 h2

theorem filter_set_length_le {α : Type} (p : α → Bool) (v : α)
    (hv : p v = false) :
    ∀ (l : List α) (i : Nat),
      ((l.set i v).filter p).length ≤ (l.filter p).length := by
  intro l
  induction l with
  | nil => intro i; simp
  | cons b t ih =>
    intro i
    cases i with
    | zero =>
      rw [List.set_cons_zero, List.filter_cons, List.filter_cons, hv]
      cases hb : p b <;> simp
    | succ j =>
      rw [List.set_cons_succ, List.filter_cons, List.filter_cons]
      cases hb : p b <;> simp [ih j]

theorem filter_set_length_lt {α : Type} (p : α → Bool) (v dflt : α)
    (hv : p v = false) :
    ∀ (l : List α) (i : Nat), i < l.length → p (l.getD i dflt) = true →
      ((l.set i v).filter p).length < (l.filter p).length := by
  intro l
  induction l with
  | nil => intro i hi; simp at hi
  | cons b t ih =>
    intro i hi hold
    cases i with
    | zero =>
      rw [List.set_cons_zero, List.filter_cons, List.filter_cons, hv]
      simp only [List.getD_cons_zero] at hold
      rw [hold]
      simp
    | succ j =>
      rw [List.set_cons_succ, List.filter_cons, List.filter_cons]
      simp only [List.getD_cons_succ] at hold
      have := ih j (by simpa using hi) hold
      cases hb : p b <;> simp [this]

theorem Grid.set_cell_emptyCount_le (g : Grid) (c : Coords) (cell : Cell)
    (hc : cell.is_empty = false) :
    (g.set_cell c cell).emptyCount ≤ g.emptyCount := by
  simp only [Grid.emptyCount, Grid.set_cell]
  exact filter_set_length_le _ _ hc _ _

theorem Grid.set_cell_emptyCount_lt (g : Grid) {c : Coords} (cell : Cell)
    (hwf : g.WF) (hin : g.inBounds c = true) (hc : cell.is_empty = false)
    (hold : (g.get_cell c).is_empty = true) :
    (g.set_cell c cell).emptyCount < g.emptyCount := by
  simp only [Grid.emptyCount, Grid.set_cell]
  apply filter_set_length_lt _ _ Cell.empty hc
  · exact Grid.idx_lt hwf hin
  · exact hold

theorem Grid.carve_emptyCount_le {g : Grid} {c : Coords} {d : Dir}
    {n : Coords} {g' : Grid} (h : g.carve_passage c d = some (n, g')) :
    g'.emptyCount ≤ g.emptyCount := by
  obtain ⟨hnx, hg⟩ := Grid.carve_some h
  subst hg
  exact le_trans
    (Grid.set_cell_emptyCount_le _ _ _ (Cell.insert_not_empty _ _))
    (Grid.set_cell_emptyCount_le _ _ _ (Cell.insert_not_empty _ _))

theorem Grid.carve_emptyCount_lt {g : Grid} {c : Coords} {d : Dir}
    {n : Coords} {g' : Grid} (hwf : g.WF)
    (h : g.carve_passage c d = some (n, g'))
    (hnv : g.is_cell_visited n = false) : g'.emptyCount < g.emptyCount := by
  obtain ⟨hnx, hg⟩ := Grid.carve_some h
  have hn : g.inBounds n = true := (Grid.next_eq_some.1 hnx).2.1
  have hidx : g.idx n ≠ g.idx c := Grid.next_idx_ne hnx
  subst hg
  refine lt_of_lt_of_le ?_
    (Grid.set_cell_emptyCount_le g c ((g.get_cell c).insert d)
      (Cell.insert_not_empty _ _))
  apply Grid.set_cell_emptyCount_lt (g.set_cell c ((g.get_cell c).insert d))
    (((g.set_cell c ((g.get_cell c).insert d)).get_cell n).insert d.opposite)
    (Grid.set_cell_WF hwf _ _)
    (show (g.set_cell c ((g.get_cell c).insert d)).inBounds n = true from hn)
    (Cell.insert_not_empty _ _)
  rw [show (g.set_cell c ((g.get_cell c).insert d)).get_cell n = g.get_cell n
    from Grid.get_cell_set_ne (fun he => hidx he.symm) _]
  unfold Grid.is_cell_visited at hnv
  simpa using hnv

theorem shuffle_mem (r : Rng) (d : Dir) : d ∈ (r.shuffle).1 := by
  have hall : ∀ l ∈ perms4,
      Dir.north ∈ l ∧ Dir.south ∈ l ∧ Dir.east ∈ l ∧ Dir.west ∈ l := by
    decide
  unfold Rng.shuffle
  dsimp only
  have hlen : (r.next).1 % 24 < perms4.length := Nat.mod_lt _ (by decide)
  have hmem : perms4.getD ((r.next).1 % 24) dirs4 ∈ perms4 := by
    rw [List.getD_eq_getElem?_getD, List.getElem?_eq_getElem hlen]
    exact List.getElem_mem hlen
  rcases hall _ hmem with ⟨h1, h2, h3, h4⟩
  cases d
  · exact h1
  · exact h2
  · exact h3
  · exact h4

theorem gridAdj_of_le {g g' : Grid} (hle : cellsLe g g') {x m : Coords}
    (h : g.gridAdj x m) : g'.gridAdj x m := by
  rcases h with ⟨dm, hdm⟩
  exact ⟨dm, by rw [cellsLe_next hle]; exact hdm⟩

theorem carve_dirs_post (f : Nat)
    (IH : ∀ (c2 : Coords) (g2 : Grid) (r2 : Rng), g2.WF →
      g2.inBounds c2 = true → g2.emptyCount < f →
      RBFromPost c2 g2 (carve_passages_from f c2 g2 r2).1) :
    ∀ (ds : List Dir) (c : Coords) (g : Grid) (r : Rng), g.WF →
      g.inBounds c = true → g.emptyCount ≤ f →
      RBDirsPost c ds g (carve_dirs f ds c g r).1 := by
  intro ds
  induction ds with
  | nil =>
    intro c g r hwf hc hf
    simp only [carve_dirs]
    refine ⟨hwf, cellsLe_refl g, Nat.le_refl _, ?_, ?_, ?_⟩
    · intro x _ hv hv'
      rw [hv'] at hv
      exact absurd hv (by simp)
    · intro x _ _ hv hv' m _
      rw [hv'] at hv
      exact absurd hv (by simp)
    · intro d hd
      simp at hd
  | cons d rest ih =>
    intro c g r hwf hc hf
    simp only [carve_dirs]
    cases hnx : g.get_next_cell_coords c d with
    | none =>
      have hrec := ih c g r hwf hc hf
      refine ⟨hrec.1, hrec.2.1, hrec.2.2.1, hrec.2.2.2.1, hrec.2.2.2.2.1, ?_⟩
      intro d' hd' m hm
      rcases List.mem_cons.1 hd' with he | he
      · subst he
        rw [hm] at hnx
        exact absurd hnx (by simp)
      · exact hrec.2.2.2.2.2 d' he m hm
    | some next =>
      dsimp only
      have hnb : g.inBounds next = true := (Grid.next_eq_some.1 hnx).2.1
      by_cases hv : g.is_cell_visited next = true
      · rw [if_pos hv]
        have hrec := ih c g r hwf hc hf
        refine ⟨hrec.1, hrec.2.1, hrec.2.2.1, hrec.2.2.2.1, hrec.2.2.2.2.1, ?_⟩
        intro d' hd' m hm
        rcases List.mem_cons.1 hd' with he | he
        · subst he
          have hmn : m = next := by
            rw [hm] at hnx
            exact Option.some_inj.1 hnx
          subst hmn
          exact cellsLe_visited_mono hrec.2.1 hnb hv
        · exact hrec.2.2.2.2.2 d' he m hm
      · rw [if_neg hv]
        cases hcv : g.carve_passage c d with
        | none =>
          exfalso
          unfold Grid.carve_passage at hcv
          rw [hnx] at hcv
          exact absurd hcv (by simp)
        | some p =>
          dsimp only
          have hcv' : g.carve_passage c d = some (p.1, p.2) := hcv
          have hp1 : next = p.1 := by
            have h1 := Grid.carve_next hcv'
            rw [hnx] at h1
            exact Option.some_inj.1 h1
          subst hp1
          have hnv : g.is_cell_visited p.1 = false := by simpa using hv
          have hwf1 : p.2.WF := Grid.carve_WF hwf hcv'
          have hle1 : cellsLe g p.2 := cellsLe_of_carve hwf hcv'
          have hec1 : p.2.emptyCount < g.emptyCount :=
            Grid.carve_emptyCount_lt hwf hcv' hnv
          have hinb1 : p.2.inBounds p.1 = true := by
            rw [cellsLe_inBounds hle1]
            exact hnb
          obtain ⟨hwf2, hle2, hec2, hreach2, hclose2, hnbr2⟩ :=
            IH p.1 p.2 r hwf1 hinb1 (lt_of_lt_of_le hec1 hf)
          have hinb_c2 : (carve_passages_from f p.1 p.2 r).1.inBounds c = true := by
            rw [cellsLe_inBounds hle2, cellsLe_inBounds hle1]
            exact hc
          have hf2 : (carve_passages_from f p.1 p.2 r).1.emptyCount ≤ f :=
            le_trans hec2 (le_trans (le_of_lt hec1) hf)
          obtain ⟨hwf3, hle3, hec3, hreach3, hclose3, hnbr3⟩ :=
            ih c (carve_passages_from f p.1 p.2 r).1
              (carve_passages_from f p.1 p.2 r).2 hwf2 hinb_c2 hf2
          have hleA : cellsLe g (carve_passages_from f p.1 p.2 r).1 :=
            cellsLe_trans hle1 hle2
          have hleB : cellsLe g
              (carve_dirs f rest c (carve_passages_from f p.1 p.2 r).1
                (carve_passages_from f p.1 p.2 r).2).1 :=
            cellsLe_trans hleA hle3
          have hedge1 : p.2.is_carved c d = true :=
            (Grid.is_carved_carve hwf hcv' c d).2 (Or.inr (Or.inl ⟨rfl, rfl⟩))
          have hvisn1 : p.2.is_cell_visited p.1 = true :=
            (Grid.visited_carve hwf hcv' p.1 hnb).2 (Or.inr (Or.inr rfl))
          have hedgeF : (carve_dirs f rest c (carve_passages_from f p.1 p.2 r).1
              (carve_passages_from f p.1 p.2 r).2).1.is_carved c d = true :=
            hle3.2.2.2 c d (hle2.2.2.2 c d hedge1)
          have hreach_cn : (carve_dirs f rest c (carve_passages_from f p.1 p.2 r).1
              (carve_passages_from f p.1 p.2 r).2).1.Reach c p.1 := by
            refine Relation.ReflTransGen.single ⟨d, ?_, hedgeF⟩
            rw [cellsLe_next hleB]
            exact hnx
          refine ⟨hwf3, hleB,
            le_trans hec3 (le_trans hec2 (le_of_lt hec1)), ?_, ?_, ?_⟩
          · intro x hx hxv hxv'
            by_cases hx2 : (carve_passages_from f p.1 p.2 r).1.is_cell_visited x = true
            · by_cases hx1 : p.2.is_cell_visited x = true
              · rcases (Grid.visited_carve hwf hcv' x hx).1 hx1 with hgv | hxc | hxn
                · rw [hgv] at hxv
                  exact absurd hxv (by simp)
                · subst hxc
                  exact Relation.ReflTransGen.refl
                · subst hxn
                  exact hreach_cn
              · have hx1' : p.2.inBounds x = true := by
                  rw [cellsLe_inBounds hle1]
                  exact hx
                have hr := hreach2 x hx1' (by simpa using hx1) hx2
                have hrF := reach_mono hle3 hr
                exact Relation.ReflTransGen.trans hreach_cn hrF
            · have hxq : (carve_passages_from f p.1 p.2 r).1.inBounds x = true := by
                rw [cellsLe_inBounds hleA]
                exact hx
              exact hreach3 x hxq (by simpa using hx2) hxv'
          · intro x hne hx hxv hxv' m hm
            have hminb : g.inBounds m = true := by
              rcases hm with ⟨dm, hdm⟩
              exact (Grid.next_eq_some.1 hdm).2.1
            by_cases hx2 : (carve_passages_from f p.1 p.2 r).1.is_cell_visited x = true
            · by_cases hx1 : p.2.is_cell_visited x = true
              · rcases (Grid.visited_carve hwf hcv' x hx).1 hx1 with hgv | hxc | hxn
                · rw [hgv] at hxv
                  exact absurd hxv (by simp)
                · exact absurd hxc hne
                · subst hxn
                  have h7 := hnbr2 m (gridAdj_of_le hle1 hm)
                  exact cellsLe_visited_mono hle3
                    (by rw [cellsLe_inBounds hleA]; exact hminb) h7
              · have hx1' : p.2.inBounds x = true := by
                  rw [cellsLe_inBounds hle1]
                  exact hx
                have h7 := hclose2 x hx1' (by simpa using hx1) hx2 m
                  (gridAdj_of_le hle1 hm)
                exact cellsLe_visited_mono hle3
                  (by rw [cellsLe_inBounds hleA]; exact hminb) h7
            · have hxq : (carve_passages_from f p.1 p.2 r).1.inBounds x = true := by
                rw [cellsLe_inBounds hleA]
                exact hx
              exact hclose3 x hne hxq (by simpa using hx2) hxv' m
                (gridAdj_of_le hleA hm)
          · intro d' hd' m hm
            rcases List.mem_cons.1 hd' with he | he
            · subst he
              have hmn : m = p.1 := by
                rw [hm] at hnx
                exact Option.some_inj.1 hnx
              subst hmn
              have h7 : (carve_passages_from f p.1 p.2 r).1.is_cell_visited p.1 = true :=
                cellsLe_visited_mono hle2
                  (by rw [cellsLe_inBounds hle1]; exact hnb) hvisn1
              exact cellsLe_visited_mono hle3
                (by rw [cellsLe_inBounds hleA]; exact hnb) h7
            · apply hnbr3 d' he m
              rw [cellsLe_next hleA]
              exact hm

theorem carve_from_post : ∀ (f : Nat) (c : Coords) (g : Grid) (r : Rng),
    g.WF → g.inBounds c = true → g.emptyCount < f →
    RBFromPost c g (carve_passages_from f c g r).1 := by
  intro f
  induction f with
  | zero =>
    intro c g r _ _ hf
    exact absurd hf (Nat.not_lt_zero _)
  | succ f ih =>
    intro c g r hwf hc hf
    simp only [carve_passages_from]
    obtain ⟨h1, h2, h3, h4, h5, h6⟩ :=
      carve_dirs_post f ih (r.shuffle).1 c g (r.shuffle).2 hwf hc (by omega)
    refine ⟨h1, h2, h3, h4, ?_, ?_⟩
    · intro x hx hxv hxv' m hm
      by_cases hxc : x = c
      · subst hxc
        rcases hm with ⟨dm, hdm⟩
        exact h6 dm (shuffle_mem r dm) m hdm
      · exact h5 x hxc hx hxv hxv' m hm
    · intro m hm
      rcases hm with ⟨dm, hdm⟩
      exact h6 dm (shuffle_mem r dm) m hdm

theorem new_visited_false (w h : Nat) (x : Coords) :
    (Grid.new w h).is_cell_visited x = false := by
  unfold Grid.is_cell_visited
  rw [Grid.get_cell_new]
  rfl

theorem exists_gridAdj_of_two {w h : Nat} {start : Coords}
    (hs : (Grid.new w h).inBounds start = true) (hN : 2 ≤ w * h) :
    ∃ m, (Grid.new w h).gridAdj start m := by
  rcases Grid.inBounds_iff.1 hs with ⟨h1, h2⟩
  simp only [Grid.new] at h1 h2
  by_cases he : start.1 + 1 < w
  · refine ⟨(start.1 + 1, start.2), .east, Grid.next_eq_some.2
      ⟨hs, Grid.inBounds_iff.2 ⟨he, h2⟩, rfl⟩⟩
  · by_cases hwx : 1 ≤ start.1
    · refine ⟨(start.1 - 1, start.2), .west, Grid.next_eq_some.2
        ⟨hs, Grid.inBounds_iff.2 ⟨by simp only [Grid.new]; omega, h2⟩, ?_⟩⟩
      simp only [dirStep]
      rw [if_neg (by omega)]
    · have hw1 : w = 1 := by omega
      have hh2 : 2 ≤ h := by
        rw [hw1, Nat.one_mul] at hN
        exact hN
      by_cases hv2 : start.2 + 1 < h
      · exact ⟨(start.1, start.2 + 1), .south, Grid.next_eq_some.2
          ⟨hs, Grid.inBounds_iff.2 ⟨h1, hv2⟩, rfl⟩⟩
      · refine ⟨(start.1, start.2 - 1), .north, Grid.next_eq_some.2
          ⟨hs, Grid.inBounds_iff.2 ⟨h1, by simp only [Grid.new]; omega⟩, ?_⟩⟩
        simp only [dirStep]
        rw [if_neg (by omega)]

theorem generate_rb_reach (w h : Nat) (s : Option Coords)
    (hs : (Grid.new w h).inBounds (s.getD (0, 0)) = true) (r : Rng) :
    ∀ c, (Grid.new w h).inBounds c = true →
      (generate_rb (Grid.new w h) s r).1.Reach (s.getD (0, 0)) c := by
  obtain ⟨hwfF, hleF, _, hreachF, hcloseF, hnbrF⟩ :=
    carve_from_post ((Grid.new w h).emptyCount + 1) (s.getD (0, 0))
      (Grid.new w h) r (Grid.new_WF w h) hs (by omega)
  simp only [generate_rb]
  intro c hcin
  by_cases hN : w * h ≤ 1
  · have hcs : c = s.getD (0, 0) := by
      rcases Grid.inBounds_iff.1 hcin with ⟨hc1, hc2⟩
      rcases Grid.inBounds_iff.1 hs with ⟨hs1, hs2⟩
      simp only [Grid.new] at hc1 hc2 hs1 hs2
      have hgew : w ≤ w * h := Nat.le_mul_of_pos_right w (by omega)
      have hgeh : h ≤ w * h := Nat.le_mul_of_pos_left h (by omega)
      have h1 : c.1 = (s.getD (0, 0)).1 := by omega
      have h2 : c.2 = (s.getD (0, 0)).2 := by omega
      exact Prod.ext h1 h2
    rw [hcs]
    exact Relation.ReflTransGen.refl
  · have hN2 : 2 ≤ w * h := by omega
    obtain ⟨m0, hm0⟩ := exists_gridAdj_of_two hs hN2
    have hvism0 := hnbrF m0 hm0
    have hm0in : (Grid.new w h).inBounds m0 = true := by
      rcases hm0 with ⟨dm, hdm⟩
      exact (Grid.next_eq_some.1 hdm).2.1
    have hm0reach := hreachF m0 hm0in (new_visited_false w h m0) hvism0
    have hvisstart : (carve_passages_from ((Grid.new w h).emptyCount + 1)
        (s.getD (0, 0)) (Grid.new w h) r).1.is_cell_visited
        (s.getD (0, 0)) = true := by
      have hne : m0 ≠ s.getD (0, 0) := by
        rcases hm0 with ⟨dm, hdm⟩
        exact Grid.next_ne hdm
      rcases Relation.ReflTransGen.cases_head hm0reach with he | ⟨z, hz, _⟩
      · exact absurd he.symm hne
      · rcases hz with ⟨dz, _, hcz⟩
        have hzin : (carve_passages_from ((Grid.new w h).emptyCount + 1)
            (s.getD (0, 0)) (Grid.new w h) r).1.inBounds
            (s.getD (0, 0)) = true := by
          rw [cellsLe_inBounds hleF]
          exact hs
        exact (Grid.visited_iff_exists hzin).2 ⟨dz, hcz⟩
    have hallvis : ∀ x, (Grid.new w h).GReach (s.getD (0, 0)) x →
        (carve_passages_from ((Grid.new w h).emptyCount + 1) (s.getD (0, 0))
          (Grid.new w h) r).1.is_cell_visited x = true := by
      intro x hpath
      induction hpath with
      | refl => exact hvisstart
      | @tail b x2 hab hbc ihp =>
        rcases hbc with ⟨dz, hdz⟩
        have hbin : (Grid.new w h).inBounds b = true :=
          (Grid.next_eq_some.1 hdz).1
        exact hcloseF b hbin (new_visited_false w h b) ihp x2 ⟨dz, hdz⟩
    by_cases hcs : c = s.getD (0, 0)
    · rw [hcs]
      exact Relation.ReflTransGen.refl
    · exact hreachF c hcin (new_visited_false w h c)
        (hallvis c (Grid.gReach_all hs hcin))

theorem Grid.mem_allCoords {g : Grid} {x : Coords} :
    x ∈ g.allCoords ↔ g.inBounds x = true := by
  unfold Grid.allCoords
  rw [List.mem_flatMap]
  constructor
  · rintro ⟨y, hy, hx⟩
    rcases List.mem_map.1 hx with ⟨x1, hx1, he⟩
    subst he
    exact Grid.inBounds_iff.2 ⟨by simpa using hx1, by simpa using hy⟩
  · intro hx
    rcases Grid.inBounds_iff.1 hx with ⟨h1, h2⟩
    exact ⟨x.2, List.mem_range.2 h2,
      List.mem_map.2 ⟨x.1, List.mem_range.2 h1, rfl⟩⟩

theorem Grid.allCoords_nodup (g : Grid) : g.allCoords.Nodup := by
  unfold Grid.allCoords
  rw [List.nodup_flatMap]
  constructor
  · intro y _
    refine List.Nodup.map ?_ (List.nodup_range _)
    intro a b hab
    exact congrArg Prod.fst hab
  · refine List.Pairwise.imp ?_ (List.pairwise_lt_range g.height)
    intro a b hab z hza hzb
    rcases List.mem_map.1 hza with ⟨x1, _, he1⟩
    rcases List.mem_map.1 hzb with ⟨x2, _, he2⟩
    rw [← he1] at he2
    have h2 := congrArg Prod.snd he2
    simp only at h2
    omega

theorem Grid.allCoords_length (g : Grid) :
    g.allCoords.length = g.width * g.height := by
  unfold Grid.allCoords
  rw [List.length_flatMap]
  have h1 : (List.map (List.length ∘ fun y => (List.range g.width).map
      (fun x => (x, y))) (List.range g.height)) =
      List.replicate g.height g.width := by
    apply List.eq_replicate_iff.2
    refine ⟨by simp, ?_⟩
    intro b hb
    rcases List.mem_map.1 hb with ⟨y, _, he⟩
    rw [← he]
    simp [Function.comp]
  rw [h1, List.sum_replicate, smul_eq_mul, Nat.mul_comm]

theorem filter_length_le_of_imp {α : Type} (l : List α) (p q : α → Bool)
    (himp : ∀ a, p a = true → q a = true) :
    (l.filter p).length ≤ (l.filter q).length :=
  (List.monotone_filter_right l himp).length_le

theorem filter_length_lt_of_witness {α : Type} (p q : α → Bool)
    (himp : ∀ a, p a = true → q a = true) (x : α) (hpx : p x = false)
    (hqx : q x = true) :
    ∀ l : List α, x ∈ l → (l.filter p).length < (l.filter q).length := by
  intro l
  induction l with
  | nil => intro hx; cases hx
  | cons a t ih =>
    intro hx
    rcases List.mem_cons.1 hx with he | he
    · subst he
      rw [List.filter_cons, List.filter_cons, hpx, hqx]
      simp only [Bool.false_eq_true, if_false, if_true, List.length_cons]
      exact Nat.lt_succ_of_le (filter_length_le_of_imp t p q himp)
    · have hlt := ih he
      cases hpa : p a
      · cases hqa : q a
        · rw [List.filter_cons, List.filter_cons, hpa, hqa]
          simpa using hlt
        · rw [List.filter_cons, List.filter_cons, hpa, hqa]
          simp only [Bool.false_eq_true, if_false, if_true, List.length_cons]
          omega
      · rw [List.filter_cons, List.filter_cons, hpa, himp a hpa]
        simp only [if_true, List.length_cons]
        omega

theorem unvisitedCount_le_of_subset {g : Grid} {v v2 : List Coords}
    (hsub : ∀ x, x ∈ v → x ∈ v2) :
    unvisitedCount g v2 ≤ unvisitedCount g v := by
  apply filter_length_le_of_imp
  intro a ha
  cases hcc : v.contains a with
  | false => rfl
  | true =>
    exfalso
    have hmem : a ∈ v2 := hsub a (List.elem_iff.1 hcc)
    rw [show v2.contains a = true from List.elem_iff.2 hmem] at ha
    exact absurd ha (by simp)

theorem unvisitedCount_lt_push {g : Grid} {v : List Coords} {next : Coords}
    (hin : g.inBounds next = true) (hnotin : next ∉ v) :
    unvisitedCount g (v ++ [next]) < unvisitedCount g v := by
  refine filter_length_lt_of_witness _ _ ?himp next ?hp ?hq _
    (Grid.mem_allCoords.2 hin)
  case himp =>
    intro a ha
    cases hcc : v.contains a with
    | false => rfl
    | true =>
      exfalso
      have hmem : a ∈ v ++ [next] :=
        List.mem_append_left _ (List.elem_iff.1 hcc)
      rw [show (v ++ [next]).contains a = true from List.elem_iff.2 hmem] at ha
      exact absurd ha (by simp)
  case hp =>
    have hmem : next ∈ v ++ [next] :=
      List.mem_append_right _ (List.mem_singleton.2 rfl)
    rw [show (v ++ [next]).contains next = true from List.elem_iff.2 hmem]
    rfl
  case hq =>
    cases hcc : v.contains next with
    | false => rfl
    | true => exact absurd (List.elem_iff.1 hcc) hnotin

theorem visit_dirs_post (f : Nat)
    (IH : ∀ (c2 : Coords) (g2 : Grid) (v2 : List Coords) (r2 : Rng),
      c2 ∈ v2 → unvisitedCount g2 v2 < f →
      VisitPost g2 c2 v2 (visit f c2 g2 v2 r2).1) :
    ∀ (ds : List Dir) (c : Coords) (g : Grid) (v : List Coords) (r : Rng),
      c ∈ v → unvisitedCount g v ≤ f →
      VisitDirsPost g c ds v (visit_dirs f ds c g v r).1 := by
  intro ds
  induction ds with
  | nil =>
    intro c g v r hcv hf
    simp only [visit_dirs]
    refine ⟨fun x hx => hx, fun hn => hn, fun x hx => Or.inl hx, ?_, ?_⟩
    · intro x hx hnx m hm
      exact absurd hx hnx
    · intro d hd
      simp at hd
  | cons d rest ih =>
    intro c g v r hcv hf
    simp only [visit_dirs]
    cases hnx : g.get_next_cell_coords c d with
    | none =>
      have hrec := ih c g v r hcv hf
      refine ⟨hrec.1, hrec.2.1, hrec.2.2.1, hrec.2.2.2.1, ?_⟩
      intro d' hd' m hm hcvd
      rcases List.mem_cons.1 hd' with he | he
      · subst he
        rw [hm] at hnx
        exact absurd hnx (by simp)
      · exact hrec.2.2.2.2 d' he m hm hcvd
    | some next =>
      dsimp only
      by_cases hvn : v.contains next = true
      · rw [if_pos hvn]
        have hrec := ih c g v r hcv hf
        refine ⟨hrec.1, hrec.2.1, hrec.2.2.1, hrec.2.2.2.1, ?_⟩
        intro d' hd' m hm hcvd
        rcases List.mem_cons.1 hd' with he | he
        · subst he
          have hmn : m = next := by
            rw [hm] at hnx
            exact Option.some_inj.1 hnx
          subst hmn
          exact hrec.1 m (List.elem_iff.1 hvn)
        · exact hrec.2.2.2.2 d' he m hm hcvd
      · rw [if_neg hvn]
        by_cases hcd : g.is_carved c d = true
        · rw [if_neg (show ¬((!g.is_carved c d) = true) by rw [hcd]; simp)]
          have hnextin : g.inBounds next = true := (Grid.next_eq_some.1 hnx).2.1
          have hnotin : next ∉ v := fun hmem => hvn (List.elem_iff.2 hmem)
          have hmemnext : next ∈ v ++ [next] :=
            List.mem_append_right _ (List.mem_singleton.2 rfl)
          have hfsub : unvisitedCount g (v ++ [next]) < f :=
            lt_of_lt_of_le (unvisitedCount_lt_push hnextin hnotin) hf
          obtain ⟨hs1, hs2, hs3, hs4, hs5⟩ :=
            IH next g (v ++ [next]) r hmemnext hfsub
          have hvq : c ∈ (visit f next g (v ++ [next]) r).1 :=
            hs1 c (List.mem_append_left _ hcv)
          have hfq : unvisitedCount g (visit f next g (v ++ [next]) r).1 ≤ f := by
            have h1 := unvisitedCount_le_of_subset (g := g)
              (fun x hx => hs1 x hx)
            omega
          obtain ⟨hr1, hr2, hr3, hr4, hr5⟩ :=
            ih c g (visit f next g (v ++ [next]) r).1
              (visit f next g (v ++ [next]) r).2 hvq hfq
          refine ⟨?_, ?_, ?_, ?_, ?_⟩
          · intro x hx
            exact hr1 x (hs1 x (List.mem_append_left _ hx))
          · intro hn
            apply hr2
            apply hs2
            rw [List.nodup_append]
            refine ⟨hn, List.nodup_singleton _, ?_⟩
            intro a ha hb
            rw [List.mem_singleton] at hb
            subst hb
            exact hnotin ha
          · intro x hx
            rcases hr3 x hx with hxq | hxin
            · rcases hs3 x hxq with hxvn | hxin2
              · rcases List.mem_append.1 hxvn with hxv | hxn
                · exact Or.inl hxv
                · rw [List.mem_singleton] at hxn
                  subst hxn
                  exact Or.inr hnextin
              · exact Or.inr hxin2
            · exact Or.inr hxin
          · intro x hx hnxv m hm
            by_cases hxq : x ∈ (visit f next g (v ++ [next]) r).1
            · by_cases hxn2 : x = next
              · subst hxn2
                exact hr1 m (hs5 m hm)
              · have hxnot : x ∉ v ++ [next] := by
                  intro hmem
                  rcases List.mem_append.1 hmem with h1 | h1
                  · exact hnxv h1
                  · exact hxn2 (List.mem_singleton.1 h1)
                exact hr1 m (hs4 x hxq hxnot m hm)
            · exact hr4 x hx hxq m hm
          · intro d' hd' m hm hcvd
            rcases List.mem_cons.1 hd' with he | he
            · subst he
              have hmn : m = next := by
                rw [hm] at hnx
                exact Option.some_inj.1 hnx
              subst hmn
              exact hr1 m (hs1 m hmemnext)
            · exact hr5 d' he m hm hcvd
        · have hcf : g.is_carved c d = false := by simpa using hcd
          rw [if_pos (show (!g.is_carved c d) = true by rw [hcf]; rfl)]
          have hrec := ih c g v r hcv hf
          refine ⟨hrec.1, hrec.2.1, hrec.2.2.1, hrec.2.2.2.1, ?_⟩
          intro d' hd' m hm hcvd
          rcases List.mem_cons.1 hd' with he | he
          · subst he
            rw [hcvd] at hcf
            exact absurd hcf (by simp)
          · exact hrec.2.2.2.2 d' he m hm hcvd

theorem visit_post : ∀ (f : Nat) (c : Coords) (g : Grid) (v : List Coords)
    (r : Rng), c ∈ v → unvisitedCount g v < f →
    VisitPost g c v (visit f c g v r).1 := by
  intro f
  induction f with
  | zero =>
    intro c g v r _ hf
    exact absurd hf (Nat.not_lt_zero _)
  | succ f ih =>
    intro c g v r hcv hf
    simp only [visit]
    obtain ⟨h1, h2, h3, h4, h5⟩ :=
      visit_dirs_post f ih (r.shuffle).1 c g v (r.shuffle).2 hcv (by omega)
    refine ⟨h1, h2, h3, h4, ?_⟩
    intro m hm
    rcases hm with ⟨dm, hdm, hcm⟩
    exact h5 dm (shuffle_mem r dm) m hdm hcm

theorem validate_complete (g : Grid) (hw : 1 ≤ g.width) (hh : 1 ≤ g.height)
    (hreach : ∀ c, g.inBounds c = true → g.Reach (0, 0) c) (r : Rng) :
    validate g r = true := by
  unfold validate
  dsimp only
  have h00 : g.inBounds (0, 0) = true := Grid.inBounds_iff.2 ⟨hw, hh⟩
  have hmem00 : ((0, 0) : Coords) ∈ [((0, 0) : Coords)] :=
    List.mem_singleton.2 rfl
  have hfuel : unvisitedCount g [(0, 0)] < g.width * g.height + 1 := by
    have hle : unvisitedCount g [(0, 0)] ≤ g.allCoords.length :=
      List.length_filter_le _ _
    rw [Grid.allCoords_length] at hle
    omega
  obtain ⟨h1, h2, h3, h4, h5⟩ :=
    visit_post (g.width * g.height + 1) (0, 0) g [(0, 0)] r hmem00 hfuel
  have hall : ∀ c, g.Reach (0, 0) c →
      c ∈ (visit (g.width * g.height + 1) (0, 0) g [(0, 0)] r).1 := by
    intro c hpath
    induction hpath with
    | refl => exact h1 (0, 0) hmem00
    | @tail b x2 hab hbc ihp =>
      by_cases hbv : b ∈ [((0, 0) : Coords)]
      · rw [List.mem_singleton] at hbv
        subst hbv
        exact h5 x2 hbc
      · exact h4 b ihp hbv x2 hbc
  have hnd := h2 (List.nodup_singleton _)
  have hsub : ∀ x ∈ (visit (g.width * g.height + 1) (0, 0) g [(0, 0)] r).1,
      x ∈ g.allCoords := by
    intro x hx
    rcases h3 x hx with hxv | hxin
    · rw [List.mem_singleton] at hxv
      subst hxv
      exact Grid.mem_allCoords.2 h00
    · exact Grid.mem_allCoords.2 hxin
  have hsup : ∀ x ∈ g.allCoords,
      x ∈ (visit (g.width * g.height + 1) (0, 0) g [(0, 0)] r).1 :=
    fun x hx => hall x (hreach x (Grid.mem_allCoords.1 hx))
  have hlen : (visit (g.width * g.height + 1) (0, 0) g [(0, 0)] r).1.length =
      g.width * g.height := by
    have hle1 := (List.Nodup.subperm hnd
      (fun x hx => hsub x hx)).length_le
    have hle2 := (List.Nodup.subperm (Grid.allCoords_nodup g)
      (fun x hx => hsup x hx)).length_le
    rw [Grid.allCoords_length] at hle1 hle2
    omega
  rw [hlen]
  simp

theorem carve_dirs_symInv (f : Nat)
    (IH : ∀ (c2 : Coords) (g2 : Grid) (r2 : Rng), g2.WF → SymInv g2 →
      (carve_passages_from f c2 g2 r2).1.WF ∧
        SymInv (carve_passages_from f c2 g2 r2).1) :
    ∀ (ds : List Dir) (c : Coords) (g : Grid) (r : Rng), g.WF → SymInv g →
      (carve_dirs f ds c g r).1.WF ∧ SymInv (carve_dirs f ds c g r).1 := by
  intro ds
  induction ds with
  | nil =>
    intro c g r hwf hsym
    simp only [carve_dirs]
    exact ⟨hwf, hsym⟩
  | cons d rest ih =>
    intro c g r hwf hsym
    simp only [carve_dirs]
    cases hnx : g.get_next_cell_coords c d with
    | none => exact ih c g r hwf hsym
    | some next =>
      dsimp only
      by_cases hv : g.is_cell_visited next = true
      · rw [if_pos hv]
        exact ih c g r hwf hsym
      · rw [if_neg hv]
        cases hcv : g.carve_passage c d with
        | none => exact ih c g r hwf hsym
        | some p =>
          dsimp only
          have hcv' : g.carve_passage c d = some (p.1, p.2) := hcv
          have hwf1 := Grid.carve_WF hwf hcv'
          have hsym1 := symInv_carve hwf hcv' hsym
          obtain ⟨hwf2, hsym2⟩ := IH p.1 p.2 r hwf1 hsym1
          exact ih c _ _ hwf2 hsym2

theorem carve_from_symInv : ∀ (f : Nat) (c : Coords) (g : Grid) (r : Rng),
    g.WF → SymInv g →
    (carve_passages_from f c g r).1.WF ∧
      SymInv (carve_passages_from f c g r).1 := by
  intro f
  induction f with
  | zero =>
    intro c g r hwf hsym
    simp only [carve_passages_from]
    exact ⟨hwf, hsym⟩
  | succ f ih =>
    intro c g r hwf hsym
    simp only [carve_passages_from]
    exact carve_dirs_symInv f (fun c2 g2 r2 hw2 hs2 => ih c2 g2 r2 hw2 hs2)
      (r.shuffle).1 c g (r.shuffle).2 hwf hsym

theorem reach_reanchor {g : Grid} (hsym : SymInv g) {s : Coords}
    (hreach : ∀ c, g.inBounds c = true → g.Reach s c)
    (h00 : g.inBounds (0, 0) = true) :
    ∀ c, g.inBounds c = true → g.Reach (0, 0) c := by
  intro c hc
  exact Relation.ReflTransGen.trans
    (symInv_reach_symm hsym (hreach (0, 0) h00)) (hreach c hc)

theorem generate_rb_valid (w h : Nat) (hw : 1 ≤ w) (hh : 1 ≤ h)
    (s : Option Coords)
    (hs : (Grid.new w h).inBounds (s.getD (0, 0)) = true) (r r2 : Rng) :
    validate (generate_rb (Grid.new w h) s r).1 r2 = true := by
  have hreach := generate_rb_reach w h s hs r
  obtain ⟨hwfF, hsymF⟩ := carve_from_symInv ((Grid.new w h).emptyCount + 1)
    (s.getD (0, 0)) (Grid.new w h) r (Grid.new_WF w h) (symInv_new w h)
  obtain ⟨_, hleF, _, _, _, _⟩ :=
    carve_from_post ((Grid.new w h).emptyCount + 1) (s.getD (0, 0))
      (Grid.new w h) r (Grid.new_WF w h) hs (by omega)
  have hwF : (generate_rb (Grid.new w h) s r).1.width = w := by
    simp only [generate_rb]
    rw [hleF.1]
    rfl
  have hhF : (generate_rb (Grid.new w h) s r).1.height = h := by
    simp only [generate_rb]
    rw [hleF.2.1]
    rfl
  have h00g : (Grid.new w h).inBounds (0, 0) = true := by
    simp [Grid.inBounds_iff, Grid.new]
    omega
  apply validate_complete
  · rw [hwF]
    exact hw
  · rw [hhF]
    exact hh
  · intro c hc
    have hc0 : (Grid.new w h).inBounds c = true := by
      rw [show (Grid.new w h).inBounds c =
          (generate_rb (Grid.new w h) s r).1.inBounds c by
        simp only [generate_rb]
        exact (cellsLe_inBounds hleF c).symm]
      exact hc
    have hreach2 : ∀ x, (generate_rb (Grid.new w h) s r).1.inBounds x = true →
        (generate_rb (Grid.new w h) s r).1.Reach (s.getD (0, 0)) x := by
      intro x hx
      apply hreach
      rw [show (Grid.new w h).inBounds x =
          (generate_rb (Grid.new w h) s r).1.inBounds x by
        simp only [generate_rb]
        exact (cellsLe_inBounds hleF x).symm]
      exact hx
    have hsymG : SymInv (generate_rb (Grid.new w h) s r).1 := hsymF
    have h00G : (generate_rb (Grid.new w h) s r).1.inBounds (0, 0) = true := by
      rw [show (generate_rb (Grid.new w h) s r).1.inBounds (0, 0) =
          (Grid.new w h).inBounds (0, 0) by
        simp only [generate_rb]
        exact cellsLe_inBounds hleF (0, 0)]
      exact h00g
    exact reach_reanchor hsymG hreach2 h00G c hc

theorem gok_refl {g : Grid} (hwf : g.WF) (hsym : SymInv g) : GOk g g :=
  ⟨hwf, hsym, cellsLe_refl g⟩

theorem gok_new (w h : Nat) : GOk (Grid.new w h) (Grid.new w h) :=
  gok_refl (Grid.new_WF w h) (symInv_new w h)

theorem gok_carve {g0 g g' : Grid} {c n : Coords} {d : Dir} (hok : GOk g0 g)
    (h : g.carve_passage c d = some (n, g')) : GOk g0 g' :=
  ⟨Grid.carve_WF hok.1 h, symInv_carve hok.1 h hok.2.1,
   cellsLe_trans hok.2.2 (cellsLe_of_carve hok.1 h)⟩

theorem gok_trans {g0 g1 g2 : Grid} (h1 : cellsLe g0 g1) (h2 : GOk g1 g2) :
    GOk g0 g2 :=
  ⟨h2.1, h2.2.1, cellsLe_trans h1 h2.2.2⟩

theorem carve_of_next {g : Grid} {c n : Coords} {d : Dir}
    (h : g.get_next_cell_coords c d = some n) :
    g.carve_passage c d =
      some (n, (g.set_cell c ((g.get_cell c).insert d)).set_cell n
        (((g.set_cell c ((g.get_cell c).insert d)).get_cell n).insert
          d.opposite)) := by
  rw [Grid.carve_passage, h]

theorem carve_isSome_of_next {g : Grid} {c n : Coords} {d : Dir}
    (h : g.get_next_cell_coords c d = some n) :
    ∃ g', g.carve_passage c d = some (n, g') :=
  ⟨_, carve_of_next h⟩

theorem carve_none_iff {g : Grid} {c : Coords} {d : Dir} :
    g.carve_passage c d = none ↔ g.get_next_cell_coords c d = none := by
  rw [Grid.carve_passage]
  cases h : g.get_next_cell_coords c d <;> simp

/-- Fold invariant: a property preserved by every step holds at the end. -/
theorem foldl_inv {σ α : Type} (P : σ → Prop) (f : σ → α → σ) :
    ∀ (l : List α) (s : σ), P s →
      (∀ s2 x, x ∈ l → P s2 → P (f s2 x)) → P (l.foldl f s) := by
  intro l
  induction l with
  | nil => intro s hs _; exact hs
  | cons a t ih =>
    intro s hs hstep
    exact ih (f s a) (hstep s a (List.mem_cons_self a t) hs)
      (fun s2 x hx => hstep s2 x (List.mem_cons_of_mem a hx))

/-- Fold invariant with a per-element post-condition: every step preserves
the invariant and establishes its own element's post-condition, and the
post-condition survives later steps; at the end it holds for every
element. -/
theorem foldl_establish {σ α : Type} (P : σ → Prop) (D : σ → α → Prop)
    (f : σ → α → σ) :
    ∀ (l : List α) (s : σ), P s →
      (∀ s2 x, x ∈ l → P s2 → P (f s2 x) ∧ D (f s2 x) x) →
      (∀ s2 x y, y ∈ l → P s2 → D s2 x → D (f s2 y) x) →
      P (l.foldl f s) ∧ ∀ x ∈ l, D (l.foldl f s) x := by
  intro l
  induction l with
  | nil => intro s hs _ _; exact ⟨hs, by simp⟩
  | cons a t ih =>
    intro s hs hstep hmono
    have h1 := hstep s a (List.mem_cons_self a t) hs
    have h2 := ih (f s a) h1.1
      (fun s2 x hx hp => hstep s2 x (List.mem_cons_of_mem a hx) hp)
      (fun s2 x y hy hp hd => hmono s2 x y (List.mem_cons_of_mem a hy) hp hd)
    refine ⟨h2.1, ?_⟩
    intro x hx
    rcases List.mem_cons.1 hx with hxa | hxt
    · rw [hxa]
      have h3 := foldl_inv (fun s2 => P s2 ∧ D s2 a) f t (f s a) ⟨h1.1, h1.2⟩
        (fun s2 y hy hpd =>
          ⟨(hstep s2 y (List.mem_cons_of_mem a hy) hpd.1).1,
           hmono s2 a y (List.mem_cons_of_mem a hy) hpd.1 hpd.2⟩)
      exact h3.2
    · exact h2.2 x hxt

theorem pickDir_mem (r : Rng) {l : List Dir} (h : l ≠ []) :
    (pickDir r l).1 ∈ l := by
  unfold pickDir
  dsimp only
  have hlen : 0 < l.length := List.length_pos.2 h
  have hlt : (r.below l.length).1 < l.length := by
    unfold Rng.below Rng.next
    dsimp only
    exact Nat.mod_lt _ hlen
  rw [List.getD_eq_getElem l .north hlt]
  exact List.getElem_mem hlt

theorem bt_avail_mem {g : Grid} {c : Coords} {d : Dir}
    (h : d ∈ bt_available g c) :
    (d = Dir.north ∨ d = Dir.east) ∧
      (g.get_next_cell_coords c d).isSome = true := by
  unfold bt_available at h
  rw [List.mem_filter] at h
  refine ⟨?_, h.2⟩
  rcases List.mem_cons.1 h.1 with h1 | h1
  · exact Or.inl h1
  · exact Or.inr (List.mem_singleton.1 h1)

theorem bt_avail_empty {g : Grid} {c : Coords} (hin : g.inBounds c = true)
    (h : (bt_available g c).isEmpty = true) :
    c.1 + 1 = g.width ∧ c.2 = 0 := by
  rcases Grid.inBounds_iff.1 hin with ⟨hx, hy⟩
  rw [List.isEmpty_iff] at h
  unfold bt_available at h
  rw [List.filter_eq_nil_iff] at h
  have hN := h Dir.north (List.mem_cons_self _ _)
  have hE := h Dir.east (List.mem_cons_of_mem _ (List.mem_singleton.2 rfl))
  constructor
  · by_contra hne
    have hlt : c.1 + 1 < g.width := by omega
    have : g.get_next_cell_coords c .east = some (c.1 + 1, c.2) :=
      Grid.next_eq_some.2 ⟨hin, Grid.inBounds_iff.2 ⟨hlt, hy⟩, rfl⟩
    rw [this] at hE
    exact hE rfl
  · by_contra hne
    have : g.get_next_cell_coords c .north = some (c.1, c.2 - 1) := by
      refine Grid.next_eq_some.2 ⟨hin, Grid.inBounds_iff.2 ⟨hx, by omega⟩, ?_⟩
      show (if c.2 = 0 then none else some (c.1, c.2 - 1)) = some (c.1, c.2 - 1)
      rw [if_neg hne]
    rw [this] at hN
    exact hN rfl

theorem bt_step_le {g0 : Grid} (s2 : Grid × Rng) (y : Coords)
    (hok : GOk g0 s2.1) :
    GOk g0 (bt_step s2 y).1 ∧ cellsLe s2.1 (bt_step s2 y).1 := by
  unfold bt_step
  dsimp only
  by_cases he : (bt_available s2.1 y).isEmpty = true
  · rw [if_pos he]
    exact ⟨hok, cellsLe_refl _⟩
  · rw [if_neg he]
    cases hcv : s2.1.carve_passage y (pickDir s2.2 (bt_available s2.1 y)).1 with
    | none =>
      dsimp only
      exact ⟨hok, cellsLe_refl _⟩
    | some res =>
      dsimp only
      exact ⟨gok_carve hok hcv, cellsLe_of_carve hok.1 hcv⟩

/-- The Binary Tree per-cell post-condition relative to the base grid:
either the north-east corner, or a recorded carve toward north or east. -/
theorem bt_establish (g0 : Grid) (r : Rng) (hwf : g0.WF) (hsym : SymInv g0) :
    GOk g0 (generate_bt g0 r).1 ∧
      ∀ c ∈ g0.allCoords, (c.1 + 1 = g0.width ∧ c.2 = 0) ∨
        ∃ d n, (d = Dir.north ∨ d = Dir.east) ∧
          (generate_bt g0 r).1.get_next_cell_coords c d = some n ∧
          (generate_bt g0 r).1.is_carved c d = true := by
  unfold generate_bt
  refine foldl_establish (fun s => GOk g0 s.1)
    (fun s c => (c.1 + 1 = g0.width ∧ c.2 = 0) ∨
      ∃ d n, (d = Dir.north ∨ d = Dir.east) ∧
        s.1.get_next_cell_coords c d = some n ∧ s.1.is_carved c d = true)
    bt_step g0.allCoords (g0, r) (gok_refl hwf hsym) ?_ ?_
  · intro s2 c hcmem hok
    refine ⟨(bt_step_le s2 c hok).1, ?_⟩
    have hin0 : g0.inBounds c = true := Grid.mem_allCoords.1 hcmem
    have hin : s2.1.inBounds c = true := by
      rw [cellsLe_inBounds hok.2.2]
      exact hin0
    unfold bt_step
    dsimp only
    by_cases he : (bt_available s2.1 c).isEmpty = true
    · rw [if_pos he]
      obtain ⟨h1, h2⟩ := bt_avail_empty hin he
      rw [hok.2.2.1] at h1
      exact Or.inl ⟨h1, h2⟩
    · rw [if_neg he]
      have hne : bt_available s2.1 c ≠ [] := by
        intro hnil
        rw [hnil] at he
        exact he rfl
      obtain ⟨hd, hsome⟩ := bt_avail_mem (pickDir_mem s2.2 hne)
      obtain ⟨n, hn⟩ := Option.isSome_iff_exists.1 hsome
      rw [carve_of_next hn]
      dsimp only
      refine Or.inr ⟨(pickDir s2.2 (bt_available s2.1 c)).1, n, hd, ?_, ?_⟩
      · rw [Grid.next_congr (Grid.carve_width (carve_of_next hn))
          (Grid.carve_height (carve_of_next hn))]
        exact hn
      · exact (Grid.is_carved_carve hok.1 (carve_of_next hn) c _).2
          (Or.inr (Or.inl ⟨rfl, rfl⟩))
  · intro s2 x y _ hok hD
    rcases hD with hD | ⟨d, n, hd, hnext, hcv⟩
    · exact Or.inl hD
    · obtain ⟨_, hle⟩ := bt_step_le s2 y hok
      refine Or.inr ⟨d, n, hd, ?_, hle.2.2.2 x d hcv⟩
      rw [cellsLe_next hle]
      exact hnext

/-- Every cell of a Binary Tree (north-east bias) maze reaches the
north-east corner by following its recorded north/east carve. -/
theorem bt_reach (gF : Grid)
    (hdone : ∀ c, gF.inBounds c = true →
      (c.1 + 1 = gF.width ∧ c.2 = 0) ∨
        ∃ d n, (d = Dir.north ∨ d = Dir.east) ∧
          gF.get_next_cell_coords c d = some n ∧ gF.is_carved c d = true) :
    ∀ c, gF.inBounds c = true → gF.Reach c (gF.width - 1, 0) := by
  have key : ∀ k c, gF.inBounds c = true →
      c.2 + (gF.width - 1 - c.1) ≤ k → gF.Reach c (gF.width - 1, 0) := by
    intro k
    induction k with
    | zero =>
      intro c hc hm
      rcases Grid.inBounds_iff.1 hc with ⟨hx, _⟩
      have hc1 : c = (gF.width - 1, 0) := by
        rcases c with ⟨cx, cy⟩
        simp only [Prod.mk.injEq]
        simp only at hx hm
        omega
      rw [hc1]
      exact Relation.ReflTransGen.refl
    | succ m ih =>
      intro c hc hm
      rcases hdone c hc with ⟨h1, h2⟩ | ⟨d, n, hd, hnext, hcv⟩
      · have hc1 : c = (gF.width - 1, 0) := by
          rcases c with ⟨cx, cy⟩
          simp only [Prod.mk.injEq]
          simp only at h1 h2
          omega
        rw [hc1]
        exact Relation.ReflTransGen.refl
      · obtain ⟨hcin, hnin, hstep⟩ := Grid.next_eq_some.1 hnext
        have hmn : n.2 + (gF.width - 1 - n.1) ≤ m := by
          rcases Grid.inBounds_iff.1 hnin with ⟨hnx, _⟩
          rcases hd with hd | hd <;> subst hd
          · by_cases h0 : c.2 = 0
            · rw [show dirStep c Dir.north = none by
                unfold dirStep; rw [if_pos h0]] at hstep
              cases hstep
            · rw [show dirStep c Dir.north = some (c.1, c.2 - 1) by
                unfold dirStep; rw [if_neg h0]] at hstep
              injection hstep with hstep
              rw [← hstep] at hnx ⊢
              simp only at hnx ⊢
              omega
          · rw [show dirStep c Dir.east = some (c.1 + 1, c.2) from rfl] at hstep
            injection hstep with hstep
            rw [← hstep] at hnx ⊢
            simp only at hnx ⊢
            omega
        exact Relation.ReflTransGen.head ⟨d, hnext, hcv⟩ (ih n hnin hmn)
  intro c hc
  exact key (c.2 + (gF.width - 1 - c.1)) c hc (le_refl _)

/-- Binary Tree mazes over any positive grid validate. -/
theorem generate_bt_valid (w h : Nat) (hw : 1 ≤ w) (hh : 1 ≤ h)
    (r r2 : Rng) :
    validate (generate_bt (Grid.new w h) r).1 r2 = true := by
  obtain ⟨hok, hdone⟩ := bt_establish (Grid.new w h) r
    (Grid.new_WF w h) (symInv_new w h)
  have hwF : (generate_bt (Grid.new w h) r).1.width = w := hok.2.2.1
  have hhF : (generate_bt (Grid.new w h) r).1.height = h := hok.2.2.2.1
  have hbF : ∀ x, (generate_bt (Grid.new w h) r).1.inBounds x =
      (Grid.new w h).inBounds x := cellsLe_inBounds hok.2.2
  have hdone2 : ∀ c, (generate_bt (Grid.new w h) r).1.inBounds c = true →
      (c.1 + 1 = (generate_bt (Grid.new w h) r).1.width ∧ c.2 = 0) ∨
        ∃ d n, (d = Dir.north ∨ d = Dir.east) ∧
          (generate_bt (Grid.new w h) r).1.get_next_cell_coords c d = some n ∧
          (generate_bt (Grid.new w h) r).1.is_carved c d = true := by
    intro c hc
    rw [hbF] at hc
    rw [hwF]
    exact hdone c (Grid.mem_allCoords.2 hc)
  have hreach := bt_reach _ hdone2
  have hcorner : (generate_bt (Grid.new w h) r).1.inBounds
      ((generate_bt (Grid.new w h) r).1.width - 1, 0) = true := by
    rw [Grid.inBounds_iff, hwF, hhF]
    constructor <;> omega
  have hanchor : ∀ c, (generate_bt (Grid.new w h) r).1.inBounds c = true →
      (generate_bt (Grid.new w h) r).1.Reach
        ((generate_bt (Grid.new w h) r).1.width - 1, 0) c := by
    intro c hc
    exact symInv_reach_symm hok.2.1 (hreach c hc)
  have h00 : (generate_bt (Grid.new w h) r).1.inBounds (0, 0) = true := by
    rw [Grid.inBounds_iff, hwF, hhF]
    constructor <;> omega
  apply validate_complete
  · rw [hwF]; exact hw
  · rw [hhF]; exact hh
  · exact reach_reanchor hok.2.1 hanchor h00

/-- Indexed fold induction over `List.range n`. -/
theorem range_fold_ind {σ : Type} (f : σ → Nat → σ) (I : σ → Nat → Prop) :
    ∀ (n : Nat) (s : σ), I s 0 →
      (∀ s2 k, k < n → I s2 k → I (f s2 k) (k + 1)) →
      I ((List.range n).foldl f s) n := by
  intro n
  induction n with
  | zero => intro s h0 _; exact h0
  | succ m ih =>
    intro s h0 hstep
    rw [List.range_succ, List.foldl_append]
    simp only [List.foldl_cons, List.foldl_nil]
    exact hstep _ m (Nat.lt_succ_self m)
      (ih s h0 (fun s2 k hk hI => hstep s2 k (Nat.lt_succ_of_lt hk) hI))

theorem chain_east_reach (g : Grid) (n : Nat) (hh : n < g.height)
    (lo hi : Nat) (hhi : hi < g.width)
    (hflags : ∀ j, lo ≤ j → j < hi → g.is_carved (j, n) .east = true) :
    ∀ k, lo + k ≤ hi → g.Reach (lo, n) (lo + k, n) := by
  intro k
  induction k with
  | zero => intro _; exact Relation.ReflTransGen.refl
  | succ m ih =>
    intro hle
    refine Relation.ReflTransGen.tail (ih (by omega)) ?_
    refine ⟨.east, ?_, hflags (lo + m) (by omega) (by omega)⟩
    exact Grid.next_eq_some.2
      ⟨Grid.inBounds_iff.2 ⟨by omega, hh⟩,
       Grid.inBounds_iff.2 ⟨by omega, hh⟩, rfl⟩

/-- Inside a run whose east chain is carved, any two member cells are
mutually reachable. -/
theorem run_reach (g : Grid) (hsym : SymInv g) (n lo hi : Nat)
    (hh : n < g.height) (hhi : hi < g.width)
    (hflags : ∀ j, lo ≤ j → j < hi → g.is_carved (j, n) .east = true) :
    ∀ i k, lo ≤ i → i ≤ hi → lo ≤ k → k ≤ hi → g.Reach (i, n) (k, n) := by
  have fwd : ∀ i, lo ≤ i → i ≤ hi → g.Reach (lo, n) (i, n) := by
    intro i h1 h2
    have h3 := chain_east_reach g n hh lo hi hhi hflags (i - lo) (by omega)
    rw [show lo + (i - lo) = i by omega] at h3
    exact h3
  intro i k h1 h2 h3 h4
  exact Relation.ReflTransGen.trans
    (symInv_reach_symm hsym (fwd i h1 h2)) (fwd k h3 h4)

/-- A fully east-fused row 0 connects every cell of row 0 to the
origin. -/
theorem row0_reach (g : Grid) (hsym : SymInv g) (hh : 1 ≤ g.height)
    (hfuse : ∀ x, x + 1 < g.width → g.is_carved (x, 0) .east = true) :
    ∀ x, x < g.width → g.Reach (x, 0) (0, 0) := by
  intro x hx
  have h0 := run_reach g hsym 0 0 (g.width - 1) (by omega) (by omega)
    (fun j h1 h2 => hfuse j (by omega)) x 0 (by omega) (by omega)
    (by omega) (by omega)
  exact h0

/-- Post-condition of one Sidewinder run row `n ≥ 1`: the grid invariant
and extension are preserved and every cell of the row reaches some cell
of the row above. -/
theorem sw_row_post (g0 : Grid) (n : Nat) (hn : 1 ≤ n)
    (hnh : n < g0.height) (st : Grid × Rng) (hok : GOk g0 st.1) :
    GOk g0 (sw_row g0.width n st).1 ∧
      cellsLe st.1 (sw_row g0.width n st).1 ∧
      ∀ x, x < g0.width → ∃ b : Coords, b.1 < g0.width ∧ b.2 = n - 1 ∧
        (sw_row g0.width n st).1.Reach (x, n) b := by
  have key := range_fold_ind (sw_cell g0.width n)
    (fun st2 x => GOk g0 st2.2.1 ∧ cellsLe st.1 st2.2.1 ∧ st2.1 ≤ x ∧
      (x = g0.width → st2.1 = g0.width) ∧
      (∀ i, st2.1 ≤ i → i < x → st2.2.1.is_carved (i, n) .east = true) ∧
      (∀ i, i < st2.1 → ∃ b : Coords, b.1 < g0.width ∧ b.2 = n - 1 ∧
        st2.2.1.Reach (i, n) b))
    g0.width (0, st.1, st.2)
    ⟨hok, cellsLe_refl _, le_refl 0, fun hw0 => hw0 ▸ rfl,
     fun i h1 h2 => absurd h2 (by omega),
     fun i h1 => absurd h1 (by omega)⟩
    ?_
  · unfold sw_row
    dsimp only
    exact ⟨key.1, key.2.1, fun x hx => key.2.2.2.2.2 x (by
      have h4 := key.2.2.2.1 rfl
      omega)⟩
  · intro st2 k hk hI
    obtain ⟨hok2, hle2, hrs, hrsw, hflags, hup⟩ := hI
    have hwid : st2.2.1.width = g0.width := hok2.2.2.1
    have hhei : st2.2.1.height = g0.height := hok2.2.2.2.1
    unfold sw_cell
    dsimp only
    split
    · -- close branch: carve one run cell northward
      have hpos : 0 < k - st2.1 + 1 := by omega
      have hpk : ((st2.2.2.bool).2.below (k - st2.1 + 1)).1 <
          k - st2.1 + 1 := by
        unfold Rng.below Rng.next
        dsimp only
        exact Nat.mod_lt _ hpos
      set cx := st2.1 + ((st2.2.2.bool).2.below (k - st2.1 + 1)).1 with hcx
      have hcxk : cx ≤ k := by omega
      have hnext : st2.2.1.get_next_cell_coords (cx, n) .north =
          some (cx, n - 1) := by
        refine Grid.next_eq_some.2
          ⟨Grid.inBounds_iff.2 ⟨by omega, by omega⟩,
           Grid.inBounds_iff.2 ⟨by omega, by omega⟩, ?_⟩
        show (if n = 0 then none else some (cx, n - 1)) = some (cx, n - 1)
        rw [if_neg (by omega)]
      rw [carve_of_next hnext]
      dsimp only
      set gc := (st2.2.1.set_cell (cx, n)
        ((st2.2.1.get_cell (cx, n)).insert .north)).set_cell (cx, n - 1)
        (((st2.2.1.set_cell (cx, n)
          ((st2.2.1.get_cell (cx, n)).insert .north)).get_cell
            (cx, n - 1)).insert Dir.north.opposite) with hgc
      have hcv : st2.2.1.carve_passage (cx, n) .north = some ((cx, n - 1), gc) :=
        carve_of_next hnext
      have hokc : GOk g0 gc := gok_carve hok2 hcv
      have hlec : cellsLe st2.2.1 gc := cellsLe_of_carve hok2.1 hcv
      refine ⟨hokc, cellsLe_trans hle2 hlec, by omega, fun hww => hww,
        fun i h1 h2 => absurd (lt_of_lt_of_le h2 h1) (lt_irrefl i), ?_⟩
      intro i hik1
      by_cases hio : i < st2.1
      · obtain ⟨b, hb1, hb2, hbr⟩ := hup i hio
        exact ⟨b, hb1, hb2, reach_mono hlec hbr⟩
      · have hflagsc : ∀ j, st2.1 ≤ j → j < k →
            gc.is_carved (j, n) .east = true := by
          intro j h1 h2
          exact hlec.2.2.2 _ _ (hflags j h1 h2)
        have hrun := run_reach gc hokc.2.1 n st2.1 k
          (by rw [hokc.2.2.2.1]; omega) (by rw [hokc.2.2.1]; omega)
          hflagsc i cx (by omega) (by omega) (by omega) hcxk
        refine ⟨(cx, n - 1), by omega, rfl, ?_⟩
        refine Relation.ReflTransGen.tail hrun ?_
        refine ⟨.north, ?_, ?_⟩
        · rw [Grid.next_congr (Grid.carve_width hcv) (Grid.carve_height hcv)]
          exact hnext
        · exact (Grid.is_carved_carve hok2.1 hcv (cx, n) .north).2
            (Or.inr (Or.inl ⟨rfl, rfl⟩))
    · -- east branch: extend the run
      rename_i hbr
      have hkw : k + 1 < g0.width := by
        rcases Nat.lt_or_ge (k + 1) g0.width with h1 | h1
        · exact h1
        · exfalso
          apply hbr
          have : k + 1 = g0.width := by omega
          rw [this]
          simp
      have hnext : st2.2.1.get_next_cell_coords (k, n) .east =
          some (k + 1, n) := by
        refine Grid.next_eq_some.2
          ⟨Grid.inBounds_iff.2 ⟨by omega, by omega⟩,
           Grid.inBounds_iff.2 ⟨by omega, by omega⟩, rfl⟩
      rw [carve_of_next hnext]
      dsimp only
      have hcv : st2.2.1.carve_passage (k, n) .east = some ((k + 1, n), _) :=
        carve_of_next hnext
      have hokc := gok_carve hok2 hcv
      have hlec := cellsLe_of_carve hok2.1 hcv
      refine ⟨hokc, cellsLe_trans hle2 hlec, by omega,
        fun hww => absurd hww (by omega), ?_, ?_⟩
      · intro i h1 h2
        by_cases hik : i < k
        · exact hlec.2.2.2 _ _ (hflags i h1 hik)
        · have hik2 : i = k := by omega
          rw [hik2]
          exact (Grid.is_carved_carve hok2.1 hcv (k, n) .east).2
            (Or.inr (Or.inl ⟨rfl, rfl⟩))
      · intro i hio
        obtain ⟨b, hb1, hb2, hbr2⟩ := hup i hio
        exact ⟨b, hb1, hb2, reach_mono hlec hbr2⟩

/-- After the row loop of Sidewinder, every cell reaches the origin. -/
theorem sw_rows_post (g0 : Grid) (hw : 1 ≤ g0.width) (hh : 1 ≤ g0.height)
    (p0 : Grid × Rng) (hok0 : GOk g0 p0.1)
    (hfuse : ∀ x, x + 1 < g0.width → p0.1.is_carved (x, 0) .east = true) :
    GOk g0 ((List.range g0.height).foldl (sw_rows_step g0.width) p0).1 ∧
      ∀ c : Coords, c.1 < g0.width → c.2 < g0.height →
        ((List.range g0.height).foldl (sw_rows_step g0.width) p0).1.Reach
          c (0, 0) := by
  have key := range_fold_ind (sw_rows_step g0.width)
    (fun s2 k => GOk g0 s2.1 ∧
      (∀ x, x + 1 < g0.width → s2.1.is_carved (x, 0) .east = true) ∧
      (∀ c : Coords, c.1 < g0.width → c.2 < k → s2.1.Reach c (0, 0)))
    g0.height p0
    ⟨hok0, hfuse, fun c h1 h2 => absurd h2 (by omega)⟩
    ?_
  · exact ⟨key.1, key.2.2⟩
  · intro s2 k hk hI
    obtain ⟨hok2, hfuse2, hreach2⟩ := hI
    unfold sw_rows_step
    by_cases hk0 : k = 0
    · rw [if_pos hk0]
      subst hk0
      refine ⟨hok2, hfuse2, ?_⟩
      intro c h1 h2
      have hc2 : c.2 = 0 := by omega
      have h3 := row0_reach s2.1 hok2.2.1 (by rw [hok2.2.2.2.1]; omega)
        (fun x hx => hfuse2 x (by rw [hok2.2.2.1] at hx; exact hx))
        c.1 (by rw [hok2.2.2.1]; exact h1)
      rw [show ((c.1, 0) : Coords) = c by
        rcases c with ⟨a1, a2⟩; simp only at hc2; rw [hc2]] at h3
      exact h3
    · rw [if_neg hk0]
      obtain ⟨hokr, hler, hupr⟩ := sw_row_post g0 k (by omega) hk s2 hok2
      refine ⟨hokr, fun x hx => hler.2.2.2 _ _ (hfuse2 x hx), ?_⟩
      intro c h1 h2
      by_cases hck : c.2 < k
      · exact reach_mono hler (hreach2 c h1 hck)
      · have hc2 : c.2 = k := by omega
        obtain ⟨b, hb1, hb2, hbr⟩ := hupr c.1 h1
        have hbreach : s2.1.Reach b (0, 0) := hreach2 b hb1 (by omega)
        have h3 := Relation.ReflTransGen.trans hbr (reach_mono hler hbreach)
        rw [show ((c.1, k) : Coords) = c by
          rcases c with ⟨a1, a2⟩; simp only at hc2; rw [hc2]] at h3
        exact h3

/-- The row 0 fusing pass carves east at every non-boundary cell. -/
theorem sw_fuse_post (g0 : Grid) (hh : 1 ≤ g0.height) (r : Rng)
    (hwf : g0.WF) (hsym : SymInv g0) :
    GOk g0 ((List.range g0.width).foldl sw_fuse_step (g0, r)).1 ∧
      ∀ x, x + 1 < g0.width →
        ((List.range g0.width).foldl sw_fuse_step (g0, r)).1.is_carved
          (x, 0) .east = true := by
  have key := foldl_establish (fun s => GOk g0 s.1)
    (fun s x => x + 1 < g0.width → s.1.is_carved (x, 0) .east = true)
    sw_fuse_step (List.range g0.width) (g0, r) (gok_refl hwf hsym) ?_ ?_
  · exact ⟨key.1, fun x hx =>
      key.2 x (List.mem_range.2 (by omega)) hx⟩
  · intro s2 x _ hok2
    unfold sw_fuse_step
    cases hcv : s2.1.carve_passage (x, 0) .east with
    | none =>
      dsimp only
      refine ⟨hok2, ?_⟩
      intro hx1
      exfalso
      have hnone := carve_none_iff.1 hcv
      have hwid2 : s2.1.width = g0.width := hok2.2.2.1
      have hhei2 : s2.1.height = g0.height := hok2.2.2.2.1
      have hsome : s2.1.get_next_cell_coords (x, 0) .east =
          some (x + 1, 0) := by
        refine Grid.next_eq_some.2
          ⟨Grid.inBounds_iff.2 ⟨by show x < s2.1.width; omega,
            by show 0 < s2.1.height; omega⟩,
           Grid.inBounds_iff.2 ⟨by show x + 1 < s2.1.width; omega,
            by show 0 < s2.1.height; omega⟩, rfl⟩
      rw [hsome] at hnone
      cases hnone
    | some res =>
      dsimp only
      refine ⟨gok_carve hok2 hcv, ?_⟩
      intro _
      rcases res with ⟨n2, g2⟩
      exact (Grid.is_carved_carve hok2.1 hcv (x, 0) .east).2
        (Or.inr (Or.inl ⟨rfl, rfl⟩))
  · intro s2 x y _ hok2 hD hx1
    unfold sw_fuse_step
    cases hcv : s2.1.carve_passage (y, 0) .east with
    | none =>
      dsimp only
      exact hD hx1
    | some res =>
      dsimp only
      exact (cellsLe_of_carve hok2.1 hcv).2.2.2 _ _ (hD hx1)

/-- Sidewinder mazes over any positive grid validate. -/
theorem generate_sw_valid (w h : Nat) (hw : 1 ≤ w) (hh : 1 ≤ h)
    (r r2 : Rng) :
    validate (generate_sw (Grid.new w h) r).1 r2 = true := by
  obtain ⟨hok1, hfuse⟩ := sw_fuse_post (Grid.new w h) hh r
    (Grid.new_WF w h) (symInv_new w h)
  obtain ⟨hokF, hreachF⟩ := sw_rows_post (Grid.new w h) hw hh _ hok1 hfuse
  unfold generate_sw
  dsimp only
  apply validate_complete
  · rw [hokF.2.2.1]; exact hw
  · rw [hokF.2.2.2.1]; exact hh
  · intro c hc
    have hcb : (Grid.new w h).inBounds c = true := by
      rw [← cellsLe_inBounds hokF.2.2]
      exact hc
    rcases Grid.inBounds_iff.1 hcb with ⟨h1, h2⟩
    exact symInv_reach_symm hokF.2.1 (hreachF c h1 h2)

theorem labelOf_congr {g g2 : Grid} (hw : g.width = g2.width)
    (l : List Nat) (c : Coords) : labelOf g l c = labelOf g2 l c := by
  unfold labelOf Grid.idx
  rw [hw]

theorem labelOf_map {g : Grid} (hwf : g.WF) {c : Coords}
    (hc : g.inBounds c = true) {l : List Nat}
    (hlen : l.length = g.cells.length) (f : Nat → Nat) :
    labelOf g (l.map f) c = f (labelOf g l c) := by
  unfold labelOf
  have hidx : g.idx c < l.length := by
    rw [hlen]
    exact Grid.idx_lt hwf hc
  rw [List.getD_eq_getElem l 0 hidx,
    List.getD_eq_getElem _ 0 (by rw [List.length_map]; exact hidx),
    List.getElem_map]

theorem labelOf_init {g : Grid} (hwf : g.WF) {c : Coords}
    (hc : g.inBounds c = true) : labelOf g (labelsInit g) c = g.idx c := by
  unfold labelOf labelsInit
  have hidx : g.idx c < g.cells.length := Grid.idx_lt hwf hc
  rw [List.getD_eq_getElem _ 0 (by rw [List.length_range]; exact hidx),
    List.getElem_range]

theorem mem_cons_eraseIdx {α : Type} (dflt : α) :
    ∀ (l : List α) (k : Nat) (a : α), a ∈ l →
      a = l.getD k dflt ∨ a ∈ l.eraseIdx k := by
  intro l
  induction l with
  | nil => intro k a ha; cases ha
  | cons b t ih =>
    intro k a ha
    cases k with
    | zero =>
      rcases List.mem_cons.1 ha with h | h
      · exact Or.inl (by rw [h]; rfl)
      · exact Or.inr (by show a ∈ t; exact h)
    | succ j =>
      rcases List.mem_cons.1 ha with h | h
      · refine Or.inr ?_
        show a ∈ b :: t.eraseIdx j
        exact List.mem_cons.2 (Or.inl h)
      · rcases ih j a h with h2 | h2
        · exact Or.inl (by rw [h2]; rfl)
        · refine Or.inr ?_
          show a ∈ b :: t.eraseIdx j
          exact List.mem_cons.2 (Or.inr h2)

theorem shuffleList_mem {α : Type} (dflt : α) :
    ∀ (n : Nat) (l : List α) (r : Rng) (a : α), a ∈ l →
      a ∈ (shuffleList dflt n l r).1 := by
  intro n
  induction n with
  | zero => intro l r a ha; exact ha
  | succ m ih =>
    intro l r a ha
    cases l with
    | nil => cases ha
    | cons b t =>
      unfold shuffleList
      dsimp only
      rcases mem_cons_eraseIdx dflt (b :: t) (r.below (b :: t).length).1
          a ha with h | h
      · exact List.mem_cons.2 (Or.inl h)
      · exact List.mem_cons.2 (Or.inr (ih _ _ a h))

theorem mem_canonicalEdges {g : Grid} {c m : Coords} {d : Dir}
    (hnext : g.get_next_cell_coords c d = some m)
    (hd : d = Dir.south ∨ d = Dir.east) : (c, d) ∈ canonicalEdges g := by
  unfold canonicalEdges
  rw [List.mem_flatMap]
  refine ⟨c, Grid.mem_allCoords.2 (Grid.next_eq_some.1 hnext).1, ?_⟩
  rw [List.mem_map]
  refine ⟨d, ?_, rfl⟩
  rw [List.mem_filter]
  constructor
  · rcases hd with h | h <;> rw [h]
    · exact List.mem_cons_self _ _
    · exact List.mem_cons_of_mem _ (List.mem_singleton.2 rfl)
  · rw [hnext]
    rfl

theorem kruskal_step_inv (g0 : Grid) (hwf0 : g0.WF)
    (st : Grid × List Nat) (e : Coords × Dir) (hP : KruskalInv g0 st) :
    KruskalInv g0 (kruskal_step st e) ∧
      cellsLe st.1 (kruskal_step st e).1 ∧
      (∀ a b : Coords, g0.inBounds a = true → g0.inBounds b = true →
        labelOf g0 st.2 a = labelOf g0 st.2 b →
        labelOf g0 (kruskal_step st e).2 a =
          labelOf g0 (kruskal_step st e).2 b) ∧
      (∀ m, g0.get_next_cell_coords e.1 e.2 = some m →
        labelOf g0 (kruskal_step st e).2 e.1 =
          labelOf g0 (kruskal_step st e).2 m) := by
  obtain ⟨hok, hlen, hL2⟩ := hP
  have hwid : st.1.width = g0.width := hok.2.2.1
  have hnc : ∀ c d, st.1.get_next_cell_coords c d =
      g0.get_next_cell_coords c d :=
    Grid.next_congr hwid hok.2.2.2.1
  unfold kruskal_step
  cases hnx : st.1.get_next_cell_coords e.1 e.2 with
  | none =>
    dsimp only
    refine ⟨⟨hok, hlen, hL2⟩, cellsLe_refl _, fun a b _ _ hab => hab, ?_⟩
    intro m hm
    rw [hnc, hm] at hnx
    cases hnx
  | some m =>
    dsimp only
    have hm0 : g0.get_next_cell_coords e.1 e.2 = some m := by
      rw [← hnc]
      exact hnx
    have hinb1 : g0.inBounds e.1 = true := (Grid.next_eq_some.1 hm0).1
    have hinbm : g0.inBounds m = true := (Grid.next_eq_some.1 hm0).2.1
    have hla : labelOf st.1 st.2 e.1 = labelOf g0 st.2 e.1 :=
      labelOf_congr hwid st.2 e.1
    have hlb : labelOf st.1 st.2 m = labelOf g0 st.2 m :=
      labelOf_congr hwid st.2 m
    by_cases heq : labelOf st.1 st.2 e.1 = labelOf st.1 st.2 m
    · rw [if_pos heq]
      refine ⟨⟨hok, hlen, hL2⟩, cellsLe_refl _, fun a b _ _ hab => hab, ?_⟩
      intro m2 hm2
      rw [hm0] at hm2
      injection hm2 with hm2
      rw [← hm2, ← hla, ← hlb]
      exact heq
    · rw [if_neg heq]
      obtain ⟨gc, hcv⟩ := carve_isSome_of_next hnx
      rw [hcv]
      dsimp only
      have hokc : GOk g0 gc := gok_carve hok hcv
      have hlec : cellsLe st.1 gc := cellsLe_of_carve hok.1 hcv
      set la := labelOf st.1 st.2 e.1 with hladef
      set lb := labelOf st.1 st.2 m with hlbdef
      set f : Nat → Nat := fun v => if v = lb then la else v with hfdef
      have hmap : ∀ c : Coords, g0.inBounds c = true →
          labelOf g0 (mergeLabels st.2 la lb) c = f (labelOf g0 st.2 c) := by
        intro c hc
        unfold mergeLabels
        exact labelOf_map hwf0 hc hlen f
      have hlen2 : (mergeLabels st.2 la lb).length = g0.cells.length := by
        unfold mergeLabels
        rw [List.length_map]
        exact hlen
      have hedge : gc.carvedAdj e.1 m := by
        refine ⟨e.2, ?_, ?_⟩
        · rw [Grid.next_congr (Grid.carve_width hcv) (Grid.carve_height hcv)]
          exact hnx
        · exact (Grid.is_carved_carve hok.1 hcv e.1 e.2).2
            (Or.inr (Or.inl ⟨rfl, rfl⟩))
      have hedge2 : gc.carvedAdj m e.1 := symInv_carvedAdj_symm hokc.2.1 hedge
      have hL2c : ∀ a b : Coords, g0.inBounds a = true →
          g0.inBounds b = true →
          labelOf g0 (mergeLabels st.2 la lb) a =
            labelOf g0 (mergeLabels st.2 la lb) b → gc.Reach a b := by
        intro a b hina hinb hab
        rw [hmap a hina, hmap b hinb] at hab
        by_cases hab0 : labelOf g0 st.2 a = labelOf g0 st.2 b
        · exact reach_mono hlec (hL2 a b hina hinb hab0)
        · by_cases ha : labelOf g0 st.2 a = lb
          · by_cases hb : labelOf g0 st.2 b = lb
            · exact absurd (ha.trans hb.symm) hab0
            · -- a is in m's set, b is in e.1's set
              have hfa : f (labelOf g0 st.2 a) = la := by
                rw [hfdef]
                dsimp only
                rw [if_pos ha]
              have hfb : f (labelOf g0 st.2 b) = labelOf g0 st.2 b := by
                rw [hfdef]
                dsimp only
                rw [if_neg hb]
              rw [hfa, hfb] at hab
              have hram : st.1.Reach a m :=
                hL2 a m hina hinbm (by rw [← hlb]; exact ha)
              have hrb1 : st.1.Reach b e.1 :=
                hL2 b e.1 hinb hinb1 (by rw [← hab, ← hla])
              refine Relation.ReflTransGen.trans (reach_mono hlec hram) ?_
              refine Relation.ReflTransGen.trans
                (Relation.ReflTransGen.single hedge2) ?_
              exact reach_mono hlec (symInv_reach_symm hok.2.1 hrb1)
          · by_cases hb : labelOf g0 st.2 b = lb
            · -- b is in m's set, a is in e.1's set
              have hfb : f (labelOf g0 st.2 b) = la := by
                rw [hfdef]
                dsimp only
                rw [if_pos hb]
              have hfa : f (labelOf g0 st.2 a) = labelOf g0 st.2 a := by
                rw [hfdef]
                dsimp only
                rw [if_neg ha]
              rw [hfa, hfb] at hab
              have hrbm : st.1.Reach b m :=
                hL2 b m hinb hinbm (by rw [← hlb]; exact hb)
              have hra1 : st.1.Reach a e.1 :=
                hL2 a e.1 hina hinb1 (by rw [hab, ← hla])
              refine Relation.ReflTransGen.trans (reach_mono hlec hra1) ?_
              refine Relation.ReflTransGen.trans
                (Relation.ReflTransGen.single hedge) ?_
              exact reach_mono hlec (symInv_reach_symm hok.2.1 hrbm)
            · have hfa : f (labelOf g0 st.2 a) = labelOf g0 st.2 a := by
                rw [hfdef]
                dsimp only
                rw [if_neg ha]
              have hfb : f (labelOf g0 st.2 b) = labelOf g0 st.2 b := by
                rw [hfdef]
                dsimp only
                rw [if_neg hb]
              rw [hfa, hfb] at hab
              exact absurd hab hab0
      refine ⟨⟨hokc, hlen2, hL2c⟩, hlec, ?_, ?_⟩
      · intro a b hina hinb hab
        rw [hmap a hina, hmap b hinb, hab]
      · intro m2 hm2
        rw [hm0] at hm2
        injection hm2 with hm2
        rw [← hm2, hmap e.1 hinb1, hmap m hinbm, hfdef]
        dsimp only
        rw [← hla, ← hlb, if_neg heq, if_pos rfl]

theorem kruskal_process_post (g0 : Grid) (hwf : g0.WF) (hsym : SymInv g0)
    (edges : List (Coords × Dir)) :
    KruskalInv g0 (kruskal_process edges g0 (labelsInit g0)) ∧
      ∀ e ∈ edges, ∀ m, g0.get_next_cell_coords e.1 e.2 = some m →
        labelOf g0 (kruskal_process edges g0 (labelsInit g0)).2 e.1 =
          labelOf g0 (kruskal_process edges g0 (labelsInit g0)).2 m := by
  unfold kruskal_process
  refine foldl_establish (KruskalInv g0)
    (fun st e => ∀ m, g0.get_next_cell_coords e.1 e.2 = some m →
      labelOf g0 st.2 e.1 = labelOf g0 st.2 m)
    kruskal_step edges (g0, labelsInit g0) ?_ ?_ ?_
  · refine ⟨gok_refl hwf hsym, ?_, ?_⟩
    · unfold labelsInit
      exact List.length_range _
    · intro a b hina hinb hab
      rw [labelOf_init hwf hina, labelOf_init hwf hinb] at hab
      rw [Grid.idx_inj hina hinb hab]
      exact Relation.ReflTransGen.refl
  · intro st e _ hP
    obtain ⟨h1, _, _, h4⟩ := kruskal_step_inv g0 hwf st e hP
    exact ⟨h1, h4⟩
  · intro st x y _ hP hD m hm
    obtain ⟨_, _, h3, _⟩ := kruskal_step_inv g0 hwf st y hP
    have hinb1 : g0.inBounds x.1 = true := (Grid.next_eq_some.1 hm).1
    have hinbm : g0.inBounds m = true := (Grid.next_eq_some.1 hm).2.1
    exact h3 x.1 m hinb1 hinbm (hD m hm)

/-- Kruskal mazes over any positive grid validate. -/
theorem generate_kruskal_valid (w h : Nat) (hw : 1 ≤ w) (hh : 1 ≤ h)
    (r r2 : Rng) :
    validate (generate_kruskal (Grid.new w h) r).1 r2 = true := by
  unfold generate_kruskal
  dsimp only
  obtain ⟨⟨hok, hlen, hL2⟩, hD⟩ := kruskal_process_post (Grid.new w h)
    (Grid.new_WF w h) (symInv_new w h)
    (shuffleList ((0, 0), Dir.north) (canonicalEdges (Grid.new w h)).length
      (canonicalEdges (Grid.new w h)) r).1
  have hDc : ∀ (c m : Coords) (d : Dir),
      (Grid.new w h).get_next_cell_coords c d = some m →
      (d = Dir.south ∨ d = Dir.east) →
      labelOf (Grid.new w h)
        (kruskal_process (shuffleList ((0, 0), Dir.north)
          (canonicalEdges (Grid.new w h)).length
          (canonicalEdges (Grid.new w h)) r).1 (Grid.new w h)
          (labelsInit (Grid.new w h))).2 c =
      labelOf (Grid.new w h)
        (kruskal_process (shuffleList ((0, 0), Dir.north)
          (canonicalEdges (Grid.new w h)).length
          (canonicalEdges (Grid.new w h)) r).1 (Grid.new w h)
          (labelsInit (Grid.new w h))).2 m := by
    intro c m d hnext hd
    exact hD (c, d) (shuffleList_mem ((0, 0), Dir.north) _ _ r (c, d)
      (mem_canonicalEdges hnext hd)) m hnext
  have hall : ∀ a b : Coords, (Grid.new w h).inBounds a = true →
      (Grid.new w h).inBounds b = true →
      labelOf (Grid.new w h)
        (kruskal_process (shuffleList ((0, 0), Dir.north)
          (canonicalEdges (Grid.new w h)).length
          (canonicalEdges (Grid.new w h)) r).1 (Grid.new w h)
          (labelsInit (Grid.new w h))).2 a =
      labelOf (Grid.new w h)
        (kruskal_process (shuffleList ((0, 0), Dir.north)
          (canonicalEdges (Grid.new w h)).length
          (canonicalEdges (Grid.new w h)) r).1 (Grid.new w h)
          (labelsInit (Grid.new w h))).2 b := by
    intro a b hina hinb
    have hgr := Grid.gReach_all hina hinb
    induction hgr with
    | refl => rfl
    | @tail p q hp hq ih =>
      have hinp : (Grid.new w h).inBounds p = true := by
        rcases hq with ⟨d, hd⟩
        exact (Grid.next_eq_some.1 hd).1
      refine (ih hinp).trans ?_
      rcases hq with ⟨d, hd⟩
      cases d with
      | south => exact hDc p q .south hd (Or.inl rfl)
      | east => exact hDc p q .east hd (Or.inr rfl)
      | north =>
        exact (hDc q p .south (Grid.next_symm hd) (Or.inl rfl)).symm
      | west =>
        exact (hDc q p .east (Grid.next_symm hd) (Or.inr rfl)).symm
  apply validate_complete
  · rw [hok.2.2.1]
    exact hw
  · rw [hok.2.2.2.1]
    exact hh
  · intro c hc
    have hcb : (Grid.new w h).inBounds c = true := by
      rw [← cellsLe_inBounds hok.2.2]
      exact hc
    have h00 : (Grid.new w h).inBounds (0, 0) = true := by
      rw [Grid.inBounds_iff]
      exact ⟨by simpa [Grid.new] using hw, by simpa [Grid.new] using hh⟩
    exact hL2 (0, 0) c h00 hcb (hall (0, 0) c h00 hcb)

theorem unvisitedDirs_mem {g : Grid} {c : Coords} {d : Dir}
    (h : d ∈ unvisitedDirs g c) :
    ∃ m, g.get_next_cell_coords c d = some m ∧
      g.is_cell_visited m = false := by
  unfold unvisitedDirs at h
  rw [List.mem_filter] at h
  have h2 := h.2
  cases hnx : g.get_next_cell_coords c d with
  | none =>
    rw [hnx] at h2
    dsimp only at h2
    cases h2
  | some m =>
    rw [hnx] at h2
    dsimp only at h2
    rw [Bool.not_eq_eq_eq_not, Bool.not_true] at h2
    exact ⟨m, rfl, h2⟩

theorem mem_dirs4 (d : Dir) : d ∈ dirs4 := by
  cases d <;> simp [dirs4]

theorem unvisitedDirs_isEmpty {g : Grid} {c : Coords}
    (h : (unvisitedDirs g c).isEmpty = true) :
    ∀ d m, g.get_next_cell_coords c d = some m →
      g.is_cell_visited m = true := by
  rw [List.isEmpty_iff] at h
  intro d m hm
  by_contra hv
  rw [Bool.not_eq_true] at hv
  have hd : d ∈ unvisitedDirs g c := by
    unfold unvisitedDirs
    rw [List.mem_filter]
    refine ⟨mem_dirs4 d, ?_⟩
    rw [hm]
    dsimp only
    rw [hv]
    rfl
  rw [h] at hd
  cases hd

/-- A non-empty visited set that is closed under grid adjacency covers
the whole grid. -/
theorem visited_closure_all (g : Grid) (c0 : Coords)
    (hc0 : g.inBounds c0 = true) (hv0 : g.is_cell_visited c0 = true)
    (hclosed : ∀ x, g.inBounds x = true → g.is_cell_visited x = true →
      ∀ m, g.gridAdj x m → g.is_cell_visited m = true) :
    ∀ x, g.inBounds x = true → g.is_cell_visited x = true := by
  have key : ∀ y, g.GReach c0 y → g.is_cell_visited y = true := by
    intro y hy
    induction hy with
    | refl => exact hv0
    | @tail p q hp hq ih =>
      have hinp : g.inBounds p = true := by
        rcases hq with ⟨d, hd⟩
        exact (Grid.next_eq_some.1 hd).1
      exact hclosed p hinp ih q hq
  exact fun x hx => key x (Grid.gReach_all hc0 hx)

theorem gt_loop_gok (g0 : Grid) :
    ∀ (f : Nat) (active : List Coords) (g : Grid) (r : Rng) (gF : Grid),
      GOk g0 g → gt_loop f active g r = some gF → GOk g0 gF := by
  intro f
  induction f with
  | zero =>
    intro active g r gF hok hrun
    unfold gt_loop at hrun
    by_cases he : active.isEmpty = true
    · rw [if_pos he] at hrun
      injection hrun with hrun
      rw [← hrun]
      exact hok
    · rw [if_neg he] at hrun
      cases hrun
  | succ f ih =>
    intro active g r gF hok hrun
    unfold gt_loop at hrun
    cases active with
    | nil =>
      injection hrun with hrun
      rw [← hrun]
      exact hok
    | cons c rest =>
      dsimp only at hrun
      by_cases he : (unvisitedDirs g c).isEmpty = true
      · rw [if_pos he] at hrun
        exact ih rest g r gF hok hrun
      · rw [if_neg he] at hrun
        cases hcv : g.carve_passage c (pickDir r (unvisitedDirs g c)).1 with
        | none =>
          rw [hcv] at hrun
          exact ih (c :: rest) g _ gF hok hrun
        | some res =>
          rw [hcv] at hrun
          rcases res with ⟨m, gc⟩
          exact ih _ gc _ gF (gok_carve hok hcv) hrun

/-- The Growing Tree invariant chain: any successful run from a state
whose active cells and visited cells are anchored at the start yields a
fully connected maze. -/
theorem gt_loop_post (g0 : Grid) (c0 : Coords)
    (hnbr : ∃ m, g0.gridAdj c0 m) :
    ∀ (f : Nat) (active : List Coords) (g : Grid) (r : Rng) (gF : Grid),
      GOk g0 g →
      (∀ c ∈ active, g.inBounds c = true ∧ g.Reach c0 c) →
      (∀ x, g.inBounds x = true → g.is_cell_visited x = true →
        g.Reach c0 x) →
      (∀ x, g.inBounds x = true → g.is_cell_visited x = true →
        x ∈ active ∨ ∀ m, g.gridAdj x m → g.is_cell_visited m = true) →
      (g.is_cell_visited c0 = false →
        (∀ x, g.is_cell_visited x = false) ∧ active = [c0]) →
      g.inBounds c0 = true →
      gt_loop f active g r = some gF →
      GOk g0 gF ∧ ∀ x, gF.inBounds x = true → gF.Reach c0 x := by
  have exit : ∀ (g : Grid), GOk g0 g →
      (∀ x, g.inBounds x = true → g.is_cell_visited x = true →
        g.Reach c0 x) →
      (∀ x, g.inBounds x = true → g.is_cell_visited x = true →
        x ∈ ([] : List Coords) ∨
          ∀ m, g.gridAdj x m → g.is_cell_visited m = true) →
      (g.is_cell_visited c0 = false →
        (∀ x, g.is_cell_visited x = false) ∧ ([] : List Coords) = [c0]) →
      g.inBounds c0 = true →
      ∀ x, g.inBounds x = true → g.Reach c0 x := by
    intro g hok hreach hclosed hLinv hc0g
    by_cases hv0 : g.is_cell_visited c0 = true
    · have hcl2 : ∀ x, g.inBounds x = true → g.is_cell_visited x = true →
          ∀ m, g.gridAdj x m → g.is_cell_visited m = true := by
        intro x hx hxv
        rcases hclosed x hx hxv with h | h
        · cases h
        · exact h
      have hall := visited_closure_all g c0 hc0g hv0 hcl2
      exact fun x hx => hreach x hx (hall x hx)
    · rw [Bool.not_eq_true] at hv0
      obtain ⟨_, habs⟩ := hLinv hv0
      cases habs
  intro f
  induction f with
  | zero =>
    intro active g r gF hok hact hreach hclosed hLinv hc0g hrun
    unfold gt_loop at hrun
    by_cases he : active.isEmpty = true
    · rw [if_pos he] at hrun
      injection hrun with hrun
      rw [List.isEmpty_iff] at he
      subst he
      rw [← hrun]
      exact ⟨hok, exit g hok hreach hclosed hLinv hc0g⟩
    · rw [if_neg he] at hrun
      cases hrun
  | succ f ih =>
    intro active g r gF hok hact hreach hclosed hLinv hc0g hrun
    unfold gt_loop at hrun
    cases active with
    | nil =>
      injection hrun with hrun
      rw [← hrun]
      exact ⟨hok, exit g hok hreach hclosed hLinv hc0g⟩
    | cons c rest =>
      dsimp only at hrun
      by_cases he : (unvisitedDirs g c).isEmpty = true
      · rw [if_pos he] at hrun
        by_cases hv0 : g.is_cell_visited c0 = true
        · refine ih rest g r gF hok
            (fun x hx => hact x (List.mem_cons_of_mem c hx)) hreach ?_ ?_
            hc0g hrun
          · intro x hx hxv
            rcases hclosed x hx hxv with hmem | hcl
            · rcases List.mem_cons.1 hmem with hxc | hxr
              · subst hxc
                exact Or.inr (fun m hm => by
                  rcases hm with ⟨d, hd⟩
                  exact unvisitedDirs_isEmpty he d m hd)
              · exact Or.inl hxr
            · exact Or.inr hcl
          · intro hv0f
            rw [hv0f] at hv0
            cases hv0
        · rw [Bool.not_eq_true] at hv0
          obtain ⟨hempty, hsingle⟩ := hLinv hv0
          exfalso
          injection hsingle with hc0c hrest
          subst hc0c
          obtain ⟨m, hadj0⟩ := hnbr
          have hadj : g.gridAdj c m := gridAdj_of_le hok.2.2 hadj0
          rcases hadj with ⟨d, hd⟩
          have := unvisitedDirs_isEmpty he d m hd
          rw [hempty m] at this
          cases this
      · rw [if_neg he] at hrun
        have hne : unvisitedDirs g c ≠ [] := by
          intro hnil
          rw [hnil] at he
          exact he rfl
        obtain ⟨m, hnext, hmv⟩ := unvisitedDirs_mem (pickDir_mem r hne)
        rw [carve_of_next hnext] at hrun
        dsimp only at hrun
        set gc := (g.set_cell c ((g.get_cell c).insert
          (pickDir r (unvisitedDirs g c)).1)).set_cell m
          (((g.set_cell c ((g.get_cell c).insert
            (pickDir r (unvisitedDirs g c)).1)).get_cell m).insert
              (pickDir r (unvisitedDirs g c)).1.opposite) with hgc
        have hcv : g.carve_passage c (pickDir r (unvisitedDirs g c)).1 =
            some (m, gc) := carve_of_next hnext
        have hokc : GOk g0 gc := gok_carve hok hcv
        have hlec : cellsLe g gc := cellsLe_of_carve hok.1 hcv
        have hcin : g.inBounds c = true := (Grid.next_eq_some.1 hnext).1
        have hmin : g.inBounds m = true := (Grid.next_eq_some.1 hnext).2.1
        have hcreach : g.Reach c0 c :=
          (hact c (List.mem_cons_self c rest)).2
        have hedge : gc.carvedAdj c m := by
          refine ⟨(pickDir r (unvisitedDirs g c)).1, ?_, ?_⟩
          · rw [Grid.next_congr (Grid.carve_width hcv)
              (Grid.carve_height hcv)]
            exact hnext
          · exact (Grid.is_carved_carve hok.1 hcv c _).2
              (Or.inr (Or.inl ⟨rfl, rfl⟩))
        have hmreach : gc.Reach c0 m :=
          Relation.ReflTransGen.tail (reach_mono hlec hcreach) hedge
        refine ih (m :: c :: rest) gc _ gF hokc ?_ ?_ ?_ ?_
          (by rw [cellsLe_inBounds hlec]; exact hc0g) hrun
        · intro x hx
          rcases List.mem_cons.1 hx with hxm | hx2
          · subst hxm
            exact ⟨by rw [cellsLe_inBounds hlec]; exact hmin, hmreach⟩
          · obtain ⟨h1, h2⟩ := hact x hx2
            exact ⟨by rw [cellsLe_inBounds hlec]; exact h1,
              reach_mono hlec h2⟩
        · intro x hx hxv
          have hx0 : g.inBounds x = true := by
            rw [← cellsLe_inBounds hlec]
            exact hx
          rcases (Grid.visited_carve hok.1 hcv x hx0).1 hxv with h | h | h
          · exact reach_mono hlec (hreach x hx0 h)
          · subst h
            exact reach_mono hlec hcreach
          · subst h
            exact hmreach
        · intro x hx hxv
          have hx0 : g.inBounds x = true := by
            rw [← cellsLe_inBounds hlec]
            exact hx
          rcases (Grid.visited_carve hok.1 hcv x hx0).1 hxv with h | h | h
          · rcases hclosed x hx0 h with hmem | hcl
            · exact Or.inl (List.mem_cons_of_mem m hmem)
            · refine Or.inr ?_
              intro m2 hm2
              have hm2' : g.gridAdj x m2 := by
                rcases hm2 with ⟨d2, hd2⟩
                refine ⟨d2, ?_⟩
                rw [← cellsLe_next hlec]
                exact hd2
              rcases hm2' with ⟨d2, hd2⟩
              have hm2in : g.inBounds m2 = true :=
                (Grid.next_eq_some.1 hd2).2.1
              exact cellsLe_visited_mono hlec hm2in (hcl m2 ⟨d2, hd2⟩)
          · subst h
            exact Or.inl (List.mem_cons_of_mem m (List.mem_cons_self x rest))
          · subst h
            exact Or.inl (List.mem_cons_self x _)
        · intro hv0f
          exfalso
          by_cases hv0 : g.is_cell_visited c0 = true
          · rw [cellsLe_visited_mono hlec
              (by rw [← cellsLe_inBounds (cellsLe_refl g)]; exact hc0g) hv0]
              at hv0f
            cases hv0f
          · rw [Bool.not_eq_true] at hv0
            obtain ⟨_, hsingle⟩ := hLinv hv0
            injection hsingle with hc0c _
            subst hc0c
            have : gc.is_cell_visited c = true :=
              (Grid.visited_carve hok.1 hcv c hcin).2 (Or.inr (Or.inl rfl))
            rw [this] at hv0f
            cases hv0f

/-- Growing Tree terminates within its fuel. -/
theorem gt_loop_total (g0 : Grid) :
    ∀ (f : Nat) (active : List Coords) (g : Grid) (r : Rng),
      GOk g0 g → 2 * g.emptyCount + active.length < f →
      (gt_loop f active g r).isSome = true := by
  intro f
  induction f with
  | zero =>
    intro active g r _ hm
    omega
  | succ f ih =>
    intro active g r hok hm
    unfold gt_loop
    cases active with
    | nil => rfl
    | cons c rest =>
      dsimp only
      by_cases he : (unvisitedDirs g c).isEmpty = true
      · rw [if_pos he]
        refine ih rest g r hok ?_
        simp only [List.length_cons] at hm
        omega
      · rw [if_neg he]
        have hne : unvisitedDirs g c ≠ [] := by
          intro hnil
          rw [hnil] at he
          exact he rfl
        obtain ⟨m, hnext, hmv⟩ := unvisitedDirs_mem (pickDir_mem r hne)
        rw [carve_of_next hnext]
        dsimp only
        have hcv : g.carve_passage c (pickDir r (unvisitedDirs g c)).1 =
            some (m, _) := carve_of_next hnext
        have hlt := Grid.carve_emptyCount_lt hok.1 hcv hmv
        refine ih _ _ _ (gok_carve hok hcv) ?_
        simp only [List.length_cons] at hm ⊢
        omega

/-- Growing Tree mazes validate whenever the run reports success (and it
always does within the supplied fuel). -/
theorem generate_gt_valid (w h : Nat) (hw : 1 ≤ w) (hh : 1 ≤ h)
    (s : Option Coords)
    (hs : (Grid.new w h).inBounds (s.getD (0, 0)) = true) (r r2 : Rng) :
    (generate_gt (Grid.new w h) s r).isSome = true ∧
      ∀ gF, generate_gt (Grid.new w h) s r = some gF →
        validate gF r2 = true := by
  constructor
  · unfold generate_gt
    refine gt_loop_total (Grid.new w h) _ _ _ _ (gok_new w h) ?_
    simp only [List.length_cons, List.length_nil]
    omega
  · intro gF hgen
    unfold generate_gt at hgen
    by_cases hN : 2 ≤ w * h
    · obtain ⟨hokF, hreachF⟩ := gt_loop_post (Grid.new w h) (s.getD (0, 0))
        (exists_gridAdj_of_two hs hN) _ _ _ _ gF (gok_new w h)
        (fun c hc => ⟨by
          rw [List.mem_singleton.1 hc]; exact hs, by
          rw [List.mem_singleton.1 hc]; exact Relation.ReflTransGen.refl⟩)
        (fun x _ hxv => by rw [new_visited_false w h x] at hxv; cases hxv)
        (fun x _ hxv => by rw [new_visited_false w h x] at hxv; cases hxv)
        (fun _ => ⟨fun x => new_visited_false w h x, rfl⟩) hs hgen
      have h00 : (Grid.new w h).inBounds (0, 0) = true := by
        rw [Grid.inBounds_iff]
        exact ⟨by simpa [Grid.new] using hw, by simpa [Grid.new] using hh⟩
      apply validate_complete
      · rw [hokF.2.2.1]; exact hw
      · rw [hokF.2.2.2.1]; exact hh
      · refine reach_reanchor hokF.2.1 hreachF ?_
        rw [cellsLe_inBounds hokF.2.2]
        exact h00
    · have hw1 : w = 1 := by
        rcases Nat.lt_or_ge (w * h) 2 with h1 | h1
        · nlinarith
        · omega
      have hh1 : h = 1 := by nlinarith
      subst hw1 hh1
      have hokF := gt_loop_gok (Grid.new 1 1) _ _ _ _ gF (gok_new 1 1) hgen
      apply validate_complete
      · rw [hokF.2.2.1]; exact hw
      · rw [hokF.2.2.2.1]; exact hh
      · intro c hc
        have hcb : (Grid.new 1 1).inBounds c = true := by
          rw [← cellsLe_inBounds hokF.2.2]
          exact hc
        rcases Grid.inBounds_iff.1 hcb with ⟨h1, h2⟩
        simp only [Grid.new] at h1 h2
        have hc00 : c = ((0, 0) : Coords) := by
          rcases c with ⟨a1, a2⟩
          simp only [Prod.mk.injEq]
          simp only at h1 h2
          omega
        rw [hc00]
        exact Relation.ReflTransGen.refl

theorem Grid.carve_emptyCount_lt_src {g : Grid} {c : Coords} {d : Dir}
    {n : Coords} {g' : Grid} (hwf : g.WF)
    (h : g.carve_passage c d = some (n, g'))
    (hcv : g.is_cell_visited c = false) : g'.emptyCount < g.emptyCount := by
  obtain ⟨hnx, hg⟩ := Grid.carve_some h
  have hc : g.inBounds c = true := (Grid.next_eq_some.1 hnx).1
  subst hg
  refine lt_of_le_of_lt
    (Grid.set_cell_emptyCount_le _ _ _ (Cell.insert_not_empty _ _)) ?_
  refine Grid.set_cell_emptyCount_lt g _ hwf hc
    (Cell.insert_not_empty _ _) ?_
  unfold Grid.is_cell_visited at hcv
  rw [Bool.not_eq_false'] at hcv
  exact hcv

theorem hunt_find_none {g : Grid} (h : hunt_find g = none) :
    ∀ u, g.inBounds u = true → g.is_cell_visited u = false →
      ∀ d m, g.get_next_cell_coords u d = some m →
        g.is_cell_visited m = false := by
  intro u hu huv d m hm
  by_contra hv
  rw [Bool.not_eq_false] at hv
  unfold hunt_find at h
  rw [List.find?_eq_none] at h
  apply h u (Grid.mem_allCoords.2 hu)
  rw [huv]
  simp only [Bool.not_false, Bool.true_and]
  rw [List.any_eq_true]
  refine ⟨d, mem_dirs4 d, ?_⟩
  rw [hm]
  dsimp only
  exact hv

theorem hunt_find_some {g : Grid} {u : Coords} (h : hunt_find g = some u) :
    g.inBounds u = true ∧ g.is_cell_visited u = false ∧
      ∃ d m, g.get_next_cell_coords u d = some m ∧
        g.is_cell_visited m = true := by
  unfold hunt_find at h
  have h1 := List.find?_some h
  have h2 := List.mem_of_find?_eq_some h
  rw [Bool.and_eq_true] at h1
  obtain ⟨h1a, h1b⟩ := h1
  rw [Bool.not_eq_eq_eq_not, Bool.not_true] at h1a
  refine ⟨Grid.mem_allCoords.1 h2, h1a, ?_⟩
  rw [List.any_eq_true] at h1b
  obtain ⟨d, _, hpred⟩ := h1b
  cases hm : g.get_next_cell_coords u d with
  | none =>
    rw [hm] at hpred
    dsimp only at hpred
    cases hpred
  | some m =>
    rw [hm] at hpred
    dsimp only at hpred
    exact ⟨d, m, hm, hpred⟩

theorem hk_visited_dir_some {g : Grid} {u : Coords} {d : Dir}
    (h : hk_visited_dir g u = some d) :
    ∃ m, g.get_next_cell_coords u d = some m ∧
      g.is_cell_visited m = true := by
  unfold hk_visited_dir at h
  have h1 := List.find?_some h
  cases hm : g.get_next_cell_coords u d with
  | none =>
    rw [hm] at h1
    dsimp only at h1
    cases h1
  | some m =>
    rw [hm] at h1
    dsimp only at h1
    exact ⟨m, rfl, h1⟩

theorem hk_loop_gok (g0 : Grid) :
    ∀ (f : Nat) (c : Coords) (g : Grid) (r : Rng) (gF : Grid),
      GOk g0 g → hk_loop f c g r = some gF → GOk g0 gF := by
  intro f
  induction f with
  | zero =>
    intro c g r gF _ hrun
    cases hrun
  | succ f ih =>
    intro c g r gF hok hrun
    unfold hk_loop at hrun
    by_cases he : (unvisitedDirs g c).isEmpty = true
    · rw [if_pos he] at hrun
      cases hhf : hunt_find g with
      | none =>
        rw [hhf] at hrun
        injection hrun with hrun
        rw [← hrun]
        exact hok
      | some u =>
        rw [hhf] at hrun
        dsimp only at hrun
        cases hvd : hk_visited_dir g u with
        | none =>
          rw [hvd] at hrun
          injection hrun with hrun
          rw [← hrun]
          exact hok
        | some d0 =>
          rw [hvd] at hrun
          dsimp only at hrun
          cases hcv : g.carve_passage u d0 with
          | none =>
            rw [hcv] at hrun
            exact ih u g r gF hok hrun
          | some res =>
            rw [hcv] at hrun
            rcases res with ⟨m0, gc⟩
            exact ih u gc r gF (gok_carve hok hcv) hrun
    · rw [if_neg he] at hrun
      dsimp only at hrun
      cases hcv : g.carve_passage c (pickDir r (unvisitedDirs g c)).1 with
      | none =>
        rw [hcv] at hrun
        exact ih c g _ gF hok hrun
      | some res =>
        rw [hcv] at hrun
        rcases res with ⟨m, gc⟩
        exact ih m gc _ gF (gok_carve hok hcv) hrun

/-- The Hunt-and-Kill invariant chain. -/
theorem hk_loop_post (g0 : Grid) (c0 : Coords)
    (hnbr : ∃ m, g0.gridAdj c0 m) :
    ∀ (f : Nat) (c : Coords) (g : Grid) (r : Rng) (gF : Grid),
      GOk g0 g → g.inBounds c = true → g.Reach c0 c →
      (∀ x, g.inBounds x = true → g.is_cell_visited x = true →
        g.Reach c0 x) →
      (g.is_cell_visited c0 = false →
        (∀ x, g.is_cell_visited x = false) ∧ c = c0) →
      g.inBounds c0 = true →
      hk_loop f c g r = some gF →
      GOk g0 gF ∧ ∀ x, gF.inBounds x = true → gF.Reach c0 x := by
  have exit : ∀ (g : Grid), GOk g0 g → hunt_find g = none →
      g.is_cell_visited c0 = true → g.inBounds c0 = true →
      (∀ x, g.inBounds x = true → g.is_cell_visited x = true →
        g.Reach c0 x) →
      ∀ x, g.inBounds x = true → g.Reach c0 x := by
    intro g hok hnone hv0 hc0g hreach
    have hclosed : ∀ x, g.inBounds x = true → g.is_cell_visited x = true →
        ∀ m, g.gridAdj x m → g.is_cell_visited m = true := by
      intro x hx hxv m hm
      by_contra hmv
      rw [Bool.not_eq_true] at hmv
      rcases Grid.gridAdj_symm hm with ⟨d2, hd2⟩
      have hmin : g.inBounds m = true := by
        rcases hm with ⟨d, hd⟩
        exact (Grid.next_eq_some.1 hd).2.1
      have := hunt_find_none hnone m hmin hmv d2 x hd2
      rw [hxv] at this
      cases this
    have hall := visited_closure_all g c0 hc0g hv0 hclosed
    exact fun x hx => hreach x hx (hall x hx)
  intro f
  induction f with
  | zero =>
    intro c g r gF _ _ _ _ _ _ hrun
    cases hrun
  | succ f ih =>
    intro c g r gF hok hcin hcreach hreach hLinv hc0g hrun
    unfold hk_loop at hrun
    by_cases he : (unvisitedDirs g c).isEmpty = true
    · rw [if_pos he] at hrun
      cases hhf : hunt_find g with
      | none =>
        rw [hhf] at hrun
        injection hrun with hrun
        subst hrun
        by_cases hv0 : g.is_cell_visited c0 = true
        · exact ⟨hok, exit g hok hhf hv0 hc0g hreach⟩
        · rw [Bool.not_eq_true] at hv0
          obtain ⟨hempty, hcc0⟩ := hLinv hv0
          subst hcc0
          exfalso
          obtain ⟨m, hadj0⟩ := hnbr
          rcases gridAdj_of_le hok.2.2 hadj0 with ⟨d, hd⟩
          have := unvisitedDirs_isEmpty he d m hd
          rw [hempty m] at this
          cases this
      | some u =>
        rw [hhf] at hrun
        dsimp only at hrun
        obtain ⟨huin, huv, d1, m1, hd1, hm1⟩ := hunt_find_some hhf
        cases hvd : hk_visited_dir g u with
        | none =>
          exfalso
          unfold hk_visited_dir at hvd
          rw [List.find?_eq_none] at hvd
          apply hvd d1 (mem_dirs4 d1)
          rw [hd1]
          dsimp only
          exact hm1
        | some d0 =>
          rw [hvd] at hrun
          dsimp only at hrun
          obtain ⟨m0, hnext0, hm0v⟩ := hk_visited_dir_some hvd
          rw [carve_of_next hnext0] at hrun
          dsimp only at hrun
          have hcv : g.carve_passage u d0 = some (m0, _) :=
            carve_of_next hnext0
          have hokc := gok_carve hok hcv
          have hlec := cellsLe_of_carve hok.1 hcv
          have hm0in : g.inBounds m0 = true :=
            (Grid.next_eq_some.1 hnext0).2.1
          have hadjc : ∀ gc2, g.carve_passage u d0 = some (m0, gc2) →
              gc2.carvedAdj u m0 := by
            intro gc2 hcv2
            refine ⟨d0, ?_, ?_⟩
            · rw [Grid.next_congr (Grid.carve_width hcv2)
                (Grid.carve_height hcv2)]
              exact hnext0
            · exact (Grid.is_carved_carve hok.1 hcv2 u d0).2
                (Or.inr (Or.inl ⟨rfl, rfl⟩))
          have hureach : ∀ gc2, g.carve_passage u d0 = some (m0, gc2) →
              gc2.Reach c0 u := by
            intro gc2 hcv2
            refine Relation.ReflTransGen.tail
              (reach_mono (cellsLe_of_carve hok.1 hcv2)
                (hreach m0 hm0in hm0v)) ?_
            exact symInv_carvedAdj_symm (gok_carve hok hcv2).2.1
              (hadjc gc2 hcv2)
          refine ih u _ r gF hokc
            (by rw [cellsLe_inBounds hlec]; exact huin)
            (hureach _ hcv) ?_ ?_
            (by rw [cellsLe_inBounds hlec]; exact hc0g) hrun
          · intro x hx hxv
            have hx0 : g.inBounds x = true := by
              rw [← cellsLe_inBounds hlec]
              exact hx
            rcases (Grid.visited_carve hok.1 hcv x hx0).1 hxv with h | h | h
            · exact reach_mono hlec (hreach x hx0 h)
            · rw [h]
              exact hureach _ hcv
            · rw [h]
              exact reach_mono hlec (hreach m0 hm0in hm0v)
          · intro hv0f
            exfalso
            by_cases hv0 : g.is_cell_visited c0 = true
            · rw [cellsLe_visited_mono hlec hc0g hv0] at hv0f
              cases hv0f
            · rw [Bool.not_eq_true] at hv0
              obtain ⟨hempty, _⟩ := hLinv hv0
              rw [hempty m0] at hm0v
              cases hm0v
    · rw [if_neg he] at hrun
      dsimp only at hrun
      have hne : unvisitedDirs g c ≠ [] := by
        intro hnil
        rw [hnil] at he
        exact he rfl
      obtain ⟨m, hnext, hmv⟩ := unvisitedDirs_mem (pickDir_mem r hne)
      rw [carve_of_next hnext] at hrun
      dsimp only at hrun
      have hcv : g.carve_passage c (pickDir r (unvisitedDirs g c)).1 =
          some (m, _) := carve_of_next hnext
      have hokc := gok_carve hok hcv
      have hlec := cellsLe_of_carve hok.1 hcv
      have hmin : g.inBounds m = true := (Grid.next_eq_some.1 hnext).2.1
      have hedge : ∀ gc2, g.carve_passage c
          (pickDir r (unvisitedDirs g c)).1 = some (m, gc2) →
          gc2.carvedAdj c m := by
        intro gc2 hcv2
        refine ⟨(pickDir r (unvisitedDirs g c)).1, ?_, ?_⟩
        · rw [Grid.next_congr (Grid.carve_width hcv2)
            (Grid.carve_height hcv2)]
          exact hnext
        · exact (Grid.is_carved_carve hok.1 hcv2 c _).2
            (Or.inr (Or.inl ⟨rfl, rfl⟩))
      have hmreach : ∀ gc2, g.carve_passage c
          (pickDir r (unvisitedDirs g c)).1 = some (m, gc2) →
          gc2.Reach c0 m := by
        intro gc2 hcv2
        exact Relation.ReflTransGen.tail
          (reach_mono (cellsLe_of_carve hok.1 hcv2) hcreach)
          (hedge gc2 hcv2)
      refine ih m _ _ gF hokc
        (by rw [cellsLe_inBounds hlec]; exact hmin)
        (hmreach _ hcv) ?_ ?_
        (by rw [cellsLe_inBounds hlec]; exact hc0g) hrun
      · intro x hx hxv
        have hx0 : g.inBounds x = true := by
          rw [← cellsLe_inBounds hlec]
          exact hx
        rcases (Grid.visited_carve hok.1 hcv x hx0).1 hxv with h | h | h
        · exact reach_mono hlec (hreach x hx0 h)
        · rw [h]
          exact reach_mono hlec hcreach
        · rw [h]
          exact hmreach _ hcv
      · intro hv0f
        exfalso
        by_cases hv0 : g.is_cell_visited c0 = true
        · rw [cellsLe_visited_mono hlec hc0g hv0] at hv0f
          cases hv0f
        · rw [Bool.not_eq_true] at hv0
          obtain ⟨_, hcc0⟩ := hLinv hv0
          subst hcc0
          have : _ := (Grid.visited_carve hok.1 hcv c hcin).2
            (Or.inr (Or.inl rfl))
          rw [this] at hv0f
          cases hv0f

/-- Hunt-and-Kill terminates within its fuel. -/
theorem hk_loop_total (g0 : Grid) :
    ∀ (f : Nat) (c : Coords) (g : Grid) (r : Rng),
      GOk g0 g → g.emptyCount < f →
      (hk_loop f c g r).isSome = true := by
  intro f
  induction f with
  | zero =>
    intro c g r _ hm
    omega
  | succ f ih =>
    intro c g r hok hm
    unfold hk_loop
    by_cases he : (unvisitedDirs g c).isEmpty = true
    · rw [if_pos he]
      cases hhf : hunt_find g with
      | none => rfl
      | some u =>
        dsimp only
        cases hvd : hk_visited_dir g u with
        | none => rfl
        | some d0 =>
          dsimp only
          obtain ⟨m0, hnext0, _⟩ := hk_visited_dir_some hvd
          rw [carve_of_next hnext0]
          dsimp only
          have hcv : g.carve_passage u d0 = some (m0, _) :=
            carve_of_next hnext0
          obtain ⟨huin, huv, _⟩ := hunt_find_some hhf
          have hlt := Grid.carve_emptyCount_lt_src hok.1 hcv huv
          exact ih u _ r (gok_carve hok hcv) (by omega)
    · rw [if_neg he]
      dsimp only
      have hne : unvisitedDirs g c ≠ [] := by
        intro hnil
        rw [hnil] at he
        exact he rfl
      obtain ⟨m, hnext, hmv⟩ := unvisitedDirs_mem (pickDir_mem r hne)
      rw [carve_of_next hnext]
      dsimp only
      have hcv : g.carve_passage c (pickDir r (unvisitedDirs g c)).1 =
          some (m, _) := carve_of_next hnext
      have hlt := Grid.carve_emptyCount_lt hok.1 hcv hmv
      exact ih m _ _ (gok_carve hok hcv) (by omega)

/-- Hunt-and-Kill mazes validate whenever the run reports success (and
it always does within the supplied fuel). -/
theorem generate_hk_valid (w h : Nat) (hw : 1 ≤ w) (hh : 1 ≤ h)
    (s : Option Coords)
    (hs : (Grid.new w h).inBounds (s.getD (0, 0)) = true) (r r2 : Rng) :
    (generate_hk (Grid.new w h) s r).isSome = true ∧
      ∀ gF, generate_hk (Grid.new w h) s r = some gF →
        validate gF r2 = true := by
  constructor
  · unfold generate_hk
    exact hk_loop_total (Grid.new w h) _ _ _ _ (gok_new w h) (by omega)
  · intro gF hgen
    unfold generate_hk at hgen
    by_cases hN : 2 ≤ w * h
    · obtain ⟨hokF, hreachF⟩ := hk_loop_post (Grid.new w h) (s.getD (0, 0))
        (exists_gridAdj_of_two hs hN) _ _ _ _ gF (gok_new w h) hs
        Relation.ReflTransGen.refl
        (fun x _ hxv => by rw [new_visited_false w h x] at hxv; cases hxv)
        (fun _ => ⟨fun x => new_visited_false w h x, rfl⟩) hs hgen
      have h00 : (Grid.new w h).inBounds (0, 0) = true := by
        rw [Grid.inBounds_iff]
        exact ⟨by simpa [Grid.new] using hw, by simpa [Grid.new] using hh⟩
      apply validate_complete
      · rw [hokF.2.2.1]; exact hw
      · rw [hokF.2.2.2.1]; exact hh
      · refine reach_reanchor hokF.2.1 hreachF ?_
        rw [cellsLe_inBounds hokF.2.2]
        exact h00
    · have hw1 : w = 1 := by
        rcases Nat.lt_or_ge (w * h) 2 with h1 | h1
        · nlinarith
        · omega
      have hh1 : h = 1 := by nlinarith
      subst hw1 hh1
      have hokF := hk_loop_gok (Grid.new 1 1) _ _ _ _ gF (gok_new 1 1) hgen
      apply validate_complete
      · rw [hokF.2.2.1]; exact hw
      · rw [hokF.2.2.2.1]; exact hh
      · intro c hc
        have hcb : (Grid.new 1 1).inBounds c = true := by
          rw [← cellsLe_inBounds hokF.2.2]
          exact hc
        rcases Grid.inBounds_iff.1 hcb with ⟨h1, h2⟩
        simp only [Grid.new] at h1 h2
        have hc00 : c = ((0, 0) : Coords) := by
          rcases c with ⟨a1, a2⟩
          simp only [Prod.mk.injEq]
          simp only at h1 h2
          omega
        rw [hc00]
        exact Relation.ReflTransGen.refl

theorem getD_mem {α : Type} {l : List α} {k : Nat} (dflt : α)
    (hk : k < l.length) : l.getD k dflt ∈ l := by
  rw [List.getD_eq_getElem l dflt hk]
  exact List.getElem_mem hk

theorem prim_expand_mem {g : Grid} {c : Coords} {e : Coords × Dir} :
    e ∈ prim_expand g c ↔ e.1 = c ∧ ∃ m,
      g.get_next_cell_coords c e.2 = some m ∧
        g.is_cell_visited m = false := by
  rcases e with ⟨e1, e2⟩
  unfold prim_expand
  rw [List.mem_filterMap]
  constructor
  · rintro ⟨d, _, hfd⟩
    cases hnx : g.get_next_cell_coords c d with
    | none =>
      rw [hnx] at hfd
      dsimp only at hfd
      cases hfd
    | some m =>
      rw [hnx] at hfd
      dsimp only at hfd
      by_cases hv : g.is_cell_visited m = true
      · rw [if_pos hv] at hfd
        cases hfd
      · rw [if_neg hv] at hfd
        injection hfd with hfd
        rw [Bool.not_eq_true] at hv
        rcases Prod.mk.injEq .. ▸ hfd with ⟨h1, h2⟩
        subst h1
        subst h2
        exact ⟨rfl, m, hnx, hv⟩
  · rintro ⟨h1, m, hm, hmv⟩
    dsimp only at h1 hm
    subst h1
    refine ⟨e2, mem_dirs4 e2, ?_⟩
    rw [hm]
    dsimp only
    rw [if_neg (by rw [hmv]; exact Bool.false_ne_true)]

/-- The Prim invariant chain: frontier sources are visited (or the
start) and anchored, visited cells are anchored, and every uncarved
boundary edge of the visited region is on the frontier. -/
theorem prim_loop_post (g0 : Grid) (c0 : Coords) :
    ∀ (f : Nat) (frontier : List (Coords × Dir)) (g : Grid) (r : Rng)
      (gF : Grid),
      GOk g0 g →
      (∀ e ∈ frontier, g.inBounds e.1 = true ∧ g.Reach c0 e.1 ∧
        (g.is_cell_visited e.1 = true ∨ e.1 = c0)) →
      (∀ x, g.inBounds x = true → g.is_cell_visited x = true →
        g.Reach c0 x) →
      (∀ v, g.inBounds v = true →
        (g.is_cell_visited v = true ∨ v = c0) →
        ∀ d m, g.get_next_cell_coords v d = some m →
          g.is_cell_visited m = false → (v, d) ∈ frontier) →
      g.inBounds c0 = true →
      prim_loop f frontier g r = some gF →
      GOk g0 gF ∧ ∀ x, gF.inBounds x = true → gF.Reach c0 x := by
  have exit : ∀ (g : Grid), GOk g0 g →
      (∀ x, g.inBounds x = true → g.is_cell_visited x = true →
        g.Reach c0 x) →
      (∀ v, g.inBounds v = true →
        (g.is_cell_visited v = true ∨ v = c0) →
        ∀ d m, g.get_next_cell_coords v d = some m →
          g.is_cell_visited m = false →
            (v, d) ∈ ([] : List (Coords × Dir))) →
      g.inBounds c0 = true →
      ∀ x, g.inBounds x = true → g.Reach c0 x := by
    intro g hok hreach hK hc0g
    have key : ∀ y, g.GReach c0 y →
        g.is_cell_visited y = true ∨ y = c0 := by
      intro y hy
      induction hy with
      | refl => exact Or.inr rfl
      | @tail p q hp hq ih =>
        have hinp : g.inBounds p = true := by
          rcases hq with ⟨d, hd⟩
          exact (Grid.next_eq_some.1 hd).1
        by_cases hqv : g.is_cell_visited q = true
        · exact Or.inl hqv
        · rw [Bool.not_eq_true] at hqv
          rcases hq with ⟨d, hd⟩
          exact absurd (hK p hinp ih d q hd hqv) (List.not_mem_nil _)
    intro x hx
    rcases key x (Grid.gReach_all hc0g hx) with h | h
    · exact hreach x hx h
    · rw [h]
      exact Relation.ReflTransGen.refl
  intro f
  induction f with
  | zero =>
    intro frontier g r gF hok hF hreach hK hc0g hrun
    unfold prim_loop at hrun
    by_cases he : frontier.isEmpty = true
    · rw [if_pos he] at hrun
      injection hrun with hrun
      rw [List.isEmpty_iff] at he
      subst he
      rw [← hrun]
      exact ⟨hok, exit g hok hreach hK hc0g⟩
    · rw [if_neg he] at hrun
      cases hrun
  | succ f ih =>
    intro frontier g r gF hok hF hreach hK hc0g hrun
    unfold prim_loop at hrun
    cases frontier with
    | nil =>
      injection hrun with hrun
      rw [← hrun]
      exact ⟨hok, exit g hok hreach hK hc0g⟩
    | cons e0 rest =>
      dsimp only at hrun
      set fr := e0 :: rest with hfr
      have hlen : 0 < fr.length := by
        rw [hfr]
        simp
      have hklt : (r.below fr.length).1 < fr.length := by
        unfold Rng.below Rng.next
        dsimp only
        exact Nat.mod_lt _ hlen
      set e := fr.getD (r.below fr.length).1 ((0, 0), Dir.north) with he
      have hemem : e ∈ fr := getD_mem _ hklt
      have hsplit : ∀ a, a ∈ fr →
          a = e ∨ a ∈ fr.eraseIdx (r.below fr.length).1 :=
        fun a ha => mem_cons_eraseIdx ((0, 0), Dir.north) fr
          (r.below fr.length).1 a ha
      obtain ⟨hein, hereach, hestat⟩ := hF e hemem
      cases hnx : g.get_next_cell_coords e.1 e.2 with
      | none =>
        rw [hnx] at hrun
        refine ih _ g _ gF hok
          (fun a ha => hF a (List.eraseIdx_subset _ _ ha)) hreach ?_ hc0g hrun
        intro v hv hvs d m hm hmv
        rcases hsplit (v, d) (hK v hv hvs d m hm hmv) with h | h
        · exfalso
          have hv1 : v = e.1 := congrArg Prod.fst h
          have hd1 : d = e.2 := congrArg Prod.snd h
          rw [hv1, hd1] at hm
          rw [hm] at hnx
          cases hnx
        · exact h
      | some m =>
        rw [hnx] at hrun
        dsimp only at hrun
        by_cases hmvis : g.is_cell_visited m = true
        · rw [if_pos hmvis] at hrun
          refine ih _ g _ gF hok
            (fun a ha => hF a (List.eraseIdx_subset _ _ ha)) hreach ?_ hc0g hrun
          intro v hv hvs d m2 hm2 hm2v
          rcases hsplit (v, d) (hK v hv hvs d m2 hm2 hm2v) with h | h
          · exfalso
            have hv1 : v = e.1 := congrArg Prod.fst h
            have hd1 : d = e.2 := congrArg Prod.snd h
            rw [hv1, hd1] at hm2
            rw [hm2] at hnx
            injection hnx with hnx
            rw [← hnx] at hmvis
            rw [hm2v] at hmvis
            cases hmvis
          · exact h
        · rw [if_neg hmvis] at hrun
          rw [Bool.not_eq_true] at hmvis
          rw [carve_of_next hnx] at hrun
          dsimp only at hrun
          have hcv : g.carve_passage e.1 e.2 = some (m, _) :=
            carve_of_next hnx
          have hokc := gok_carve hok hcv
          have hlec := cellsLe_of_carve hok.1 hcv
          have hmin : g.inBounds m = true := (Grid.next_eq_some.1 hnx).2.1
          have hedge : ∀ gc2, g.carve_passage e.1 e.2 = some (m, gc2) →
              gc2.carvedAdj e.1 m := by
            intro gc2 hcv2
            refine ⟨e.2, ?_, ?_⟩
            · rw [Grid.next_congr (Grid.carve_width hcv2)
                (Grid.carve_height hcv2)]
              exact hnx
            · exact (Grid.is_carved_carve hok.1 hcv2 e.1 e.2).2
                (Or.inr (Or.inl ⟨rfl, rfl⟩))
          have hmreach : ∀ gc2, g.carve_passage e.1 e.2 = some (m, gc2) →
              gc2.Reach c0 m := by
            intro gc2 hcv2
            exact Relation.ReflTransGen.tail
              (reach_mono (cellsLe_of_carve hok.1 hcv2) hereach)
              (hedge gc2 hcv2)
          have hviscn : ∀ gc2, g.carve_passage e.1 e.2 = some (m, gc2) →
              gc2.is_cell_visited m = true := by
            intro gc2 hcv2
            exact (Grid.visited_carve hok.1 hcv2 m hmin).2
              (Or.inr (Or.inr rfl))
          refine ih _ _ _ gF hokc ?_ ?_ ?_
            (by rw [cellsLe_inBounds hlec]; exact hc0g) hrun
          · intro a ha
            rcases List.mem_append.1 ha with ha1 | ha2
            · obtain ⟨ha1', m2, _, _⟩ := prim_expand_mem.1 ha1
              rw [ha1']
              exact ⟨by rw [cellsLe_inBounds hlec]; exact hmin,
                hmreach _ hcv, Or.inl (hviscn _ hcv)⟩
            · obtain ⟨h1, h2, h3⟩ := hF a (List.eraseIdx_subset _ _ ha2)
              refine ⟨by rw [cellsLe_inBounds hlec]; exact h1,
                reach_mono hlec h2, ?_⟩
              rcases h3 with h3 | h3
              · exact Or.inl (cellsLe_visited_mono hlec h1 h3)
              · exact Or.inr h3
          · intro x hx hxv
            have hx0 : g.inBounds x = true := by
              rw [← cellsLe_inBounds hlec]
              exact hx
            rcases (Grid.visited_carve hok.1 hcv x hx0).1 hxv with h | h | h
            · exact reach_mono hlec (hreach x hx0 h)
            · rw [h]
              exact reach_mono hlec hereach
            · rw [h]
              exact hmreach _ hcv
          · intro v hv hvs d m2 hm2 hm2v
            have hv0 : g.inBounds v = true := by
              rw [← cellsLe_inBounds hlec]
              exact hv
            have hm2g : g.get_next_cell_coords v d = some m2 := by
              rw [← cellsLe_next hlec]
              exact hm2
            have hm2in : g.inBounds m2 = true :=
              (Grid.next_eq_some.1 hm2g).2.1
            have hm2vg : g.is_cell_visited m2 = false := by
              by_contra hc
              rw [Bool.not_eq_false] at hc
              rw [cellsLe_visited_mono hlec hm2in hc] at hm2v
              cases hm2v
            by_cases hvm : v = m
            · subst hvm
              refine List.mem_append.2 (Or.inl ?_)
              rw [prim_expand_mem]
              exact ⟨rfl, m2, hm2, hm2v⟩
            · have hvsg : g.is_cell_visited v = true ∨ v = c0 := by
                rcases hvs with h | h
                · rcases (Grid.visited_carve hok.1 hcv v hv0).1 h
                    with h2 | h2 | h2
                  · exact Or.inl h2
                  · rw [h2]
                    exact hestat
                  · exact absurd h2 hvm
                · exact Or.inr h
              rcases hsplit (v, d) (hK v hv0 hvsg d m2 hm2g hm2vg)
                with h | h
              · exfalso
                have hv1 : v = e.1 := congrArg Prod.fst h
                have hd1 : d = e.2 := congrArg Prod.snd h
                rw [hv1, hd1, hnx] at hm2g
                injection hm2g with hm2g
                rw [← hm2g] at hm2v
                rw [hviscn _ hcv] at hm2v
                cases hm2v
              · exact List.mem_append.2 (Or.inr h)

/-- Prim terminates within its fuel. -/
theorem prim_loop_total (g0 : Grid) :
    ∀ (f : Nat) (frontier : List (Coords × Dir)) (g : Grid) (r : Rng),
      GOk g0 g → 5 * g.emptyCount + frontier.length < f →
      (prim_loop f frontier g r).isSome = true := by
  intro f
  induction f with
  | zero =>
    intro frontier g r _ hm
    omega
  | succ f ih =>
    intro frontier g r hok hm
    unfold prim_loop
    cases frontier with
    | nil => rfl
    | cons e0 rest =>
      dsimp only
      have hkb : (r.below (e0 :: rest).length).1 < (e0 :: rest).length := by
        unfold Rng.below Rng.next
        dsimp only
        exact Nat.mod_lt _ (by simp)
      have hlen0 : ((e0 :: rest).eraseIdx
          (r.below (e0 :: rest).length).1).length = rest.length := by
        have h1 := List.length_eraseIdx_add_one hkb
        have h2 : (e0 :: rest).length = rest.length + 1 := rfl
        omega
      cases hnx : g.get_next_cell_coords
          ((e0 :: rest).getD (r.below (e0 :: rest).length).1
            ((0, 0), Dir.north)).1
          ((e0 :: rest).getD (r.below (e0 :: rest).length).1
            ((0, 0), Dir.north)).2 with
      | none =>
        refine ih _ g _ hok ?_
        rw [hlen0]
        simp only [List.length_cons] at hm
        omega
      | some m =>
        dsimp only
        by_cases hmvis : g.is_cell_visited m = true
        · rw [if_pos hmvis]
          refine ih _ g _ hok ?_
          rw [hlen0]
          simp only [List.length_cons] at hm
          omega
        · rw [if_neg hmvis]
          rw [Bool.not_eq_true] at hmvis
          obtain ⟨gc, hcv⟩ := carve_isSome_of_next hnx
          rw [hcv]
          dsimp only
          have hlt := Grid.carve_emptyCount_lt hok.1 hcv hmvis
          refine ih _ _ _ (gok_carve hok hcv) ?_
          rw [List.length_append, hlen0]
          have hexp : (prim_expand gc m).length ≤ 4 := by
            refine le_trans (List.length_filterMap_le _ _) ?_
            rfl
          simp only [List.length_cons] at hm
          omega

/-- Prim mazes validate whenever the run reports success (and it always
does within the supplied fuel). -/
theorem generate_prim_valid (w h : Nat) (hw : 1 ≤ w) (hh : 1 ≤ h)
    (s : Option Coords)
    (hs : (Grid.new w h).inBounds (s.getD (0, 0)) = true) (r r2 : Rng) :
    (generate_prim (Grid.new w h) s r).isSome = true ∧
      ∀ gF, generate_prim (Grid.new w h) s r = some gF →
        validate gF r2 = true := by
  constructor
  · unfold generate_prim
    dsimp only
    refine prim_loop_total (Grid.new w h) _ _ _ _ (gok_new w h) ?_
    have hexp : (prim_expand (Grid.new w h) (s.getD (0, 0))).length ≤ 4 := by
      refine le_trans (List.length_filterMap_le _ _) ?_
      rfl
    omega
  · intro gF hgen
    unfold generate_prim at hgen
    dsimp only at hgen
    obtain ⟨hokF, hreachF⟩ := prim_loop_post (Grid.new w h) (s.getD (0, 0))
      _ _ _ _ gF (gok_new w h)
      (fun e hemem => by
        obtain ⟨h1, m2, hm2, _⟩ := prim_expand_mem.1 hemem
        rw [h1]
        exact ⟨hs, Relation.ReflTransGen.refl, Or.inr rfl⟩)
      (fun x _ hxv => by rw [new_visited_false w h x] at hxv; cases hxv)
      (fun v hv hvs d m hm hmv => by
        rcases hvs with hvv | hvv
        · rw [new_visited_false w h v] at hvv
          cases hvv
        · rw [prim_expand_mem]
          rw [hvv] at hm
          exact ⟨hvv, m, hm, hmv⟩)
      hs hgen
    have h00 : (Grid.new w h).inBounds (0, 0) = true := by
      rw [Grid.inBounds_iff]
      exact ⟨by simpa [Grid.new] using hw, by simpa [Grid.new] using hh⟩
    apply validate_complete
    · rw [hokF.2.2.1]; exact hw
    · rw [hokF.2.2.2.1]; exact hh
    · refine reach_reanchor hokF.2.1 hreachF ?_
      rw [cellsLe_inBounds hokF.2.2]
      exact h00

theorem emptyCount_zero_all_visited {g : Grid} (hwf : g.WF)
    (h : g.emptyCount = 0) :
    ∀ x, g.inBounds x = true → g.is_cell_visited x = true := by
  intro x hx
  unfold Grid.is_cell_visited
  rw [Bool.not_eq_true']
  unfold Grid.emptyCount at h
  rw [List.length_eq_zero] at h
  have hidx : g.idx x < g.cells.length := Grid.idx_lt hwf hx
  have hmem : g.get_cell x ∈ g.cells := by
    unfold Grid.get_cell
    rw [List.getD_eq_getElem _ _ hidx]
    exact List.getElem_mem hidx
  by_contra hne
  rw [Bool.not_eq_false] at hne
  have hmem2 : g.get_cell x ∈ g.cells.filter (fun c => c.is_empty) :=
    List.mem_filter.2 ⟨hmem, hne⟩
  rw [h] at hmem2
  cases hmem2

/-- The Aldous-Broder invariant chain: the walk keeps the current cell
anchored and every visited cell anchored; a completed walk (no empty
cell left) is fully connected. -/
theorem ab_loop_post (g0 : Grid) (c0 : Coords) :
    ∀ (f : Nat) (c : Coords) (g : Grid) (r : Rng) (gF : Grid),
      GOk g0 g → g.inBounds c = true → g.Reach c0 c →
      (∀ x, g.inBounds x = true → g.is_cell_visited x = true →
        g.Reach c0 x) →
      ab_loop f c g r = some gF →
      GOk g0 gF ∧ ∀ x, gF.inBounds x = true → gF.Reach c0 x := by
  intro f
  induction f with
  | zero =>
    intro c g r gF _ _ _ _ hrun
    cases hrun
  | succ f ih =>
    intro c g r gF hok hcin hcreach hreach hrun
    unfold ab_loop at hrun
    by_cases hE : g.emptyCount = 0
    · rw [if_pos hE] at hrun
      injection hrun with hrun
      subst hrun
      exact ⟨hok, fun x hx =>
        hreach x hx (emptyCount_zero_all_visited hok.1 hE x hx)⟩
    · rw [if_neg hE] at hrun
      dsimp only at hrun
      cases hnx : g.get_next_cell_coords c
          (dirs4.getD ((r.next).1 % 4) .north) with
      | none =>
        rw [hnx] at hrun
        exact ih c g _ gF hok hcin hcreach hreach hrun
      | some next =>
        rw [hnx] at hrun
        dsimp only at hrun
        have hnin : g.inBounds next = true := (Grid.next_eq_some.1 hnx).2.1
        by_cases hnv : g.is_cell_visited next = true
        · rw [if_pos hnv] at hrun
          exact ih next g _ gF hok hnin (hreach next hnin hnv) hreach hrun
        · rw [if_neg hnv] at hrun
          rw [carve_of_next hnx] at hrun
          dsimp only at hrun
          have hcv : g.carve_passage c
              (dirs4.getD ((r.next).1 % 4) .north) = some (next, _) :=
            carve_of_next hnx
          have hokc := gok_carve hok hcv
          have hlec := cellsLe_of_carve hok.1 hcv
          have hedge : ∀ gc2, g.carve_passage c
              (dirs4.getD ((r.next).1 % 4) .north) = some (next, gc2) →
              gc2.carvedAdj c next := by
            intro gc2 hcv2
            refine ⟨dirs4.getD ((r.next).1 % 4) .north, ?_, ?_⟩
            · rw [Grid.next_congr (Grid.carve_width hcv2)
                (Grid.carve_height hcv2)]
              exact hnx
            · exact (Grid.is_carved_carve hok.1 hcv2 c _).2
                (Or.inr (Or.inl ⟨rfl, rfl⟩))
          have hnreach : ∀ gc2, g.carve_passage c
              (dirs4.getD ((r.next).1 % 4) .north) = some (next, gc2) →
              gc2.Reach c0 next := by
            intro gc2 hcv2
            exact Relation.ReflTransGen.tail
              (reach_mono (cellsLe_of_carve hok.1 hcv2) hcreach)
              (hedge gc2 hcv2)
          refine ih next _ _ gF hokc
            (by rw [cellsLe_inBounds hlec]; exact hnin)
            (hnreach _ hcv) ?_ hrun
          intro x hx hxv
          have hx0 : g.inBounds x = true := by
            rw [← cellsLe_inBounds hlec]
            exact hx
          rcases (Grid.visited_carve hok.1 hcv x hx0).1 hxv with h | h | h
          · exact reach_mono hlec (hreach x hx0 h)
          · rw [h]
            exact reach_mono hlec hcreach
          · rw [h]
            exact hnreach _ hcv

/-- Aldous-Broder mazes validate whenever the walk reports completion. -/
theorem generate_ab_valid (w h : Nat) (hw : 1 ≤ w) (hh : 1 ≤ h)
    (s : Option Coords)
    (hs : ∀ c, s = some c → (Grid.new w h).inBounds c = true) (r r2 : Rng) :
    ∀ gF, generate_ab (Grid.new w h) s r = some gF →
      validate gF r2 = true := by
  intro gF hgen
  unfold generate_ab at hgen
  dsimp only at hgen
  have hc0 : (Grid.new w h).inBounds
      (s.getD ((r.next).1 % (Grid.new w h).width,
        ((r.next).2.next).1 % (Grid.new w h).height)) = true := by
    cases s with
    | none =>
      rw [Option.getD_none, Grid.inBounds_iff]
      constructor
      · exact Nat.mod_lt _ (by show 0 < (Grid.new w h).width; simpa [Grid.new] using hw)
      · exact Nat.mod_lt _ (by show 0 < (Grid.new w h).height; simpa [Grid.new] using hh)
    | some c =>
      rw [Option.getD_some]
      exact hs c rfl
  obtain ⟨hokF, hreachF⟩ := ab_loop_post (Grid.new w h) _ _ _ _ _ gF
    (gok_new w h) hc0 Relation.ReflTransGen.refl
    (fun x _ hxv => by rw [new_visited_false w h x] at hxv; cases hxv)
    hgen
  have h00 : (Grid.new w h).inBounds (0, 0) = true := by
    rw [Grid.inBounds_iff]
    exact ⟨by simpa [Grid.new] using hw, by simpa [Grid.new] using hh⟩
  apply validate_complete
  · rw [hokF.2.2.1]; exact hw
  · rw [hokF.2.2.2.1]; exact hh
  · refine reach_reanchor hokF.2.1 hreachF ?_
    rw [cellsLe_inBounds hokF.2.2]
    exact h00

theorem getD_map_lt {l : List Nat} {i : Nat} (f : Nat → Nat)
    (h : i < l.length) : (l.map f).getD i 0 = f (l.getD i 0) := by
  rw [List.getD_eq_getElem l 0 h,
    List.getD_eq_getElem _ 0 (by rw [List.length_map]; exact h),
    List.getElem_map]

theorem getD_append_last (l1 : List Nat) (a d : Nat) :
    (l1 ++ [a]).getD l1.length d = a := by
  rw [List.getD_eq_getElem _ d (by simp)]
  rw [List.getElem_append_right (le_refl _)]
  simp

theorem chain_label_eq (l : List Nat) (w : Nat)
    (hchain : ∀ i, i + 1 < w → l.getD i 0 = l.getD (i + 1) 0) :
    ∀ a b, a < w → b < w → l.getD a 0 = l.getD b 0 := by
  have fwd : ∀ k a, a + k < w → l.getD a 0 = l.getD (a + k) 0 := by
    intro k
    induction k with
    | zero => intro a _; rfl
    | succ m ih =>
      intro a hak
      rw [ih a (by omega)]
      have h2 := hchain (a + m) (by omega)
      rw [show a + (m + 1) = a + m + 1 by omega]
      exact h2
  intro a b ha hb
  rcases Nat.le_total a b with hab | hab
  · have h3 := fwd (b - a) a (by omega)
    rw [show a + (b - a) = b by omega] at h3
    exact h3
  · have h3 := fwd (a - b) b (by omega)
    rw [show b + (a - b) = a by omega] at h3
    exact h3.symm

/-- Post-condition of one Eller horizontal merge pass over row `Y`: the
labels keep witnessing in-row connectivity and stay below the freshness
bound, and a forced pass leaves all labels equal. -/
theorem eller_merge_post (g0 : Grid) (Y : Nat) (hY : Y < g0.height)
    (force : Bool) (st : Grid × List Nat × Rng)
    (hok : GOk g0 st.1) (hlen : st.2.1.length = g0.width)
    (hE2 : ∀ x1 x2, x1 < g0.width → x2 < g0.width →
      st.2.1.getD x1 0 = st.2.1.getD x2 0 → st.1.Reach (x1, Y) (x2, Y))
    (hE4 : ∀ i, i < g0.width →
      st.2.1.getD i 0 < (Y + 1) * g0.width) :
    GOk g0 (eller_row_merge g0.width Y force st).1 ∧
      cellsLe st.1 (eller_row_merge g0.width Y force st).1 ∧
      (eller_row_merge g0.width Y force st).2.1.length = g0.width ∧
      (∀ x1 x2, x1 < g0.width → x2 < g0.width →
        (eller_row_merge g0.width Y force st).2.1.getD x1 0 =
          (eller_row_merge g0.width Y force st).2.1.getD x2 0 →
        (eller_row_merge g0.width Y force st).1.Reach (x1, Y) (x2, Y)) ∧
      (∀ i, i < g0.width →
        (eller_row_merge g0.width Y force st).2.1.getD i 0 <
          (Y + 1) * g0.width) ∧
      (force = true → ∀ x1 x2, x1 < g0.width → x2 < g0.width →
        (eller_row_merge g0.width Y force st).2.1.getD x1 0 =
          (eller_row_merge g0.width Y force st).2.1.getD x2 0) := by
  unfold eller_row_merge
  have key := range_fold_ind (eller_merge_step Y force)
    (fun st2 x => GOk g0 st2.1 ∧ cellsLe st.1 st2.1 ∧
      st2.2.1.length = g0.width ∧
      (∀ x1 x2, x1 < g0.width → x2 < g0.width →
        st2.2.1.getD x1 0 = st2.2.1.getD x2 0 →
        st2.1.Reach (x1, Y) (x2, Y)) ∧
      (∀ i, i < g0.width → st2.2.1.getD i 0 < (Y + 1) * g0.width) ∧
      (force = true → ∀ i, i < x →
        st2.2.1.getD i 0 = st2.2.1.getD (i + 1) 0))
    (g0.width - 1) st
    ⟨hok, cellsLe_refl _, hlen, hE2, hE4,
     fun _ i hi => absurd hi (by omega)⟩
    ?_
  · refine ⟨key.1, key.2.1, key.2.2.1, key.2.2.2.1, key.2.2.2.2.1, ?_⟩
    intro hforce
    refine chain_label_eq _ g0.width ?_
    intro i hi
    exact key.2.2.2.2.2 hforce i (by omega)
  · intro st2 x hx hI
    obtain ⟨hok2, hle2, hlen2, hE2i, hE4i, hchain⟩ := hI
    unfold eller_merge_step
    dsimp only
    by_cases hll : st2.2.1.getD x 0 = st2.2.1.getD (x + 1) 0
    · rw [if_pos hll]
      refine ⟨hok2, hle2, hlen2, hE2i, hE4i, ?_⟩
      intro hforce i hi
      by_cases hix : i < x
      · exact hchain hforce i hix
      · have hixx : i = x := by omega
        rw [hixx]
        exact hll
    · rw [if_neg hll]
      by_cases hpc : (if force then (true, st2.2.2)
          else st2.2.2.bool).1 = true
      · rw [if_pos hpc]
        have hnxt : st2.1.get_next_cell_coords (x, Y) .east =
            some (x + 1, Y) := by
          refine Grid.next_eq_some.2
            ⟨Grid.inBounds_iff.2 ⟨?_, ?_⟩,
             Grid.inBounds_iff.2 ⟨?_, ?_⟩, rfl⟩
          · show x < st2.1.width
            rw [hok2.2.2.1]
            omega
          · show Y < st2.1.height
            rw [hok2.2.2.2.1]
            exact hY
          · show x + 1 < st2.1.width
            rw [hok2.2.2.1]
            omega
          · show Y < st2.1.height
            rw [hok2.2.2.2.1]
            exact hY
        obtain ⟨gc, hcv⟩ := carve_isSome_of_next hnxt
        rw [hcv]
        dsimp only
        have hokc := gok_carve hok2 hcv
        have hlec := cellsLe_of_carve hok2.1 hcv
        set la := st2.2.1.getD x 0 with hla
        set lb := st2.2.1.getD (x + 1) 0 with hlb
        have hedge : gc.carvedAdj (x, Y) (x + 1, Y) := by
          refine ⟨.east, ?_, ?_⟩
          · rw [Grid.next_congr (Grid.carve_width hcv)
              (Grid.carve_height hcv)]
            exact hnxt
          · exact (Grid.is_carved_carve hok2.1 hcv (x, Y) .east).2
              (Or.inr (Or.inl ⟨rfl, rfl⟩))
        have hmap : ∀ i, i < g0.width →
            (mergeLabels st2.2.1 la lb).getD i 0 =
              (fun v => if v = lb then la else v) (st2.2.1.getD i 0) := by
          intro i hi
          unfold mergeLabels
          exact getD_map_lt _ (by rw [hlen2]; exact hi)
        refine ⟨hokc, cellsLe_trans hle2 hlec, ?_, ?_, ?_, ?_⟩
        · unfold mergeLabels
          rw [List.length_map]
          exact hlen2
        · intro x1 x2 hx1 hx2 hll2
          rw [hmap x1 hx1, hmap x2 hx2] at hll2
          dsimp only at hll2
          by_cases h1 : st2.2.1.getD x1 0 = lb
          · by_cases h2 : st2.2.1.getD x2 0 = lb
            · exact reach_mono hlec (hE2i x1 x2 hx1 hx2 (h1.trans h2.symm))
            · rw [if_pos h1, if_neg h2] at hll2
              have hr1 : st2.1.Reach (x1, Y) (x + 1, Y) :=
                hE2i x1 (x + 1) hx1 (by omega) (by rw [← hlb]; exact h1)
              have hr2 : st2.1.Reach (x, Y) (x2, Y) :=
                hE2i x (x2) (by omega) hx2 (by rw [← hla, hll2])
              refine Relation.ReflTransGen.trans (reach_mono hlec hr1) ?_
              refine Relation.ReflTransGen.trans
                (Relation.ReflTransGen.single
                  (symInv_carvedAdj_symm hokc.2.1 hedge)) ?_
              exact reach_mono hlec hr2
          · by_cases h2 : st2.2.1.getD x2 0 = lb
            · rw [if_neg h1, if_pos h2] at hll2
              have hr1 : st2.1.Reach (x1, Y) (x, Y) :=
                hE2i x1 x hx1 (by omega) (by rw [← hla, ← hll2])
              have hr2 : st2.1.Reach (x + 1, Y) (x2, Y) :=
                hE2i (x + 1) x2 (by omega) hx2
                  (by rw [← hlb]; exact h2.symm)
              refine Relation.ReflTransGen.trans (reach_mono hlec hr1) ?_
              refine Relation.ReflTransGen.trans
                (Relation.ReflTransGen.single hedge) ?_
              exact reach_mono hlec hr2
            · rw [if_neg h1, if_neg h2] at hll2
              exact reach_mono hlec (hE2i x1 x2 hx1 hx2 hll2)
        · intro i hi
          rw [hmap i hi]
          dsimp only
          by_cases h1 : st2.2.1.getD i 0 = lb
          · rw [if_pos h1]
            exact hE4i x (by omega)
          · rw [if_neg h1]
            exact hE4i i hi
        · intro hforce i hi
          have hip : i + 1 < g0.width := by omega
          rw [hmap i (by omega), hmap (i + 1) hip]
          dsimp only
          by_cases hix : i < x
          · rw [hchain hforce i hix]
          · have hixx : i = x := by omega
            rw [hixx]
            rw [← hla, ← hlb]
            rw [if_neg hll, if_pos rfl]
      · rw [if_neg hpc]
        refine ⟨hok2, hle2, hlen2, hE2i, hE4i, ?_⟩
        intro hforce i hi
        exfalso
        rw [hforce] at hpc
        exact hpc rfl

/-- Post-condition of one Eller vertical pass from row `k`: every next
row label is either inherited through a south carve or globally fresh,
and the leftmost cell of every set carves south. -/
theorem eller_south_post (g0 : Grid) (k : Nat) (hk1 : k + 1 < g0.height)
    (labels : List Nat) (st : Grid × Rng) (hok : GOk g0 st.1) :
    GOk g0 (eller_row_south g0.width k labels st).1 ∧
      cellsLe st.1 (eller_row_south g0.width k labels st).1 ∧
      (eller_row_south g0.width k labels st).2.1.length = g0.width ∧
      (∀ i, i < g0.width →
        ((eller_row_south g0.width k labels st).2.1.getD i 0 =
            labels.getD i 0 ∧
          (eller_row_south g0.width k labels st).1.is_carved
            (i, k) .south = true) ∨
        (eller_row_south g0.width k labels st).2.1.getD i 0 =
          (k + 1) * g0.width + i) ∧
      (∀ i, i < g0.width →
        ((List.range i).all
          (fun x2 => !(labels.getD x2 0 == labels.getD i 0))) = true →
        (eller_row_south g0.width k labels st).1.is_carved
          (i, k) .south = true ∧
        (eller_row_south g0.width k labels st).2.1.getD i 0 =
          labels.getD i 0) := by
  unfold eller_row_south
  have key := range_fold_ind (eller_south_step g0.width k labels)
    (fun st2 x => GOk g0 st2.1 ∧ cellsLe st.1 st2.1 ∧
      st2.2.1.length = x ∧
      (∀ i, i < x →
        (st2.2.1.getD i 0 = labels.getD i 0 ∧
          st2.1.is_carved (i, k) .south = true) ∨
        st2.2.1.getD i 0 = (k + 1) * g0.width + i) ∧
      (∀ i, i < x →
        ((List.range i).all
          (fun x2 => !(labels.getD x2 0 == labels.getD i 0))) = true →
        st2.1.is_carved (i, k) .south = true ∧
        st2.2.1.getD i 0 = labels.getD i 0))
    g0.width (st.1, [], st.2)
    ⟨hok, cellsLe_refl _, rfl,
     fun i hi => absurd hi (by omega),
     fun i hi => absurd hi (by omega)⟩
    ?_
  · obtain ⟨k1, k2, k3, k4, k5⟩ := key
    exact ⟨k1, k2, k3, k4, k5⟩
  · intro st2 x hx hI
    obtain ⟨hok2, hle2, hlen2, hD, hFir⟩ := hI
    unfold eller_south_step
    dsimp only
    by_cases hbr : ((st2.2.2.bool).1 ||
        (List.range x).all
          (fun x2 => !(labels.getD x2 0 == labels.getD x 0))) = true
    · rw [if_pos hbr]
      have hnxt : st2.1.get_next_cell_coords (x, k) .south =
          some (x, k + 1) := by
        refine Grid.next_eq_some.2
          ⟨Grid.inBounds_iff.2 ⟨?_, ?_⟩,
           Grid.inBounds_iff.2 ⟨?_, ?_⟩, rfl⟩
        · show x < st2.1.width
          rw [hok2.2.2.1]
          exact hx
        · show k < st2.1.height
          rw [hok2.2.2.2.1]
          omega
        · show x < st2.1.width
          rw [hok2.2.2.1]
          exact hx
        · show k + 1 < st2.1.height
          rw [hok2.2.2.2.1]
          exact hk1
      obtain ⟨gc, hcv⟩ := carve_isSome_of_next hnxt
      rw [hcv]
      dsimp only
      have hokc := gok_carve hok2 hcv
      have hlec := cellsLe_of_carve hok2.1 hcv
      have hflag : gc.is_carved (x, k) .south = true :=
        (Grid.is_carved_carve hok2.1 hcv (x, k) .south).2
          (Or.inr (Or.inl ⟨rfl, rfl⟩))
      refine ⟨hokc, cellsLe_trans hle2 hlec, ?_, ?_, ?_⟩
      · rw [List.length_append, hlen2]
        rfl
      · intro i hi
        by_cases hix : i < x
        · rcases hD i hix with ⟨h1, h2⟩ | h1
          · refine Or.inl ⟨?_, hlec.2.2.2 _ _ h2⟩
            rw [← hlen2] at hix
            rw [List.getD_append _ _ 0 i hix]
            exact h1
          · refine Or.inr ?_
            rw [← hlen2] at hix
            rw [List.getD_append _ _ 0 i hix]
            exact h1
        · have hixx : i = x := by omega
          subst hixx
          refine Or.inl ⟨?_, hflag⟩
          rw [show i = st2.2.1.length by omega]
          exact getD_append_last _ _ 0
      · intro i hi hfirst
        by_cases hix : i < x
        · obtain ⟨h1, h2⟩ := hFir i hix hfirst
          refine ⟨hlec.2.2.2 _ _ h1, ?_⟩
          rw [← hlen2] at hix
          rw [List.getD_append _ _ 0 i hix]
          exact h2
        · have hixx : i = x := by omega
          subst hixx
          refine ⟨hflag, ?_⟩
          rw [show i = st2.2.1.length by omega]
          exact getD_append_last _ _ 0
    · rw [if_neg hbr]
      refine ⟨hok2, hle2, ?_, ?_, ?_⟩
      · rw [List.length_append, hlen2]
        rfl
      · intro i hi
        by_cases hix : i < x
        · rcases hD i hix with ⟨h1, h2⟩ | h1
          · refine Or.inl ⟨?_, h2⟩
            rw [← hlen2] at hix
            rw [List.getD_append _ _ 0 i hix]
            exact h1
          · refine Or.inr ?_
            rw [← hlen2] at hix
            rw [List.getD_append _ _ 0 i hix]
            exact h1
        · have hixx : i = x := by omega
          subst hixx
          refine Or.inr ?_
          rw [show i = st2.2.1.length by omega]
          exact getD_append_last _ _ 0
      · intro i hi hfirst
        by_cases hix : i < x
        · obtain ⟨h1, h2⟩ := hFir i hix hfirst
          refine ⟨h1, ?_⟩
          rw [← hlen2] at hix
          rw [List.getD_append _ _ 0 i hix]
          exact h2
        · have hixx : i = x := by omega
          subst hixx
          exfalso
          rw [Bool.or_eq_true] at hbr
          exact hbr (Or.inr hfirst)

theorem getD_range {w x : Nat} (h : x < w) :
    (List.range w).getD x 0 = x := by
  rw [List.getD_eq_getElem _ 0 (by rw [List.length_range]; exact h),
    List.getElem_range]

/-- The Eller row loop: every cell ends up connected to the left end of
the last row. -/
theorem eller_rows_post (g0 : Grid) (hw : 1 ≤ g0.width)
    (hh : 1 ≤ g0.height) (hwf : g0.WF) (hsym : SymInv g0) (r : Rng) :
    GOk g0 ((List.range g0.height).foldl
      (fun (st : Grid × List Nat × Rng) y =>
        if y + 1 = g0.height then eller_row_merge g0.width y true st
        else
          let st1 := eller_row_merge g0.width y false st
          eller_row_south g0.width y st1.2.1 (st1.1, st1.2.2))
      (g0, List.range g0.width, r)).1 ∧
    ∀ c : Coords, c.1 < g0.width → c.2 < g0.height →
      ((List.range g0.height).foldl
        (fun (st : Grid × List Nat × Rng) y =>
          if y + 1 = g0.height then eller_row_merge g0.width y true st
          else
            let st1 := eller_row_merge g0.width y false st
            eller_row_south g0.width y st1.2.1 (st1.1, st1.2.2))
        (g0, List.range g0.width, r)).1.Reach c (0, g0.height - 1) := by
  have key := range_fold_ind
    (fun (st : Grid × List Nat × Rng) y =>
      if y + 1 = g0.height then eller_row_merge g0.width y true st
      else
        let st1 := eller_row_merge g0.width y false st
        eller_row_south g0.width y st1.2.1 (st1.1, st1.2.2))
    (fun st Y => GOk g0 st.1 ∧
      (Y < g0.height →
        st.2.1.length = g0.width ∧
        (∀ x1 x2, x1 < g0.width → x2 < g0.width →
          st.2.1.getD x1 0 = st.2.1.getD x2 0 →
          st.1.Reach (x1, Y) (x2, Y)) ∧
        (∀ i, i < g0.width → st.2.1.getD i 0 < (Y + 1) * g0.width) ∧
        (∀ c : Coords, c.1 < g0.width → c.2 < Y →
          ∃ x2, x2 < g0.width ∧ st.1.Reach c (x2, Y))) ∧
      (Y = g0.height → ∀ c : Coords, c.1 < g0.width → c.2 < g0.height →
        st.1.Reach c (0, g0.height - 1)))
    g0.height (g0, List.range g0.width, r)
    ⟨gok_refl hwf hsym, fun _ => ⟨List.length_range _, ?_, ?_, ?_⟩, ?_⟩
    ?_
  · exact ⟨key.1, key.2.2 rfl⟩
  · intro x1 x2 hx1 hx2 heq
    rw [getD_range hx1, getD_range hx2] at heq
    subst heq
    exact Relation.ReflTransGen.refl
  · intro i hi
    rw [getD_range hi]
    omega
  · intro c _ hc2
    exact absurd hc2 (by omega)
  · intro h0
    exact absurd h0.symm (by omega)
  · intro st k hk hI
    obtain ⟨hok, hLt, _⟩ := hI
    obtain ⟨hlen, hE2, hE4, hE3⟩ := hLt hk
    dsimp only
    by_cases hlast : k + 1 = g0.height
    · rw [if_pos hlast]
      obtain ⟨mok, mle, mlen, mE2, mE4, mAll⟩ :=
        eller_merge_post g0 k hk true st hok hlen hE2 hE4
      have hrow : ∀ x1 x2, x1 < g0.width → x2 < g0.width →
          (eller_row_merge g0.width k true st).1.Reach (x1, k) (x2, k) :=
        fun x1 x2 hx1 hx2 => mE2 x1 x2 hx1 hx2 (mAll rfl x1 x2 hx1 hx2)
      refine ⟨mok, fun hklt => absurd hklt (by omega), fun _ => ?_⟩
      intro c hc1 hc2
      have hk1 : g0.height - 1 = k := by omega
      rw [show ((0, g0.height - 1) : Coords) = (0, k) by rw [hk1]]
      by_cases hck : c.2 < k
      · obtain ⟨x2, hx2, hrc⟩ := hE3 c hc1 hck
        exact Relation.ReflTransGen.trans (reach_mono mle hrc)
          (hrow x2 0 hx2 (by omega))
      · have hc2k : c.2 = k := by omega
        have hck2 : ((c.1, k) : Coords) = c := by rw [← hc2k]
        rw [← hck2]
        exact hrow c.1 0 hc1 (by omega)
    · rw [if_neg hlast]
      have hk1 : k + 1 < g0.height := by omega
      obtain ⟨mok, mle, mlen, mE2, mE4, _⟩ :=
        eller_merge_post g0 k hk false st hok hlen hE2 hE4
      obtain ⟨sok, sle, slen, sD, sF⟩ :=
        eller_south_post g0 k hk1 (eller_row_merge g0.width k false st).2.1
          ((eller_row_merge g0.width k false st).1,
           (eller_row_merge g0.width k false st).2.2) mok
      set ml := (eller_row_merge g0.width k false st).2.1 with hml
      set q := eller_row_south g0.width k ml
        ((eller_row_merge g0.width k false st).1,
         (eller_row_merge g0.width k false st).2.2) with hq
      have hqw : q.1.width = g0.width := sok.2.2.1
      have hqh : q.1.height = g0.height := sok.2.2.2.1
      have hdown : ∀ x, x < g0.width →
          ∃ x0, x0 < g0.width ∧ q.1.Reach (x, k) (x0, k + 1) ∧
            q.2.1.getD x0 0 = ml.getD x0 0 ∧
            ml.getD x0 0 = ml.getD x 0 := by
        intro x hxw
        have hPex : ∃ i, ml.getD i 0 = ml.getD x 0 := ⟨x, rfl⟩
        set x0 := Nat.find hPex with hx0
        have hspec : ml.getD x0 0 = ml.getD x 0 := Nat.find_spec hPex
        have hx0le : x0 ≤ x := Nat.find_min' hPex rfl
        have hfirst : ((List.range x0).all
            (fun x2 => !(ml.getD x2 0 == ml.getD x0 0))) = true := by
          rw [List.all_eq_true]
          intro x2 hx2
          rw [List.mem_range] at hx2
          have hmin := Nat.find_min hPex hx2
          rw [Bool.not_eq_eq_eq_not, Bool.not_true, beq_eq_false_iff_ne]
          intro hc
          exact hmin (hc.trans hspec)
        obtain ⟨hcarved, hlab⟩ := sF x0 (by omega) hfirst
        have hredge : q.1.carvedAdj (x0, k) (x0, k + 1) := by
          refine ⟨.south, ?_, hcarved⟩
          refine Grid.next_eq_some.2
            ⟨Grid.inBounds_iff.2 ⟨by rw [hqw]; omega, by rw [hqh]; omega⟩,
             Grid.inBounds_iff.2 ⟨by rw [hqw]; omega, by rw [hqh]; omega⟩,
             rfl⟩
        refine ⟨x0, by omega, ?_, hlab, hspec⟩
        refine Relation.ReflTransGen.tail ?_ hredge
        exact reach_mono sle (mE2 x x0 hxw (by omega) hspec.symm)
      refine ⟨sok, fun _ => ⟨slen, ?_, ?_, ?_⟩,
        fun hkh => absurd hkh (by omega)⟩
      · -- label connectivity for row k + 1
        intro x1 x2 hx1 hx2 heq
        rcases sD x1 hx1 with ⟨ha1, hs1⟩ | ha1 <;>
          rcases sD x2 hx2 with ⟨ha2, hs2⟩ | ha2
        · have hml12 : ml.getD x1 0 = ml.getD x2 0 := by
            rw [← ha1, ← ha2]
            exact heq
          have hmid : q.1.Reach (x1, k) (x2, k) :=
            reach_mono sle (mE2 x1 x2 hx1 hx2 hml12)
          have hup1 : q.1.carvedAdj (x1, k) (x1, k + 1) := by
            refine ⟨.south, ?_, hs1⟩
            refine Grid.next_eq_some.2
              ⟨Grid.inBounds_iff.2 ⟨by rw [hqw]; omega, by rw [hqh]; omega⟩,
               Grid.inBounds_iff.2 ⟨by rw [hqw]; omega, by rw [hqh]; omega⟩,
               rfl⟩
          have hup2 : q.1.carvedAdj (x2, k) (x2, k + 1) := by
            refine ⟨.south, ?_, hs2⟩
            refine Grid.next_eq_some.2
              ⟨Grid.inBounds_iff.2 ⟨by rw [hqw]; omega, by rw [hqh]; omega⟩,
               Grid.inBounds_iff.2 ⟨by rw [hqw]; omega, by rw [hqh]; omega⟩,
               rfl⟩
          refine Relation.ReflTransGen.trans
            (Relation.ReflTransGen.single
              (symInv_carvedAdj_symm sok.2.1 hup1)) ?_
          exact Relation.ReflTransGen.tail hmid hup2
        · exfalso
          have hb1 : ml.getD x1 0 < (k + 1) * g0.width := mE4 x1 hx1
          rw [← ha1] at hb1
          rw [heq, ha2] at hb1
          omega
        · exfalso
          have hb2 : ml.getD x2 0 < (k + 1) * g0.width := mE4 x2 hx2
          rw [← ha2] at hb2
          rw [← heq, ha1] at hb2
          omega
        · have : x1 = x2 := by
            rw [ha1, ha2] at heq
            omega
          subst this
          exact Relation.ReflTransGen.refl
      · -- freshness bound for row k + 1
        intro i hi
        have hmul : (k + 1 + 1) * g0.width =
            (k + 1) * g0.width + g0.width := by
          ring
        rcases sD i hi with ⟨ha, _⟩ | ha
        · have hb := mE4 i hi
          rw [← ha] at hb
          omega
        · rw [ha]
          omega
      · -- every older cell reaches row k + 1
        intro c hc1 hc2
        by_cases hck : c.2 < k
        · obtain ⟨x2, hx2w, hrc⟩ := hE3 c hc1 hck
          obtain ⟨x0, hx0w, hrd, _, _⟩ := hdown x2 hx2w
          exact ⟨x0, hx0w, Relation.ReflTransGen.trans
            (reach_mono (cellsLe_trans mle sle) hrc) hrd⟩
        · have hc2k : c.2 = k := by omega
          obtain ⟨x0, hx0w, hrd, _, _⟩ := hdown c.1 hc1
          refine ⟨x0, hx0w, ?_⟩
          have hck2 : ((c.1, k) : Coords) = c := by rw [← hc2k]
          rw [← hck2]
          exact hrd

/-- Eller mazes over any positive grid validate. -/
theorem generate_eller_valid (w h : Nat) (hw : 1 ≤ w) (hh : 1 ≤ h)
    (r r2 : Rng) :
    validate (generate_eller (Grid.new w h) r).1 r2 = true := by
  obtain ⟨hokF, hreachF⟩ := eller_rows_post (Grid.new w h) hw hh
    (Grid.new_WF w h) (symInv_new w h) r
  unfold generate_eller
  dsimp only
  apply validate_complete
  · rw [hokF.2.2.1]; exact hw
  · rw [hokF.2.2.2.1]; exact hh
  · intro c hc
    have hcb : (Grid.new w h).inBounds c = true := by
      rw [← cellsLe_inBounds hokF.2.2]
      exact hc
    rcases Grid.inBounds_iff.1 hcb with ⟨h1, h2⟩
    have hanchor : ∀ x : Coords,
        ((List.range (Grid.new w h).height).foldl
          (fun (st : Grid × List Nat × Rng) y =>
            if y + 1 = (Grid.new w h).height then
              eller_row_merge (Grid.new w h).width y true st
            else
              let st1 := eller_row_merge (Grid.new w h).width y false st
              eller_row_south (Grid.new w h).width y st1.2.1
                (st1.1, st1.2.2))
          (Grid.new w h, List.range (Grid.new w h).width, r)).1.inBounds
            x = true →
        ((List.range (Grid.new w h).height).foldl
          (fun (st : Grid × List Nat × Rng) y =>
            if y + 1 = (Grid.new w h).height then
              eller_row_merge (Grid.new w h).width y true st
            else
              let st1 := eller_row_merge (Grid.new w h).width y false st
              eller_row_south (Grid.new w h).width y st1.2.1
                (st1.1, st1.2.2))
          (Grid.new w h, List.range (Grid.new w h).width, r)).1.Reach
            ((0, (Grid.new w h).height - 1)) x := by
      intro x hx
      have hxb : (Grid.new w h).inBounds x = true := by
        rw [← cellsLe_inBounds hokF.2.2]
        exact hx
      rcases Grid.inBounds_iff.1 hxb with ⟨hx1, hx2⟩
      exact symInv_reach_symm hokF.2.1 (hreachF x hx1 hx2)
    have ha0 : ((List.range (Grid.new w h).height).foldl
        (fun (st : Grid × List Nat × Rng) y =>
          if y + 1 = (Grid.new w h).height then
            eller_row_merge (Grid.new w h).width y true st
          else
            let st1 := eller_row_merge (Grid.new w h).width y false st
            eller_row_south (Grid.new w h).width y st1.2.1
              (st1.1, st1.2.2))
        (Grid.new w h, List.range (Grid.new w h).width, r)).1.inBounds
          (0, 0) = true := by
      rw [cellsLe_inBounds hokF.2.2, Grid.inBounds_iff]
      exact ⟨by simpa [Grid.new] using hw, by simpa [Grid.new] using hh⟩
    exact reach_reanchor hokF.2.1 hanchor ha0 c hc

theorem Cell.contains_remove (c : Cell) (d e : Dir) :
    (Cell.remove c d).contains e = (c.contains e && !(decide (d = e))) := by
  cases d <;> cases e <;> simp [Cell.remove, Cell.contains]

theorem Grid.remove_some {g : Grid} {c : Coords} {d : Dir} {n : Coords}
    {g' : Grid} (h : g.remove_passage c d = some (n, g')) :
    g.get_next_cell_coords c d = some n ∧
      g' = (g.set_cell c ((g.get_cell c).remove d)).set_cell n
        (((g.set_cell c ((g.get_cell c).remove d)).get_cell n).remove
          d.opposite) := by
  unfold Grid.remove_passage at h
  cases hnx : g.get_next_cell_coords c d with
  | none =>
    rw [hnx] at h
    exact absurd h (by simp)
  | some m =>
    rw [hnx] at h
    dsimp only at h
    rw [Option.some.injEq, Prod.mk.injEq] at h
    obtain ⟨h1, h2⟩ := h
    subst h1
    exact ⟨rfl, h2.symm⟩

theorem remove_of_next {g : Grid} {c n : Coords} {d : Dir}
    (h : g.get_next_cell_coords c d = some n) :
    g.remove_passage c d =
      some (n, (g.set_cell c ((g.get_cell c).remove d)).set_cell n
        (((g.set_cell c ((g.get_cell c).remove d)).get_cell n).remove
          d.opposite)) := by
  rw [Grid.remove_passage, h]

theorem Grid.remove_width {g : Grid} {c : Coords} {d : Dir} {n : Coords}
    {g' : Grid} (h : g.remove_passage c d = some (n, g')) :
    g'.width = g.width := by
  obtain ⟨_, h2⟩ := Grid.remove_some h
  subst h2
  rfl

theorem Grid.remove_height {g : Grid} {c : Coords} {d : Dir} {n : Coords}
    {g' : Grid} (h : g.remove_passage c d = some (n, g')) :
    g'.height = g.height := by
  obtain ⟨_, h2⟩ := Grid.remove_some h
  subst h2
  rfl

theorem Grid.remove_WF {g : Grid} {c : Coords} {d : Dir} {n : Coords}
    {g' : Grid} (hwf : g.WF) (h : g.remove_passage c d = some (n, g')) :
    g'.WF := by
  obtain ⟨_, h2⟩ := Grid.remove_some h
  subst h2
  exact Grid.set_cell_WF (Grid.set_cell_WF hwf _ _) _ _

theorem Grid.remove_get_cell {g : Grid} {c : Coords} {d : Dir} {n : Coords}
    {g' : Grid} (hwf : g.WF) (h : g.remove_passage c d = some (n, g'))
    (x : Coords) (hx : g.inBounds x = true) :
    g'.get_cell x =
      if x = c then (g.get_cell c).remove d
      else if x = n then (g.get_cell n).remove d.opposite
      else g.get_cell x := by
  obtain ⟨hnx, hg⟩ := Grid.remove_some h
  have hc : g.inBounds c = true := (Grid.next_eq_some.1 hnx).1
  have hn : g.inBounds n = true := (Grid.next_eq_some.1 hnx).2.1
  have hidx : g.idx n ≠ g.idx c := Grid.next_idx_ne hnx
  subst hg
  set g1 := g.set_cell c ((g.get_cell c).remove d) with hg1
  have hwf1 : g1.WF := Grid.set_cell_WF hwf _ _
  by_cases hxc : x = c
  · subst hxc
    rw [if_pos rfl]
    have step1 : (g1.set_cell n ((g1.get_cell n).remove d.opposite)).get_cell
        x = g1.get_cell x :=
      Grid.get_cell_set_ne (show g1.idx n ≠ g1.idx x from hidx) _
    rw [step1, hg1]
    exact Grid.get_cell_set_self hwf hc _
  · rw [if_neg hxc]
    by_cases hxn : x = n
    · subst hxn
      rw [if_pos rfl]
      have step1 : (g1.set_cell x ((g1.get_cell x).remove
          d.opposite)).get_cell x = (g1.get_cell x).remove d.opposite :=
        Grid.get_cell_set_self hwf1 (show g1.inBounds x = true from hn) _
      have step2 : g1.get_cell x = g.get_cell x := by
        rw [hg1]
        exact Grid.get_cell_set_ne
          (fun he => hxc (Grid.idx_inj hx hc he.symm)) _
      rw [step1, step2]
    · rw [if_neg hxn]
      have step1 : (g1.set_cell n ((g1.get_cell n).remove
          d.opposite)).get_cell x = g1.get_cell x :=
        Grid.get_cell_set_ne
          (show g1.idx n ≠ g1.idx x from
            fun he => hxn (Grid.idx_inj hn hx he).symm) _
      have step2 : g1.get_cell x = g.get_cell x := by
        rw [hg1]
        exact Grid.get_cell_set_ne
          (fun he => hxc (Grid.idx_inj hx hc he.symm)) _
      rw [step1, step2]

theorem Grid.is_carved_remove {g : Grid} {c : Coords} {d : Dir}
    {n : Coords} {g' : Grid} (hwf : g.WF)
    (h : g.remove_passage c d = some (n, g')) (x : Coords) (e : Dir) :
    g'.is_carved x e = true ↔
      (g.is_carved x e = true ∧
        ¬((x = c ∧ e = d) ∨ (x = n ∧ e = d.opposite))) := by
  have hnx := (Grid.remove_some h).1
  have hc : g.inBounds c = true := (Grid.next_eq_some.1 hnx).1
  have hn : g.inBounds n = true := (Grid.next_eq_some.1 hnx).2.1
  have hcn : n ≠ c := Grid.next_ne hnx
  have hib : g'.inBounds x = g.inBounds x := by
    simp [Grid.inBounds, Grid.remove_width h, Grid.remove_height h]
  by_cases hx : g.inBounds x = true
  · simp only [Grid.is_carved, hib, hx, Bool.true_and]
    rw [Grid.remove_get_cell hwf h x hx]
    by_cases hxc : x = c
    · subst hxc
      rw [if_pos rfl, Cell.contains_remove]
      have hxn : ¬(x = n) := fun he2 => hcn he2.symm
      rw [Bool.and_eq_true]
      constructor
      · rintro ⟨h1, h2⟩
        rw [Bool.not_eq_eq_eq_not, Bool.not_true,
          decide_eq_false_iff_not] at h2
        refine ⟨h1, ?_⟩
        rintro (⟨_, he2⟩ | ⟨he2, _⟩)
        · exact h2 he2.symm
        · exact hxn he2
      · rintro ⟨h1, h2⟩
        refine ⟨h1, ?_⟩
        rw [Bool.not_eq_eq_eq_not, Bool.not_true, decide_eq_false_iff_not]
        intro hde
        exact h2 (Or.inl ⟨rfl, hde.symm⟩)
    · rw [if_neg hxc]
      by_cases hxn : x = n
      · subst hxn
        rw [if_pos rfl, Cell.contains_remove]
        rw [Bool.and_eq_true]
        constructor
        · rintro ⟨h1, h2⟩
          rw [Bool.not_eq_eq_eq_not, Bool.not_true,
            decide_eq_false_iff_not] at h2
          refine ⟨h1, ?_⟩
          rintro (⟨he2, _⟩ | ⟨_, he2⟩)
          · exact hxc he2
          · exact h2 he2.symm
        · rintro ⟨h1, h2⟩
          refine ⟨h1, ?_⟩
          rw [Bool.not_eq_eq_eq_not, Bool.not_true,
            decide_eq_false_iff_not]
          intro hde
          exact h2 (Or.inr ⟨rfl, hde.symm⟩)
      · rw [if_neg hxn]
        constructor
        · intro h1
          refine ⟨h1, ?_⟩
          rintro (⟨h2, _⟩ | ⟨h2, _⟩)
          · exact hxc h2
          · exact hxn h2
        · rintro ⟨h1, _⟩
          exact h1
  · rw [Bool.not_eq_true] at hx
    simp only [Grid.is_carved, hib, hx]
    simp

theorem dir_opposite_opposite (e : Dir) : e.opposite.opposite = e := by
  cases e <;> rfl

theorem symInv_remove {g : Grid} {c : Coords} {d : Dir} {n : Coords}
    {g' : Grid} (hwf : g.WF) (h : g.remove_passage c d = some (n, g'))
    (hs : SymInv g) : SymInv g' := by
  intro c' d' n' hn'
  rw [Grid.next_congr (Grid.remove_width h) (Grid.remove_height h)] at hn'
  have hcd : g.get_next_cell_coords c d = some n := (Grid.remove_some h).1
  rw [Grid.is_carved_remove hwf h c' d',
    Grid.is_carved_remove hwf h n' d'.opposite]
  have hIH := hs c' d' n' hn'
  constructor
  · rintro ⟨h1, h2⟩
    refine ⟨hIH.1 h1, ?_⟩
    rintro (⟨hh1, hh2⟩ | ⟨hh1, hh2⟩)
    · apply h2
      refine Or.inr ⟨?_, ?_⟩
      · subst hh1
        have h3 := Grid.next_symm hn'
        rw [hh2] at h3
        rw [hcd] at h3
        exact (Option.some_inj.1 h3).symm
      · rw [← hh2, dir_opposite_opposite]
    · apply h2
      have hd'd : d' = d := by
        have h4 := congrArg Dir.opposite hh2
        rw [dir_opposite_opposite, dir_opposite_opposite] at h4
        exact h4
      refine Or.inl ⟨?_, hd'd⟩
      subst hh1
      have h3 := Grid.next_symm hn'
      rw [hd'd] at h3
      rw [Grid.next_symm hcd] at h3
      exact (Option.some_inj.1 h3).symm
  · rintro ⟨h1, h2⟩
    refine ⟨hIH.2 h1, ?_⟩
    rintro (⟨hh1, hh2⟩ | ⟨hh1, hh2⟩)
    · apply h2
      refine Or.inr ⟨?_, by rw [hh2]⟩
      subst hh1
      rw [hh2] at hn'
      rw [hcd] at hn'
      exact (Option.some_inj.1 hn').symm
    · apply h2
      refine Or.inl ⟨?_, by rw [hh2, dir_opposite_opposite]⟩
      subst hh1
      rw [hh2] at hn'
      rw [Grid.next_symm hcd] at hn'
      exact (Option.some_inj.1 hn').symm

theorem dok_remove {g0 g g' : Grid} {c n : Coords} {d : Dir}
    (hok : DOk g0 g) (h : g.remove_passage c d = some (n, g')) :
    DOk g0 g' :=
  ⟨Grid.remove_WF hok.1 h, symInv_remove hok.1 h hok.2.1,
   (Grid.remove_width h).trans hok.2.2.1,
   (Grid.remove_height h).trans hok.2.2.2⟩

theorem dok_of_gok {g0 g : Grid} (hok : GOk g0 g) : DOk g0 g :=
  ⟨hok.1, hok.2.1, hok.2.2.1, hok.2.2.2.1⟩

theorem reachIn_mono_pred {g : Grid} {P Q : Coords → Prop}
    (hPQ : ∀ c, P c → Q c) {a b : Coords} (h : ReachIn g P a b) :
    ReachIn g Q a b := by
  refine Relation.ReflTransGen.mono ?_ h
  rintro x y ⟨hadj, hx, hy⟩
  exact ⟨hadj, hPQ x hx, hPQ y hy⟩

theorem reachIn_to_reach {g : Grid} {P : Coords → Prop} {a b : Coords}
    (h : ReachIn g P a b) : g.Reach a b := by
  refine Relation.ReflTransGen.mono ?_ h
  rintro x y ⟨hadj, _, _⟩
  exact hadj

theorem reachIn_congr {g1 g2 : Grid} {P : Coords → Prop}
    (hpres : ∀ x y, P x → P y → g1.carvedAdj x y → g2.carvedAdj x y)
    {a b : Coords} (h : ReachIn g1 P a b) : ReachIn g2 P a b := by
  refine Relation.ReflTransGen.mono ?_ h
  rintro x y ⟨hadj, hx, hy⟩
  exact ⟨hpres x y hx hy hadj, hx, hy⟩

theorem radj_symm {g : Grid} {P : Coords → Prop} (hs : SymInv g)
    {a b : Coords} (h : RAdj g P a b) : RAdj g P b a :=
  ⟨symInv_carvedAdj_symm hs h.1, h.2.2, h.2.1⟩

theorem reachIn_symm {g : Grid} {P : Coords → Prop} (hs : SymInv g)
    {a b : Coords} (h : ReachIn g P a b) : ReachIn g P b a := by
  induction h with
  | refl => exact Relation.ReflTransGen.refl
  | tail hab hbc ih =>
    exact Relation.ReflTransGen.head (radj_symm hs hbc) ih

/-- A fully open in-bounds rectangle is internally connected. -/
theorem open_rect_reachIn {g0 : Grid} {g : Grid} (hok : DOk g0 g)
    {x0 y0 w0 h0 : Nat} (hxb : x0 + w0 ≤ g0.width)
    (hyb : y0 + h0 ≤ g0.height)
    (hopen : ∀ c d m, g0.get_next_cell_coords c d = some m →
      inRect x0 y0 w0 h0 c → inRect x0 y0 w0 h0 m →
      g.is_carved c d = true) :
    ∀ a b, inRect x0 y0 w0 h0 a → inRect x0 y0 w0 h0 b →
      ReachIn g (inRect x0 y0 w0 h0) a b := by
  have hnextg : ∀ c d, g.get_next_cell_coords c d =
      g0.get_next_cell_coords c d :=
    Grid.next_congr hok.2.2.1 hok.2.2.2
  have hbounds : ∀ c, inRect x0 y0 w0 h0 c → g0.inBounds c = true := by
    rintro c ⟨h1, h2, h3, h4⟩
    exact Grid.inBounds_iff.2 ⟨by omega, by omega⟩
  have hstep : ∀ c m d, g0.get_next_cell_coords c d = some m →
      inRect x0 y0 w0 h0 c → inRect x0 y0 w0 h0 m →
      RAdj g (inRect x0 y0 w0 h0) c m := by
    intro c m d hd hc hm
    exact ⟨⟨d, by rw [hnextg]; exact hd, hopen c d m hd hc hm⟩, hc, hm⟩
  have heast : ∀ (k x y : Nat), inRect x0 y0 w0 h0 (x, y) →
      inRect x0 y0 w0 h0 (x + k, y) →
      ReachIn g (inRect x0 y0 w0 h0) (x, y) (x + k, y) := by
    intro k
    induction k with
    | zero => intro x y _ _; exact Relation.ReflTransGen.refl
    | succ m ih =>
      intro x y hx hxk
      obtain ⟨a1, a2, a3, a4⟩ := hx
      obtain ⟨b1, b2, b3, b4⟩ := hxk
      have hmid : inRect x0 y0 w0 h0 (x + m, y) := by
        refine ⟨by omega, by omega, by omega, by omega⟩
      have hmid2 : inRect x0 y0 w0 h0 (x + m + 1, y) := by
        refine ⟨by omega, by omega, by omega, by omega⟩
      have hnx : g0.get_next_cell_coords (x + m, y) .east =
          some (x + m + 1, y) :=
        Grid.next_eq_some.2 ⟨hbounds _ hmid, hbounds _ hmid2, rfl⟩
      have hstep2 := hstep _ _ _ hnx hmid hmid2
      have ih2 := ih x y ⟨a1, a2, a3, a4⟩ hmid
      rw [show x + (m + 1) = x + m + 1 by omega]
      exact Relation.ReflTransGen.tail ih2 hstep2
  have hsouth : ∀ (k x y : Nat), inRect x0 y0 w0 h0 (x, y) →
      inRect x0 y0 w0 h0 (x, y + k) →
      ReachIn g (inRect x0 y0 w0 h0) (x, y) (x, y + k) := by
    intro k
    induction k with
    | zero => intro x y _ _; exact Relation.ReflTransGen.refl
    | succ m ih =>
      intro x y hx hxk
      obtain ⟨a1, a2, a3, a4⟩ := hx
      obtain ⟨b1, b2, b3, b4⟩ := hxk
      have hmid : inRect x0 y0 w0 h0 (x, y + m) := by
        refine ⟨by omega, by omega, by omega, by omega⟩
      have hmid2 : inRect x0 y0 w0 h0 (x, y + m + 1) := by
        refine ⟨by omega, by omega, by omega, by omega⟩
      have hnx : g0.get_next_cell_coords (x, y + m) .south =
          some (x, y + m + 1) :=
        Grid.next_eq_some.2 ⟨hbounds _ hmid, hbounds _ hmid2, rfl⟩
      have hstep2 := hstep _ _ _ hnx hmid hmid2
      have ih2 := ih x y ⟨a1, a2, a3, a4⟩ hmid
      rw [show y + (m + 1) = y + m + 1 by omega]
      exact Relation.ReflTransGen.tail ih2 hstep2
  intro a b ha hb
  obtain ⟨a1, a2, a3, a4⟩ := ha
  obtain ⟨b1, b2, b3, b4⟩ := hb
  have hcorner : inRect x0 y0 w0 h0 (x0, y0) := by
    refine ⟨le_refl _, by omega, le_refl _, by omega⟩
  have hA : ReachIn g (inRect x0 y0 w0 h0) (x0, y0) a := by
    have h1 := heast (a.1 - x0) x0 y0 hcorner
      (by rw [show x0 + (a.1 - x0) = a.1 by omega]
          exact ⟨by omega, by omega, by omega, by omega⟩)
    rw [show x0 + (a.1 - x0) = a.1 by omega] at h1
    have h2 := hsouth (a.2 - y0) a.1 y0
      ⟨by omega, by omega, by omega, by omega⟩
      (by rw [show y0 + (a.2 - y0) = a.2 by omega]
          exact ⟨by omega, by omega, by omega, by omega⟩)
    rw [show y0 + (a.2 - y0) = a.2 by omega] at h2
    have h3 := Relation.ReflTransGen.trans h1 h2
    rw [show ((a.1, a.2) : Coords) = a from rfl] at h3
    exact h3
  have hB : ReachIn g (inRect x0 y0 w0 h0) (x0, y0) b := by
    have h1 := heast (b.1 - x0) x0 y0 hcorner
      (by rw [show x0 + (b.1 - x0) = b.1 by omega]
          exact ⟨by omega, by omega, by omega, by omega⟩)
    rw [show x0 + (b.1 - x0) = b.1 by omega] at h1
    have h2 := hsouth (b.2 - y0) b.1 y0
      ⟨by omega, by omega, by omega, by omega⟩
      (by rw [show y0 + (b.2 - y0) = b.2 by omega]
          exact ⟨by omega, by omega, by omega, by omega⟩)
    rw [show y0 + (b.2 - y0) = b.2 by omega] at h2
    have h3 := Relation.ReflTransGen.trans h1 h2
    rw [show ((b.1, b.2) : Coords) = b from rfl] at h3
    exact h3
  exact Relation.ReflTransGen.trans (reachIn_symm hok.2.1 hA) hB

theorem bool_eq_of_iff {a b : Bool} (h : a = true ↔ b = true) : a = b := by
  cases a <;> cases b <;> simp_all

theorem carve_all_step_le {g0 : Grid} (gg : Grid) (c : Coords)
    (hok : GOk g0 gg) :
    GOk g0 (carve_all_step gg c) ∧ cellsLe gg (carve_all_step gg c) := by
  unfold carve_all_step
  dsimp only
  cases hcv1 : gg.carve_passage c .east with
  | none =>
    dsimp only
    cases hcv2 : gg.carve_passage c .south with
    | none => exact ⟨hok, cellsLe_refl _⟩
    | some res2 =>
      rcases res2 with ⟨n2, g2⟩
      exact ⟨gok_carve hok hcv2, cellsLe_of_carve hok.1 hcv2⟩
  | some res1 =>
    rcases res1 with ⟨n1, g1⟩
    dsimp only
    have hok1 := gok_carve hok hcv1
    have hle1 := cellsLe_of_carve hok.1 hcv1
    cases hcv2 : g1.carve_passage c .south with
    | none => exact ⟨hok1, hle1⟩
    | some res2 =>
      rcases res2 with ⟨n2, g2⟩
      exact ⟨gok_carve hok1 hcv2,
        cellsLe_trans hle1 (cellsLe_of_carve hok1.1 hcv2)⟩

/-- After `carve_all`, every pair of adjacent cells is connected by a
carved passage. -/
theorem carve_all_post (g0 : Grid) (hwf : g0.WF) (hsym : SymInv g0) :
    GOk g0 (carve_all g0) ∧
      ∀ c d m, g0.get_next_cell_coords c d = some m →
        (carve_all g0).is_carved c d = true := by
  unfold carve_all
  have key := foldl_establish (fun gg => GOk g0 gg)
    (fun gg c => ∀ d, (d = Dir.east ∨ d = Dir.south) →
      ∀ m, g0.get_next_cell_coords c d = some m →
        gg.is_carved c d = true)
    carve_all_step g0.allCoords g0 (gok_refl hwf hsym) ?_ ?_
  · obtain ⟨hokF, hD⟩ := key
    refine ⟨hokF, ?_⟩
    have hnextF : ∀ c d, ((g0.allCoords).foldl carve_all_step
        g0).get_next_cell_coords c d = g0.get_next_cell_coords c d :=
      Grid.next_congr hokF.2.2.1 hokF.2.2.2.1
    intro c d m hnext
    have hcin : g0.inBounds c = true := (Grid.next_eq_some.1 hnext).1
    have hmin : g0.inBounds m = true := (Grid.next_eq_some.1 hnext).2.1
    cases d with
    | east =>
      exact hD c (Grid.mem_allCoords.2 hcin) .east (Or.inl rfl) m hnext
    | south =>
      exact hD c (Grid.mem_allCoords.2 hcin) .south (Or.inr rfl) m hnext
    | north =>
      have hsymF := hokF.2.1 c .north m (by rw [hnextF]; exact hnext)
      refine hsymF.2 ?_
      exact hD m (Grid.mem_allCoords.2 hmin) .south (Or.inr rfl) c
        (Grid.next_symm hnext)
    | west =>
      have hsymF := hokF.2.1 c .west m (by rw [hnextF]; exact hnext)
      refine hsymF.2 ?_
      exact hD m (Grid.mem_allCoords.2 hmin) .east (Or.inl rfl) c
        (Grid.next_symm hnext)
  · intro gg c _ hok
    refine ⟨(carve_all_step_le gg c hok).1, ?_⟩
    intro d hd m hnext
    have hnc : ∀ c2 d2, gg.get_next_cell_coords c2 d2 =
        g0.get_next_cell_coords c2 d2 :=
      Grid.next_congr hok.2.2.1 hok.2.2.2.1
    unfold carve_all_step
    dsimp only
    rcases hd with hd | hd <;> subst hd
    · -- east
      have hnxg : gg.get_next_cell_coords c .east = some m := by
        rw [hnc]
        exact hnext
      rw [carve_of_next hnxg]
      dsimp only
      have hcv1 := carve_of_next hnxg
      have hok1 := gok_carve hok hcv1
      have hfl1 := (Grid.is_carved_carve hok.1 hcv1 c .east).2
        (Or.inr (Or.inl ⟨rfl, rfl⟩))
      cases hcv2 : ((gg.set_cell c ((gg.get_cell c).insert .east)).set_cell m
          (((gg.set_cell c ((gg.get_cell c).insert .east)).get_cell
            m).insert Dir.east.opposite)).carve_passage c .south with
      | none =>
        dsimp only
        exact hfl1
      | some res2 =>
        rcases res2 with ⟨n2, g2⟩
        dsimp only
        exact (cellsLe_of_carve hok1.1 hcv2).2.2.2 _ _ hfl1
    · -- south
      cases hcv1 : gg.carve_passage c .east with
      | none =>
        dsimp only
        have hnxg : gg.get_next_cell_coords c .south = some m := by
          rw [hnc]
          exact hnext
        rw [carve_of_next hnxg]
        dsimp only
        exact (Grid.is_carved_carve hok.1 (carve_of_next hnxg) c .south).2
          (Or.inr (Or.inl ⟨rfl, rfl⟩))
      | some res1 =>
        rcases res1 with ⟨n1, g1⟩
        dsimp only
        have hok1 := gok_carve hok hcv1
        have hnxg : g1.get_next_cell_coords c .south = some m := by
          rw [Grid.next_congr (Grid.carve_width hcv1)
            (Grid.carve_height hcv1), hnc]
          exact hnext
        rw [carve_of_next hnxg]
        dsimp only
        exact (Grid.is_carved_carve hok1.1 (carve_of_next hnxg) c .south).2
          (Or.inr (Or.inl ⟨rfl, rfl⟩))
  · intro gg x y _ hok hD d hd m hnext
    exact (carve_all_step_le gg y hok).2.2.2.2 _ _ (hD d hd m hnext)

/-- The wall pass of Recursive Division only clears the two flags of
each removed wall segment, and skips the gap. -/
theorem rd_wall_post (g0 : Grid) (coord : Nat → Coords) (d : Dir)
    (gap : Nat) (n : Nat) (g : Grid) (hok : DOk g0 g) :
    DOk g0 ((List.range n).foldl (rd_wall_step coord d gap) g) ∧
      ∀ c e, (¬∃ i, i < n ∧ i ≠ gap ∧
          ∃ m, g0.get_next_cell_coords (coord i) d = some m ∧
            ((c = coord i ∧ e = d) ∨ (c = m ∧ e = d.opposite))) →
        ((List.range n).foldl (rd_wall_step coord d gap) g).is_carved c e =
          g.is_carved c e := by
  have key := range_fold_ind (rd_wall_step coord d gap)
    (fun gg k => DOk g0 gg ∧
      ∀ c e, (¬∃ i, i < k ∧ i ≠ gap ∧
          ∃ m, g0.get_next_cell_coords (coord i) d = some m ∧
            ((c = coord i ∧ e = d) ∨ (c = m ∧ e = d.opposite))) →
        gg.is_carved c e = g.is_carved c e)
    n g ⟨hok, fun c e _ => rfl⟩ ?_
  · exact key
  · intro gg k _ hI
    obtain ⟨hok2, hpres⟩ := hI
    unfold rd_wall_step
    by_cases hkg : k = gap
    · rw [if_pos hkg]
      refine ⟨hok2, ?_⟩
      intro c e hne
      refine hpres c e ?_
      rintro ⟨i, hi1, hi2, hm⟩
      exact hne ⟨i, by omega, hi2, hm⟩
    · rw [if_neg hkg]
      have hnc : ∀ c2 d2, gg.get_next_cell_coords c2 d2 =
          g0.get_next_cell_coords c2 d2 :=
        Grid.next_congr hok2.2.2.1 hok2.2.2.2
      cases hrm : gg.remove_passage (coord k) d with
      | none =>
        dsimp only
        refine ⟨hok2, ?_⟩
        intro c e hne
        refine hpres c e ?_
        rintro ⟨i, hi1, hi2, hm⟩
        exact hne ⟨i, by omega, hi2, hm⟩
      | some res =>
        rcases res with ⟨m, gg'⟩
        dsimp only
        have hmg : g0.get_next_cell_coords (coord k) d = some m := by
          rw [← hnc]
          exact (Grid.remove_some hrm).1
        refine ⟨dok_remove hok2 hrm, ?_⟩
        intro c e hne
        have hnot : ¬((c = coord k ∧ e = d) ∨ (c = m ∧ e = d.opposite)) := by
          intro hc
          exact hne ⟨k, by omega, hkg, m, hmg, hc⟩
        have hiff := Grid.is_carved_remove hok2.1 hrm c e
        have heq : gg'.is_carved c e = gg.is_carved c e := by
          refine bool_eq_of_iff ?_
          rw [hiff]
          constructor
          · rintro ⟨h1, _⟩
            exact h1
          · intro h1
            exact ⟨h1, hnot⟩
        rw [heq]
        refine hpres c e ?_
        rintro ⟨i, hi1, hi2, hm2⟩
        exact hne ⟨i, by omega, hi2, hm2⟩

theorem next_south_eq {g : Grid} {c m : Coords}
    (h : g.get_next_cell_coords c .south = some m) : m = (c.1, c.2 + 1) := by
  have h3 := (Grid.next_eq_some.1 h).2.2
  unfold dirStep at h3
  exact (Option.some_inj.1 h3).symm

theorem next_east_eq {g : Grid} {c m : Coords}
    (h : g.get_next_cell_coords c .east = some m) : m = (c.1 + 1, c.2) := by
  have h3 := (Grid.next_eq_some.1 h).2.2
  unfold dirStep at h3
  exact (Option.some_inj.1 h3).symm

theorem next_north_eq {g : Grid} {c m : Coords}
    (h : g.get_next_cell_coords c .north = some m) :
    c.2 ≠ 0 ∧ m = (c.1, c.2 - 1) := by
  have h3 := (Grid.next_eq_some.1 h).2.2
  unfold dirStep at h3
  by_cases h0 : c.2 = 0
  · rw [if_pos h0] at h3
    cases h3
  · rw [if_neg h0] at h3
    exact ⟨h0, (Option.some_inj.1 h3).symm⟩

theorem next_west_eq {g : Grid} {c m : Coords}
    (h : g.get_next_cell_coords c .west = some m) :
    c.1 ≠ 0 ∧ m = (c.1 - 1, c.2) := by
  have h3 := (Grid.next_eq_some.1 h).2.2
  unfold dirStep at h3
  by_cases h0 : c.1 = 0
  · rw [if_pos h0] at h3
    cases h3
  · rw [if_neg h0] at h3
    exact ⟨h0, (Option.some_inj.1 h3).symm⟩

set_option maxHeartbeats 1000000 in
/-- Recursive Division core: `divide` keeps the grid well-formed and
symmetric with unchanged dimensions, changes no wall flag whose edge
leaves the chamber, and, started from a chamber whose interior edges
are all open, leaves every pair of chamber cells connected inside the
chamber. -/
theorem divide_post (g0 : Grid) :
    ∀ (f x0 y0 w0 h0 : Nat) (g : Grid) (r : Rng),
      DOk g0 g →
      x0 + w0 ≤ g0.width → y0 + h0 ≤ g0.height →
      DOk g0 (divide f x0 y0 w0 h0 g r).1 ∧
      (∀ c e, (¬∃ m, g0.get_next_cell_coords c e = some m ∧
          inRect x0 y0 w0 h0 c ∧ inRect x0 y0 w0 h0 m) →
        (divide f x0 y0 w0 h0 g r).1.is_carved c e = g.is_carved c e) ∧
      ((∀ c d m, g0.get_next_cell_coords c d = some m →
          inRect x0 y0 w0 h0 c → inRect x0 y0 w0 h0 m →
          g.is_carved c d = true) →
        ∀ a b, inRect x0 y0 w0 h0 a → inRect x0 y0 w0 h0 b →
          ReachIn (divide f x0 y0 w0 h0 g r).1 (inRect x0 y0 w0 h0) a b) := by
  intro f
  induction f with
  | zero =>
    intro x0 y0 w0 h0 g r hok hxb hyb
    refine ⟨hok, fun c e _ => rfl, ?_⟩
    intro hopen
    exact open_rect_reachIn hok hxb hyb hopen
  | succ f ih =>
    intro x0 y0 w0 h0 g r hok hxb hyb
    unfold divide
    by_cases hsmall : w0 < 2 ∨ h0 < 2
    · have hguard : (decide (w0 < 2) || decide (h0 < 2)) = true := by
        rcases hsmall with h5 | h5
        · rw [decide_eq_true h5]
          simp
        · rw [decide_eq_true h5]
          simp
      rw [if_pos hguard]
      refine ⟨hok, fun c e _ => rfl, ?_⟩
      intro hopen
      exact open_rect_reachIn hok hxb hyb hopen
    · push_neg at hsmall
      have hw2 : 2 ≤ w0 := by omega
      have hh2 : 2 ≤ h0 := by omega
      have hguard : (decide (w0 < 2) || decide (h0 < 2)) = false := by
        rw [decide_eq_false (by omega), decide_eq_false (by omega)]
        rfl
      rw [if_neg (by rw [hguard]; simp)]
      dsimp only
      set po := (if w0 < h0 then ((true : Bool), r)
        else if h0 < w0 then ((false : Bool), r) else r.bool) with hpo
      by_cases hdir : po.1 = true
      · rw [if_pos hdir]
        set wy := (po.2.below (h0 - 1)).1 with hwy
        set gx := ((po.2.below (h0 - 1)).2.below w0).1 with hgx
        set gw := List.foldl
          (rd_wall_step (fun i => (x0 + i, y0 + wy)) Dir.south gx)
          g (List.range w0) with hgw
        have hwyb : wy < h0 - 1 := by
          rw [hwy]
          unfold Rng.below Rng.next
          dsimp only
          exact Nat.mod_lt _ (by omega)
        have hgxb : gx < w0 := by
          rw [hgx]
          unfold Rng.below Rng.next
          dsimp only
          exact Nat.mod_lt _ (by omega)
        obtain ⟨hokW, hpresW⟩ := rd_wall_post g0
          (fun i => (x0 + i, y0 + wy)) Dir.south gx w0 g hok
        have hm_char : ∀ i, i < w0 →
            g0.get_next_cell_coords (x0 + i, y0 + wy) Dir.south =
              some (x0 + i, y0 + wy + 1) := by
          intro i hi
          refine Grid.next_eq_some.2
            ⟨Grid.inBounds_iff.2 ⟨by omega, by omega⟩,
             Grid.inBounds_iff.2 ⟨by omega, by omega⟩, rfl⟩
        have hpresW2 : ∀ c e, (¬∃ i, i < w0 ∧ i ≠ gx ∧
            ((c = (x0 + i, y0 + wy) ∧ e = Dir.south) ∨
             (c = (x0 + i, y0 + wy + 1) ∧ e = Dir.north))) →
            gw.is_carved c e = g.is_carved c e := by
          intro c e hne
          refine hpresW c e ?_
          rintro ⟨i, hi1, hi2, m, hm, hdis⟩
          have hmeq : m = (x0 + i, y0 + wy + 1) := next_south_eq hm
          refine hne ⟨i, hi1, hi2, ?_⟩
          rw [← hmeq]
          exact hdis
        obtain ⟨hokA, hpresA, hreachA⟩ :=
          ih x0 y0 w0 (wy + 1) gw
            ((po.2.below (h0 - 1)).2.below w0).2 hokW hxb (by omega)
        set p1 := divide f x0 y0 w0 (wy + 1) gw
          ((po.2.below (h0 - 1)).2.below w0).2 with hp1
        obtain ⟨hokB, hpresB, hreachB⟩ :=
          ih x0 (y0 + wy + 1) w0 (h0 - wy - 1) p1.1 p1.2 hokA hxb (by omega)
        set p2 := divide f x0 (y0 + wy + 1) w0 (h0 - wy - 1) p1.1 p1.2
          with hp2
        have hsub1 : ∀ c, inRect x0 y0 w0 (wy + 1) c →
            inRect x0 y0 w0 h0 c := by
          rintro c ⟨a1, a2, a3, a4⟩
          exact ⟨a1, a2, a3, by omega⟩
        have hsub2 : ∀ c, inRect x0 (y0 + wy + 1) w0 (h0 - wy - 1) c →
            inRect x0 y0 w0 h0 c := by
          rintro c ⟨a1, a2, a3, a4⟩
          exact ⟨a1, a2, by omega, by omega⟩
        have hnA : ∀ c2 d2, p1.1.get_next_cell_coords c2 d2 =
            g0.get_next_cell_coords c2 d2 :=
          Grid.next_congr hokA.2.2.1 hokA.2.2.2
        have hnB : ∀ c2 d2, p2.1.get_next_cell_coords c2 d2 =
            g0.get_next_cell_coords c2 d2 :=
          Grid.next_congr hokB.2.2.1 hokB.2.2.2
        refine ⟨hokB, ?_, ?_⟩
        · intro c e hne
          have h1 : p2.1.is_carved c e = p1.1.is_carved c e := by
            refine hpresB c e ?_
            rintro ⟨m, hm, hc2, hm2⟩
            exact hne ⟨m, hm, hsub2 c hc2, hsub2 m hm2⟩
          have h2 : p1.1.is_carved c e = gw.is_carved c e := by
            refine hpresA c e ?_
            rintro ⟨m, hm, hc2, hm2⟩
            exact hne ⟨m, hm, hsub1 c hc2, hsub1 m hm2⟩
          have h3 : gw.is_carved c e = g.is_carved c e := by
            refine hpresW2 c e ?_
            rintro ⟨i, hi1, hi2, (⟨hc1, he1⟩ | ⟨hc1, he1⟩)⟩
            · refine hne ⟨(x0 + i, y0 + wy + 1), ?_, ?_, ?_⟩
              · rw [hc1, he1]
                exact hm_char i hi1
              · rw [hc1]
                exact ⟨by omega, by omega, by omega, by omega⟩
              · exact ⟨by omega, by omega, by omega, by omega⟩
            · refine hne ⟨(x0 + i, y0 + wy), ?_, ?_, ?_⟩
              · rw [hc1, he1]
                refine Grid.next_eq_some.2
                  ⟨Grid.inBounds_iff.2 ⟨by omega, by omega⟩,
                   Grid.inBounds_iff.2 ⟨by omega, by omega⟩, ?_⟩
                show (if y0 + wy + 1 = 0 then none
                  else some (x0 + i, y0 + wy + 1 - 1)) =
                  some (x0 + i, y0 + wy)
                rw [if_neg (by omega)]
                rw [show y0 + wy + 1 - 1 = y0 + wy by omega]
              · rw [hc1]
                exact ⟨by omega, by omega, by omega, by omega⟩
              · exact ⟨by omega, by omega, by omega, by omega⟩
          rw [h1, h2, h3]
        · intro hopen a b ha hb
          have hopen1 : ∀ c d m, g0.get_next_cell_coords c d = some m →
              inRect x0 y0 w0 (wy + 1) c → inRect x0 y0 w0 (wy + 1) m →
              gw.is_carved c d = true := by
            intro c d m hm hc hm2
            rw [hpresW2 c d ?_]
            · exact hopen c d m hm (hsub1 c hc) (hsub1 m hm2)
            · rintro ⟨i, hi1, hi2, (⟨hc1, hd1⟩ | ⟨hc1, hd1⟩)⟩
              · rw [hc1, hd1] at hm
                have hmeq := next_south_eq hm
                rw [hmeq] at hm2
                obtain ⟨_, _, _, hb4⟩ := hm2
                dsimp only at hb4
                omega
              · obtain ⟨_, _, _, hb4⟩ := hc
                rw [hc1] at hb4
                dsimp only at hb4
                omega
          have hA := hreachA hopen1
          have hopen2 : ∀ c d m, g0.get_next_cell_coords c d = some m →
              inRect x0 (y0 + wy + 1) w0 (h0 - wy - 1) c →
              inRect x0 (y0 + wy + 1) w0 (h0 - wy - 1) m →
              p1.1.is_carved c d = true := by
            intro c d m hm hc hm2
            have h2 : p1.1.is_carved c d = gw.is_carved c d := by
              refine hpresA c d ?_
              rintro ⟨m2, _, hc2, _⟩
              obtain ⟨_, _, hb3, _⟩ := hc
              obtain ⟨_, _, _, hb4⟩ := hc2
              omega
            have h3 : gw.is_carved c d = g.is_carved c d := by
              refine hpresW2 c d ?_
              rintro ⟨i, hi1, hi2, (⟨hc1, hd1⟩ | ⟨hc1, hd1⟩)⟩
              · obtain ⟨_, _, hb3, _⟩ := hc
                rw [hc1] at hb3
                dsimp only at hb3
                omega
              · rw [hc1, hd1] at hm
                obtain ⟨_, hmeq⟩ := next_north_eq hm
                dsimp only at hmeq
                rw [show y0 + wy + 1 - 1 = y0 + wy by omega] at hmeq
                rw [hmeq] at hm2
                obtain ⟨_, _, hb3, _⟩ := hm2
                dsimp only at hb3
                omega
            rw [h2, h3]
            exact hopen c d m hm (hsub2 c hc) (hsub2 m hm2)
          have hB := hreachB hopen2
          have htrans1 : ∀ a2 b2, inRect x0 y0 w0 (wy + 1) a2 →
              inRect x0 y0 w0 (wy + 1) b2 →
              ReachIn p2.1 (inRect x0 y0 w0 (wy + 1)) a2 b2 := by
            intro a2 b2 ha2 hb2
            refine reachIn_congr ?_ (hA a2 b2 ha2 hb2)
            rintro x y hx hy ⟨d, hnext, hflag⟩
            refine ⟨d, ?_, ?_⟩
            · rw [hnB, ← hnA]
              exact hnext
            · rw [hpresB x d ?_]
              · exact hflag
              · rintro ⟨m2, _, hc2, _⟩
                obtain ⟨_, _, _, hb4⟩ := hx
                obtain ⟨_, _, hb3, _⟩ := hc2
                omega
          have hr1A : inRect x0 y0 w0 (wy + 1) (x0 + gx, y0 + wy) :=
            ⟨by omega, by omega, by omega, by omega⟩
          have hr2B : inRect x0 (y0 + wy + 1) w0 (h0 - wy - 1)
              (x0 + gx, y0 + wy + 1) :=
            ⟨by omega, by omega, by omega, by omega⟩
          have hflagF : p2.1.is_carved (x0 + gx, y0 + wy) Dir.south =
              true := by
            have h1 : p2.1.is_carved (x0 + gx, y0 + wy) Dir.south =
                p1.1.is_carved (x0 + gx, y0 + wy) Dir.south := by
              refine hpresB _ _ ?_
              rintro ⟨m2, _, hc2, _⟩
              obtain ⟨_, _, hb3, _⟩ := hc2
              dsimp only at hb3
              omega
            have h2 : p1.1.is_carved (x0 + gx, y0 + wy) Dir.south =
                gw.is_carved (x0 + gx, y0 + wy) Dir.south := by
              refine hpresA _ _ ?_
              rintro ⟨m2, hm2, _, hr1m⟩
              have hmeq := next_south_eq hm2
              rw [hmeq] at hr1m
              obtain ⟨_, _, _, hb4⟩ := hr1m
              dsimp only at hb4
              omega
            have h3 : gw.is_carved (x0 + gx, y0 + wy) Dir.south =
                g.is_carved (x0 + gx, y0 + wy) Dir.south := by
              refine hpresW2 _ _ ?_
              rintro ⟨i, hi1, hi2, (⟨hc1, _⟩ | ⟨hc1, hd1⟩)⟩
              · have : x0 + gx = x0 + i := congrArg Prod.fst hc1
                exact hi2 (by omega)
              · cases hd1
            rw [h1, h2, h3]
            exact hopen _ Dir.south _ (hm_char gx hgxb)
              ⟨by omega, by omega, by omega, by omega⟩
              ⟨by omega, by omega, by omega, by omega⟩
          have hadjAB : RAdj p2.1 (inRect x0 y0 w0 h0)
              (x0 + gx, y0 + wy) (x0 + gx, y0 + wy + 1) := by
            refine ⟨⟨Dir.south, ?_, hflagF⟩, ?_, ?_⟩
            · rw [hnB]
              exact hm_char gx hgxb
            · exact ⟨by omega, by omega, by omega, by omega⟩
            · exact ⟨by omega, by omega, by omega, by omega⟩
          have hsplit : ∀ c, inRect x0 y0 w0 h0 c →
              inRect x0 y0 w0 (wy + 1) c ∨
                inRect x0 (y0 + wy + 1) w0 (h0 - wy - 1) c := by
            rintro c ⟨a1, a2, a3, a4⟩
            by_cases hcy : c.2 < y0 + wy + 1
            · exact Or.inl ⟨a1, a2, a3, hcy⟩
            · exact Or.inr ⟨a1, a2, by omega, by omega⟩
          have hcross : ∀ a2 b2, inRect x0 y0 w0 (wy + 1) a2 →
              inRect x0 (y0 + wy + 1) w0 (h0 - wy - 1) b2 →
              ReachIn p2.1 (inRect x0 y0 w0 h0) a2 b2 := by
            intro a2 b2 ha2 hb2
            refine Relation.ReflTransGen.trans
              (reachIn_mono_pred hsub1 (htrans1 a2 _ ha2 hr1A)) ?_
            refine Relation.ReflTransGen.trans
              (Relation.ReflTransGen.single hadjAB) ?_
            exact reachIn_mono_pred hsub2 (hB _ b2 hr2B hb2)
          rcases hsplit a ha with ha1 | ha1 <;>
            rcases hsplit b hb with hb1 | hb1
          · exact reachIn_mono_pred hsub1 (htrans1 a b ha1 hb1)
          · exact hcross a b ha1 hb1
          · exact reachIn_symm hokB.2.1 (hcross b a hb1 ha1)
          · exact reachIn_mono_pred hsub2 (hB a b ha1 hb1)
      · rw [if_neg hdir]
        set wx := (po.2.below (w0 - 1)).1 with hwx
        set gy := ((po.2.below (w0 - 1)).2.below h0).1 with hgy
        set gw := List.foldl
          (rd_wall_step (fun i => (x0 + wx, y0 + i)) Dir.east gy)
          g (List.range h0) with hgw
        have hwxb : wx < w0 - 1 := by
          rw [hwx]
          unfold Rng.below Rng.next
          dsimp only
          exact Nat.mod_lt _ (by omega)
        have hgyb : gy < h0 := by
          rw [hgy]
          unfold Rng.below Rng.next
          dsimp only
          exact Nat.mod_lt _ (by omega)
        obtain ⟨hokW, hpresW⟩ := rd_wall_post g0
          (fun i => (x0 + wx, y0 + i)) Dir.east gy h0 g hok
        have hm_char : ∀ i, i < h0 →
            g0.get_next_cell_coords (x0 + wx, y0 + i) Dir.east =
              some (x0 + wx + 1, y0 + i) := by
          intro i hi
          refine Grid.next_eq_some.2
            ⟨Grid.inBounds_iff.2 ⟨by omega, by omega⟩,
             Grid.inBounds_iff.2 ⟨by omega, by omega⟩, rfl⟩
        have hpresW2 : ∀ c e, (¬∃ i, i < h0 ∧ i ≠ gy ∧
            ((c = (x0 + wx, y0 + i) ∧ e = Dir.east) ∨
             (c = (x0 + wx + 1, y0 + i) ∧ e = Dir.west))) →
            gw.is_carved c e = g.is_carved c e := by
          intro c e hne
          refine hpresW c e ?_
          rintro ⟨i, hi1, hi2, m, hm, hdis⟩
          have hmeq : m = (x0 + wx + 1, y0 + i) := next_east_eq hm
          refine hne ⟨i, hi1, hi2, ?_⟩
          rw [← hmeq]
          exact hdis
        obtain ⟨hokA, hpresA, hreachA⟩ :=
          ih x0 y0 (wx + 1) h0 gw
            ((po.2.below (w0 - 1)).2.below h0).2 hokW (by omega) hyb
        set p1 := divide f x0 y0 (wx + 1) h0 gw
          ((po.2.below (w0 - 1)).2.below h0).2 with hp1
        obtain ⟨hokB, hpresB, hreachB⟩ :=
          ih (x0 + wx + 1) y0 (w0 - wx - 1) h0 p1.1 p1.2 hokA (by omega) hyb
        set p2 := divide f (x0 + wx + 1) y0 (w0 - wx - 1) h0 p1.1 p1.2
          with hp2
        have hsub1 : ∀ c, inRect x0 y0 (wx + 1) h0 c →
            inRect x0 y0 w0 h0 c := by
          rintro c ⟨a1, a2, a3, a4⟩
          exact ⟨a1, by omega, a3, a4⟩
        have hsub2 : ∀ c, inRect (x0 + wx + 1) y0 (w0 - wx - 1) h0 c →
            inRect x0 y0 w0 h0 c := by
          rintro c ⟨a1, a2, a3, a4⟩
          exact ⟨by omega, by omega, a3, a4⟩
        have hnA : ∀ c2 d2, p1.1.get_next_cell_coords c2 d2 =
            g0.get_next_cell_coords c2 d2 :=
          Grid.next_congr hokA.2.2.1 hokA.2.2.2
        have hnB : ∀ c2 d2, p2.1.get_next_cell_coords c2 d2 =
            g0.get_next_cell_coords c2 d2 :=
          Grid.next_congr hokB.2.2.1 hokB.2.2.2
        refine ⟨hokB, ?_, ?_⟩
        · intro c e hne
          have h1 : p2.1.is_carved c e = p1.1.is_carved c e := by
            refine hpresB c e ?_
            rintro ⟨m, hm, hc2, hm2⟩
            exact hne ⟨m, hm, hsub2 c hc2, hsub2 m hm2⟩
          have h2 : p1.1.is_carved c e = gw.is_carved c e := by
            refine hpresA c e ?_
            rintro ⟨m, hm, hc2, hm2⟩
            exact hne ⟨m, hm, hsub1 c hc2, hsub1 m hm2⟩
          have h3 : gw.is_carved c e = g.is_carved c e := by
            refine hpresW2 c e ?_
            rintro ⟨i, hi1, hi2, (⟨hc1, he1⟩ | ⟨hc1, he1⟩)⟩
            · refine hne ⟨(x0 + wx + 1, y0 + i), ?_, ?_, ?_⟩
              · rw [hc1, he1]
                exact hm_char i hi1
              · rw [hc1]
                exact ⟨by omega, by omega, by omega, by omega⟩
              · exact ⟨by omega, by omega, by omega, by omega⟩
            · refine hne ⟨(x0 + wx, y0 + i), ?_, ?_, ?_⟩
              · rw [hc1, he1]
                refine Grid.next_eq_some.2
                  ⟨Grid.inBounds_iff.2 ⟨by omega, by omega⟩,
                   Grid.inBounds_iff.2 ⟨by omega, by omega⟩, ?_⟩
                show (if x0 + wx + 1 = 0 then none
                  else some (x0 + wx + 1 - 1, y0 + i)) =
                  some (x0 + wx, y0 + i)
                rw [if_neg (by omega)]
                rw [show x0 + wx + 1 - 1 = x0 + wx by omega]
              · rw [hc1]
                exact ⟨by omega, by omega, by omega, by omega⟩
              · exact ⟨by omega, by omega, by omega, by omega⟩
          rw [h1, h2, h3]
        · intro hopen a b ha hb
          have hopen1 : ∀ c d m, g0.get_next_cell_coords c d = some m →
              inRect x0 y0 (wx + 1) h0 c → inRect x0 y0 (wx + 1) h0 m →
              gw.is_carved c d = true := by
            intro c d m hm hc hm2
            rw [hpresW2 c d ?_]
            · exact hopen c d m hm (hsub1 c hc) (hsub1 m hm2)
            · rintro ⟨i, hi1, hi2, (⟨hc1, hd1⟩ | ⟨hc1, hd1⟩)⟩
              · rw [hc1, hd1] at hm
                have hmeq := next_east_eq hm
                rw [hmeq] at hm2
                obtain ⟨_, hb2, _, _⟩ := hm2
                dsimp only at hb2
                omega
              · obtain ⟨_, hb2, _, _⟩ := hc
                rw [hc1] at hb2
                dsimp only at hb2
                omega
          have hA := hreachA hopen1
          have hopen2 : ∀ c d m, g0.get_next_cell_coords c d = some m →
              inRect (x0 + wx + 1) y0 (w0 - wx - 1) h0 c →
              inRect (x0 + wx + 1) y0 (w0 - wx - 1) h0 m →
              p1.1.is_carved c d = true := by
            intro c d m hm hc hm2
            have h2 : p1.1.is_carved c d = gw.is_carved c d := by
              refine hpresA c d ?_
              rintro ⟨m2, _, hc2, _⟩
              obtain ⟨hb1, _, _, _⟩ := hc
              obtain ⟨_, hb2, _, _⟩ := hc2
              omega
            have h3 : gw.is_carved c d = g.is_carved c d := by
              refine hpresW2 c d ?_
              rintro ⟨i, hi1, hi2, (⟨hc1, hd1⟩ | ⟨hc1, hd1⟩)⟩
              · obtain ⟨hb1, _, _, _⟩ := hc
                rw [hc1] at hb1
                dsimp only at hb1
                omega
              · rw [hc1, hd1] at hm
                obtain ⟨_, hmeq⟩ := next_west_eq hm
                dsimp only at hmeq
                rw [show x0 + wx + 1 - 1 = x0 + wx by omega] at hmeq
                rw [hmeq] at hm2
                obtain ⟨hb1, _, _, _⟩ := hm2
                dsimp only at hb1
                omega
            rw [h2, h3]
            exact hopen c d m hm (hsub2 c hc) (hsub2 m hm2)
          have hB := hreachB hopen2
          have htrans1 : ∀ a2 b2, inRect x0 y0 (wx + 1) h0 a2 →
              inRect x0 y0 (wx + 1) h0 b2 →
              ReachIn p2.1 (inRect x0 y0 (wx + 1) h0) a2 b2 := by
            intro a2 b2 ha2 hb2
            refine reachIn_congr ?_ (hA a2 b2 ha2 hb2)
            rintro x y hx hy ⟨d, hnext, hflag⟩
            refine ⟨d, ?_, ?_⟩
            · rw [hnB, ← hnA]
              exact hnext
            · rw [hpresB x d ?_]
              · exact hflag
              · rintro ⟨m2, _, hc2, _⟩
                obtain ⟨_, hb2x, _, _⟩ := hx
                obtain ⟨hb1x, _, _, _⟩ := hc2
                omega
          have hr1A : inRect x0 y0 (wx + 1) h0 (x0 + wx, y0 + gy) :=
            ⟨by omega, by omega, by omega, by omega⟩
          have hr2B : inRect (x0 + wx + 1) y0 (w0 - wx - 1) h0
              (x0 + wx + 1, y0 + gy) :=
            ⟨by omega, by omega, by omega, by omega⟩
          have hflagF : p2.1.is_carved (x0 + wx, y0 + gy) Dir.east =
              true := by
            have h1 : p2.1.is_carved (x0 + wx, y0 + gy) Dir.east =
                p1.1.is_carved (x0 + wx, y0 + gy) Dir.east := by
              refine hpresB _ _ ?_
              rintro ⟨m2, _, hc2, _⟩
              obtain ⟨hb1, _, _, _⟩ := hc2
              dsimp only at hb1
              omega
            have h2 : p1.1.is_carved (x0 + wx, y0 + gy) Dir.east =
                gw.is_carved (x0 + wx, y0 + gy) Dir.east := by
              refine hpresA _ _ ?_
              rintro ⟨m2, hm2, _, hr1m⟩
              have hmeq := next_east_eq hm2
              rw [hmeq] at hr1m
              obtain ⟨_, hb2, _, _⟩ := hr1m
              dsimp only at hb2
              omega
            have h3 : gw.is_carved (x0 + wx, y0 + gy) Dir.east =
                g.is_carved (x0 + wx, y0 + gy) Dir.east := by
              refine hpresW2 _ _ ?_
              rintro ⟨i, hi1, hi2, (⟨hc1, _⟩ | ⟨hc1, hd1⟩)⟩
              · have : y0 + gy = y0 + i := congrArg Prod.snd hc1
                exact hi2 (by omega)
              · cases hd1
            rw [h1, h2, h3]
            exact hopen _ Dir.east _ (hm_char gy hgyb)
              ⟨by omega, by omega, by omega, by omega⟩
              ⟨by omega, by omega, by omega, by omega⟩
          have hadjAB : RAdj p2.1 (inRect x0 y0 w0 h0)
              (x0 + wx, y0 + gy) (x0 + wx + 1, y0 + gy) := by
            refine ⟨⟨Dir.east, ?_, hflagF⟩, ?_, ?_⟩
            · rw [hnB]
              exact hm_char gy hgyb
            · exact ⟨by omega, by omega, by omega, by omega⟩
            · exact ⟨by omega, by omega, by omega, by omega⟩
          have hsplit : ∀ c, inRect x0 y0 w0 h0 c →
              inRect x0 y0 (wx + 1) h0 c ∨
                inRect (x0 + wx + 1) y0 (w0 - wx - 1) h0 c := by
            rintro c ⟨a1, a2, a3, a4⟩
            by_cases hcx : c.1 < x0 + wx + 1
            · exact Or.inl ⟨a1, hcx, a3, a4⟩
            · exact Or.inr ⟨by omega, by omega, a3, a4⟩
          have hcross : ∀ a2 b2, inRect x0 y0 (wx + 1) h0 a2 →
              inRect (x0 + wx + 1) y0 (w0 - wx - 1) h0 b2 →
              ReachIn p2.1 (inRect x0 y0 w0 h0) a2 b2 := by
            intro a2 b2 ha2 hb2
            refine Relation.ReflTransGen.trans
              (reachIn_mono_pred hsub1 (htrans1 a2 _ ha2 hr1A)) ?_
            refine Relation.ReflTransGen.trans
              (Relation.ReflTransGen.single hadjAB) ?_
            exact reachIn_mono_pred hsub2 (hB _ b2 hr2B hb2)
          rcases hsplit a ha with ha1 | ha1 <;>
            rcases hsplit b hb with hb1 | hb1
          · exact reachIn_mono_pred hsub1 (htrans1 a b ha1 hb1)
          · exact hcross a b ha1 hb1
          · exact reachIn_symm hokB.2.1 (hcross b a hb1 ha1)
          · exact reachIn_mono_pred hsub2 (hB a b ha1 hb1)

/-- Recursive Division mazes over any positive grid validate. -/
theorem generate_rd_valid (w h : Nat) (hw : 1 ≤ w) (hh : 1 ≤ h)
    (r r2 : Rng) :
    validate (generate_rd (Grid.new w h) r).1 r2 = true := by
  obtain ⟨hokC, hopenC⟩ :=
    carve_all_post (Grid.new w h) (Grid.new_WF w h) (symInv_new w h)
  obtain ⟨hokF, _, hreachF⟩ := divide_post (Grid.new w h)
    ((Grid.new w h).width * (Grid.new w h).height + 1) 0 0
    (Grid.new w h).width (Grid.new w h).height (carve_all (Grid.new w h)) r
    (dok_of_gok hokC) (by omega) (by omega)
  have hreach2 := hreachF (fun c d m hm _ _ => hopenC c d m hm)
  have hgw : (Grid.new w h).width = w := rfl
  have hgh : (Grid.new w h).height = h := rfl
  rw [hgw, hgh] at hreach2
  have hwF : (generate_rd (Grid.new w h) r).1.width = w := hokF.2.2.1
  have hhF : (generate_rd (Grid.new w h) r).1.height = h := hokF.2.2.2
  refine validate_complete _ (by rw [hwF]; exact hw) (by rw [hhF]; exact hh)
    ?_ r2
  intro c hc
  obtain ⟨hc1, hc2⟩ := Grid.inBounds_iff.1 hc
  rw [hwF] at hc1
  rw [hhF] at hc2
  refine reachIn_to_reach (hreach2 (0, 0) c ?_ ?_)
  · exact ⟨by omega, by omega, by omega, by omega⟩
  · exact ⟨by omega, by omega, by omega, by omega⟩

/-- C3: `build` returns an error iff a start coordinate was supplied to
an algorithm without start-coordinate support; the error carries (and its
message includes) the algorithm's name; the error is decided before the
algorithm runs (the outcome is the same for every generation function, so
the fresh grid is never touched); in every other configuration `build`
returns Ok with the generated maze. -/
theorem C3_build_error (os : Rng) (b : OrthogonalMazeBuilder) :
    ((∃ e, build os b = Except.error e) ↔
      b.start_coords.isSome = true ∧ b.algorithm.has_start_coords = false) ∧
    (∀ e, build os b = Except.error e →
      e = BuildError.of_reason b.algorithm.name ∧
      ∃ s1 s2, e.message = s1 ++ b.algorithm.name ++ s2) ∧
    (b.start_coords.isSome = true → b.algorithm.has_start_coords = false →
      ∀ {M M2 : Type} (gen : AlgKind → Grid → Option Coords → Rng → M)
        (gen2 : AlgKind → Grid → Option Coords → Rng → M2),
        buildWith gen os b =
          Except.error (BuildError.of_reason b.algorithm.name) ∧
        buildWith gen2 os b =
          Except.error (BuildError.of_reason b.algorithm.name)) ∧
    (¬(b.start_coords.isSome = true ∧ b.algorithm.has_start_coords = false) →
      build os b = Except.ok (generate b.algorithm
        (Grid.new b.width b.height) b.start_coords
        ((b.seed.map stdRng).getD os))) := by
  have hcase : ∀ {M : Type} (gen : AlgKind → Grid → Option Coords → Rng → M),
      buildWith gen os b =
        if b.start_coords.isSome && !b.algorithm.has_start_coords then
          Except.error (BuildError.of_reason b.algorithm.name)
        else Except.ok (gen b.algorithm (Grid.new b.width b.height)
          b.start_coords ((b.seed.map stdRng).getD os)) := by
    intro M gen
    rfl
  refine ⟨⟨?_, ?_⟩, ?_, ?_, ?_⟩
  · rintro ⟨e, he⟩
    rw [build, hcase generate] at he
    by_cases hc : b.start_coords.isSome && !b.algorithm.has_start_coords
    · rw [Bool.and_eq_true, Bool.not_eq_true', ← Bool.not_eq_true] at hc
      exact ⟨hc.1, Bool.not_eq_true _ ▸ hc.2⟩
    · rw [if_neg hc] at he
      cases he
  · rintro ⟨h1, h2⟩
    refine ⟨BuildError.of_reason b.algorithm.name, ?_⟩
    rw [build, hcase generate, if_pos]
    rw [Bool.and_eq_true, Bool.not_eq_true']
    exact ⟨h1, h2⟩
  · intro e he
    rw [build, hcase generate] at he
    by_cases hc : b.start_coords.isSome && !b.algorithm.has_start_coords
    · rw [if_pos hc] at he
      cases he
      refine ⟨rfl, "Cannot build maze. Reason: Algorithm `",
        "` doesn't support `start_coords`", rfl⟩
    · rw [if_neg hc] at he
      cases he
  · intro h1 h2 M M2 gen gen2
    have hc : (b.start_coords.isSome && !b.algorithm.has_start_coords) = true := by
      rw [Bool.and_eq_true, Bool.not_eq_true']
      exact ⟨h1, h2⟩
    rw [hcase gen, hcase gen2, if_pos hc, if_pos hc]
    exact ⟨rfl, rfl⟩
  · intro hn
    have hc : ¬(b.start_coords.isSome && !b.algorithm.has_start_coords) = true := by
      rw [Bool.and_eq_true, Bool.not_eq_true']
      exact hn
    rw [build, hcase generate, if_neg hc]

/-- Witness for C3: a start coordinate given to RecursiveDivision is
rejected with the algorithm's name, and a configuration without a start
coordinate builds Ok. -/
theorem C3_build_error_witness :
    buildWith generate (stdRng 0)
        ⟨4, 4, AlgKind.recursiveDivision, some (1, 1), some 7⟩ =
      Except.error (BuildError.of_reason "RecursiveDivision") ∧
    build (stdRng 0) ⟨4, 4, AlgKind.sidewinder, none, some 7⟩ =
      Except.ok (generate .sidewinder (Grid.new 4 4) none (stdRng 7)) := by
  constructor
  · exact ((C3_build_error (stdRng 0)
      ⟨4, 4, AlgKind.recursiveDivision, some (1, 1), some 7⟩).2.2.1
      rfl rfl generate generate).1
  · exact (C3_build_error (stdRng 0)
      ⟨4, 4, AlgKind.sidewinder, none, some 7⟩).2.2.2 (by decide)

/-- C4: two builds with the same seed, dimensions, algorithm and start
coordinate return identical results (bit-identical grids), whatever the
system entropy sources were. -/
theorem C4_seed_determinism (os1 os2 : Rng) (b1 b2 : OrthogonalMazeBuilder)
    (seed : Nat) (h1 : b1.seed = some seed) (h2 : b2.seed = some seed)
    (hw : b1.width = b2.width) (hh : b1.height = b2.height)
    (ha : b1.algorithm = b2.algorithm)
    (hs : b1.start_coords = b2.start_coords) :
    build os1 b1 = build os2 b2 := by
  rcases b1 with ⟨w1, ht1, a1, s1, e1⟩
  rcases b2 with ⟨w2, ht2, a2, s2, e2⟩
  simp only [OrthogonalMazeBuilder.seed, OrthogonalMazeBuilder.width,
    OrthogonalMazeBuilder.height, OrthogonalMazeBuilder.algorithm,
    OrthogonalMazeBuilder.start_coords] at h1 h2 hw hh ha hs
  subst hw hh ha hs h1 h2
  rfl

/-- Witness for C4 at a concrete seeded configuration. -/
theorem C4_seed_determinism_witness :
    build (stdRng 11) ⟨3, 3, AlgKind.binaryTree, none, some 5⟩ =
      build (stdRng 99) ⟨3, 3, AlgKind.binaryTree, none, some 5⟩ :=
  C4_seed_determinism (stdRng 11) (stdRng 99) _ _ 5 rfl rfl rfl rfl rfl rfl

/-- C1: over any grid with width >= 1 and height >= 1, any seed and any
permitted (in-bounds) start coordinate, every maze successfully built by
the builder with any of the ten algorithms validates: the visited set
grown from (0, 0) through carved passages covers all width*height cells.
Moreover for every algorithm except Aldous-Broder (whose termination is
only almost-sure) the successful build always carries a maze. -/
theorem C1_built_mazes_valid (os : Rng) (b : OrthogonalMazeBuilder)
    (hw : 1 ≤ b.width) (hh : 1 ≤ b.height)
    (hs : ∀ c, b.start_coords = some c →
      (Grid.new b.width b.height).inBounds c = true) (r2 : Rng) :
    (∀ res g', build os b = Except.ok res → res = some g' →
      validate g' r2 = true) ∧
    (b.algorithm ≠ AlgKind.aldousBroder →
      ∀ res, build os b = Except.ok res → res.isSome = true) := by
  have hsD : (Grid.new b.width b.height).inBounds
      (b.start_coords.getD (0, 0)) = true := by
    cases hbs : b.start_coords with
    | none => exact Grid.inBounds_iff.2 ⟨hw, hh⟩
    | some c => exact hs c hbs
  have hkey : ∀ res, build os b = Except.ok res →
      res = generate b.algorithm (Grid.new b.width b.height)
        b.start_coords ((b.seed.map stdRng).getD os) := by
    intro res hok
    unfold build buildWith at hok
    dsimp only at hok
    by_cases hguard :
        (b.start_coords.isSome && !b.algorithm.has_start_coords) = true
    · rw [if_pos hguard] at hok
      exact Except.noConfusion hok
    · rw [if_neg hguard] at hok
      injection hok with h2
      exact h2.symm
  constructor
  · intro res g' hok hres
    rw [hkey res hok] at hres
    cases halg : b.algorithm
    all_goals rw [halg] at hres
    all_goals simp only [generate] at hres
    case aldousBroder =>
      exact generate_ab_valid b.width b.height hw hh b.start_coords hs _ r2
        g' hres
    case binaryTree =>
      rw [← Option.some_inj.1 hres]
      exact generate_bt_valid b.width b.height hw hh _ r2
    case eller =>
      rw [← Option.some_inj.1 hres]
      exact generate_eller_valid b.width b.height hw hh _ r2
    case growingTree =>
      exact (generate_gt_valid b.width b.height hw hh b.start_coords hsD
        _ r2).2 g' hres
    case huntAndKill =>
      exact (generate_hk_valid b.width b.height hw hh b.start_coords hsD
        _ r2).2 g' hres
    case kruskal =>
      rw [← Option.some_inj.1 hres]
      exact generate_kruskal_valid b.width b.height hw hh _ r2
    case prim =>
      exact (generate_prim_valid b.width b.height hw hh b.start_coords hsD
        _ r2).2 g' hres
    case recursiveBacktracking =>
      rw [← Option.some_inj.1 hres]
      exact generate_rb_valid b.width b.height hw hh b.start_coords hsD _ r2
    case recursiveDivision =>
      rw [← Option.some_inj.1 hres]
      exact generate_rd_valid b.width b.height hw hh _ r2
    case sidewinder =>
      rw [← Option.some_inj.1 hres]
      exact generate_sw_valid b.width b.height hw hh _ r2
  · intro hne res hok
    rw [hkey res hok]
    cases halg : b.algorithm
    case aldousBroder => exact absurd halg hne
    case binaryTree => rfl
    case eller => rfl
    case growingTree =>
      exact (generate_gt_valid b.width b.height hw hh b.start_coords hsD
        _ r2).1
    case huntAndKill =>
      exact (generate_hk_valid b.width b.height hw hh b.start_coords hsD
        _ r2).1
    case kruskal => rfl
    case prim =>
      exact (generate_prim_valid b.width b.height hw hh b.start_coords hsD
        _ r2).1
    case recursiveBacktracking => rfl
    case recursiveDivision => rfl
    case sidewinder => rfl

/-- Witness for C1 at a concrete seeded configuration. -/
theorem C1_built_mazes_valid_witness :
    (∀ res g',
      build (stdRng 7) ⟨4, 3, AlgKind.recursiveBacktracking,
        some (1, 1), some 42⟩ = Except.ok res →
      res = some g' → validate g' (stdRng 5) = true) ∧
    (AlgKind.recursiveBacktracking ≠ AlgKind.aldousBroder →
      ∀ res, build (stdRng 7) ⟨4, 3, AlgKind.recursiveBacktracking,
        some (1, 1), some 42⟩ = Except.ok res → res.isSome = true) :=
  C1_built_mazes_valid (stdRng 7) _ (by decide) (by decide)
    (by intro c hc; cases hc; decide) (stdRng 5)

theorem adjStep_adj {g : Grid} {x y : Coords} (h : adjStep g x y = true) :
    g.carvedAdj x y := by
  unfold adjStep at h
  obtain ⟨d, hd, hdp⟩ := List.any_eq_true.1 h
  rw [Bool.and_eq_true] at hdp
  exact ⟨d, beq_iff_eq.1 hdp.1, hdp.2⟩

theorem chainOk_reach {g : Grid} : ∀ (l : List Coords) (a b : Coords),
    chainOk g a l b = true → g.Reach a b := by
  intro l
  induction l with
  | nil =>
    intro a b h
    unfold chainOk at h
    have hab : a = b := beq_iff_eq.1 h
    rw [hab]
    exact Relation.ReflTransGen.refl
  | cons x t ih =>
    intro a b h
    unfold chainOk at h
    rw [Bool.and_eq_true] at h
    exact Relation.ReflTransGen.head (adjStep_adj h.1) (ih x b h.2)

theorem successors_mem {g : Grid} {costs : Coords → Option Nat}
    {c : Coords} {q : Coords × Nat} (h : q ∈ successors g costs c) :
    g.carvedAdj c q.1 ∧ q.2 = costOf costs q.1 ∧ g.inBounds q.1 = true := by
  unfold successors at h
  obtain ⟨d, hd, hq⟩ := List.mem_filterMap.1 h
  cases hm : g.get_next_cell_coords c d with
  | none =>
    rw [hm] at hq
    cases hq
  | some m =>
    rw [hm] at hq
    dsimp only at hq
    by_cases hc : g.is_carved c d = true
    · rw [if_pos hc] at hq
      have hq2 : ((m, costOf costs m) : Coords × Nat) = q :=
        Option.some_inj.1 hq
      rw [← hq2]
      exact ⟨⟨d, hm, hc⟩, rfl, (Grid.next_eq_some.1 hm).2.1⟩
    · rw [if_neg hc] at hq
      cases hq

theorem successors_complete {g : Grid} (costs : Coords → Option Nat)
    {c z : Coords} (h : g.carvedAdj c z) :
    z ∈ (successors g costs c).map (fun q => q.1) := by
  obtain ⟨d, hm, hcv⟩ := h
  refine List.mem_map.2 ⟨(z, costOf costs z), ?_, rfl⟩
  unfold successors
  refine List.mem_filterMap.2 ⟨d, ?_, ?_⟩
  · cases d <;> decide
  · rw [hm]
    dsimp only
    rw [if_pos hcv]

theorem successors_length_le {g : Grid} (costs : Coords → Option Nat)
    (c : Coords) : (successors g costs c).length ≤ 4 :=
  List.length_filterMap_le _ _

theorem pathCost_concat (costs : Coords → Option Nat) (a : Coords)
    (t : List Coords) (z : Coords) :
    pathCost costs ((a :: t) ++ [z]) =
      pathCost costs (a :: t) + costOf costs z := by
  unfold pathCost
  show (t ++ [z]).foldl _ 0 = _
  rw [List.foldl_append]
  rfl

theorem unvisitedCount_lt_cons {g : Grid} {v : List Coords} {c : Coords}
    (hin : g.inBounds c = true) (hnot : c ∉ v) :
    unvisitedCount g (c :: v) < unvisitedCount g v := by
  have h1 : unvisitedCount g (c :: v) ≤ unvisitedCount g (v ++ [c]) := by
    refine unvisitedCount_le_of_subset ?_
    intro x hx
    rcases List.mem_append.1 hx with h | h
    · exact List.mem_cons_of_mem _ h
    · rw [List.mem_singleton.1 h]
      exact List.mem_cons_self _ _
  exact lt_of_le_of_lt h1 (unvisitedCount_lt_push hin hnot)

theorem reach_mem_closed {g : Grid} {seen : List Coords}
    (hcl : ∀ s ∈ seen, ∀ z, g.carvedAdj s z → z ∈ seen)
    {x y : Coords} (hx : x ∈ seen) (hr : g.Reach x y) : y ∈ seen := by
  induction hr with
  | refl => exact hx
  | tail _ h2 ih => exact hcl _ ih _ h2

theorem astar_go_ok (g : Grid) (costs : Coords → Option Nat)
    (start goal : Coords) (hg : g.Reach start goal) :
    ∀ (f : Nat) (seen : List Coords)
      (queue : List (Coords × List Coords × Nat)),
      goal ∉ seen →
      (∀ s ∈ seen, ∀ z, g.carvedAdj s z →
        z ∈ seen ∨ z ∈ queue.map (fun e => e.1)) →
      (start ∈ seen ∨ start ∈ queue.map (fun e => e.1)) →
      (∀ e ∈ queue, g.inBounds e.1 = true ∧ e.2.1.head? = some start ∧
        e.2.1.getLast? = some e.1 ∧ e.2.2 = pathCost costs e.2.1) →
      queue.length + 5 * unvisitedCount g seen < f →
      ∃ p k, astar_go g costs goal f seen queue = some (p, k) ∧
        p.head? = some start ∧ p.getLast? = some goal ∧
        k = pathCost costs p := by
  intro f
  induction f with
  | zero =>
    intro seen queue _ _ _ _ hf
    omega
  | succ f ih =>
    intro seen queue hI1 hI2 hI3 hIQ hf
    cases queue with
    | nil =>
      have hstart : start ∈ seen := by
        rcases hI3 with h | h
        · exact h
        · exact absurd h (List.not_mem_nil start)
      have hcl : ∀ s ∈ seen, ∀ z, g.carvedAdj s z → z ∈ seen := by
        intro s hs z hz
        rcases hI2 s hs z hz with h | h
        · exact h
        · exact absurd h (List.not_mem_nil z)
      exact absurd (reach_mem_closed hcl hstart hg) hI1
    | cons e0 rest =>
      obtain ⟨c, p, k⟩ := e0
      unfold astar_go
      dsimp only
      by_cases hcg : c = goal
      · rw [if_pos hcg]
        obtain ⟨_, hh, hl, hk⟩ := hIQ (c, p, k) (List.mem_cons_self _ _)
        refine ⟨p, k, rfl, hh, ?_, hk⟩
        rw [← hcg]
        exact hl
      · rw [if_neg hcg]
        by_cases hsc : seen.contains c = true
        · rw [if_pos hsc]
          refine ih seen rest hI1 ?_ ?_ ?_ ?_
          · intro s hs z hz
            rcases hI2 s hs z hz with h | h
            · exact Or.inl h
            · rw [List.map_cons] at h
              rcases List.mem_cons.1 h with h2 | h2
              · refine Or.inl ?_
                rw [h2]
                exact List.elem_iff.1 hsc
              · exact Or.inr h2
          · rcases hI3 with h | h
            · exact Or.inl h
            · rw [List.map_cons] at h
              rcases List.mem_cons.1 h with h2 | h2
              · refine Or.inl ?_
                rw [h2]
                exact List.elem_iff.1 hsc
              · exact Or.inr h2
          · exact fun e he => hIQ e (List.mem_cons_of_mem _ he)
          · have hq : ((c, p, k) :: rest).length = rest.length + 1 := rfl
            omega
        · rw [if_neg hsc]
          have hcnot : c ∉ seen := fun hmem => hsc (List.elem_iff.2 hmem)
          obtain ⟨hcin, hph, hpl, hpk⟩ :=
            hIQ (c, p, k) (List.mem_cons_self _ _)
          have hph2 : p.head? = some start := hph
          have hpk2 : k = pathCost costs p := hpk
          have hpne : p ≠ [] := by
            intro h0
            rw [h0] at hph2
            cases hph2
          refine ih (c :: seen)
            (rest ++ (successors g costs c).map
              (fun q => (q.1, p ++ [q.1], k + q.2))) ?_ ?_ ?_ ?_ ?_
          · intro hmem
            rcases List.mem_cons.1 hmem with h | h
            · exact hcg h.symm
            · exact hI1 h
          · intro s hs z hz
            rcases List.mem_cons.1 hs with hsEq | hsIn
            · refine Or.inr ?_
              rw [hsEq] at hz
              have hzm := successors_complete costs hz
              rw [List.map_append]
              refine List.mem_append_right _ ?_
              obtain ⟨q, hq, hq1⟩ := List.mem_map.1 hzm
              rw [List.map_map]
              exact List.mem_map.2 ⟨q, hq, hq1⟩
            · rcases hI2 s hsIn z hz with h | h
              · exact Or.inl (List.mem_cons_of_mem _ h)
              · rw [List.map_cons] at h
                rcases List.mem_cons.1 h with h2 | h2
                · refine Or.inl ?_
                  rw [h2]
                  exact List.mem_cons_self _ _
                · refine Or.inr ?_
                  rw [List.map_append]
                  exact List.mem_append_left _ h2
          · rcases hI3 with h | h
            · exact Or.inl (List.mem_cons_of_mem _ h)
            · rw [List.map_cons] at h
              rcases List.mem_cons.1 h with h2 | h2
              · refine Or.inl ?_
                rw [h2]
                exact List.mem_cons_self _ _
              · refine Or.inr ?_
                rw [List.map_append]
                exact List.mem_append_left _ h2
          · intro e he
            rcases List.mem_append.1 he with h | h
            · exact hIQ e (List.mem_cons_of_mem _ h)
            · obtain ⟨q, hq, hqe⟩ := List.mem_map.1 h
              obtain ⟨hadj, hcost, hqin⟩ := successors_mem hq
              rw [← hqe]
              dsimp only
              refine ⟨hqin, ?_, List.getLast?_concat _, ?_⟩
              · cases p with
                | nil => exact absurd rfl hpne
                | cons a t => exact hph2
              · cases p with
                | nil => exact absurd rfl hpne
                | cons a t =>
                  rw [pathCost_concat]
                  rw [hpk2, hcost]
          · have hlen : ((successors g costs c).map
                (fun q => (q.1, p ++ [q.1], k + q.2))).length ≤ 4 := by
              rw [List.length_map]
              exact successors_length_le costs c
            have hu : unvisitedCount g (c :: seen) < unvisitedCount g seen :=
              unvisitedCount_lt_cons hcin hcnot
            have hq : ((c, p, k) :: rest).length = rest.length + 1 := rfl
            rw [List.length_append]
            omega

theorem astar_model_ok (g : Grid) (costs : Coords → Option Nat)
    (start goal : Coords) (hstart : g.inBounds start = true)
    (hg : g.Reach start goal) :
    ∃ p k, astar_model g costs start goal = some (p, k) ∧
      p.head? = some start ∧ p.getLast? = some goal ∧
      k = pathCost costs p := by
  unfold astar_model
  refine astar_go_ok g costs start goal hg _ [] [(start, [start], 0)]
    (List.not_mem_nil goal) ?_ ?_ ?_ ?_
  · intro s hs
    exact absurd hs (List.not_mem_nil s)
  · refine Or.inr ?_
    rw [List.map_cons]
    exact List.mem_cons_self _ _
  · intro e he
    rw [List.mem_singleton.1 he]
    exact ⟨hstart, rfl, rfl, rfl⟩
  · have hu : unvisitedCount g [] ≤ g.width * g.height := by
      have h1 : unvisitedCount g [] ≤ g.allCoords.length :=
        List.length_filter_le _ _
      rw [Grid.allCoords_length] at h1
      exact h1
    have hq : ([((start : Coords), ([start] : List Coords), (0 : Nat))]
        : List (Coords × List Coords × Nat)).length = 1 := rfl
    omega

theorem ends_paths_aux (g : Grid) (costs : Coords → Option Nat)
    (start : Coords) (hstart : g.inBounds start = true) :
    ∀ l : List (Coords × Cell), (∀ p ∈ l, g.Reach start p.1) →
      ((l.filterMap (fun p =>
          match astar_model g costs start p.1 with
          | some res => some ((start, p.1), res)
          | none => none)).map (fun e => e.1) =
        l.map (fun p => (start, p.1))) ∧
      ∀ e ∈ l.filterMap (fun p =>
          match astar_model g costs start p.1 with
          | some res => some ((start, p.1), res)
          | none => none),
        e.1.1 = start ∧ e.2.1.head? = some start ∧
          e.2.1.getLast? = some e.1.2 ∧ e.2.2 = pathCost costs e.2.1 := by
  intro l
  induction l with
  | nil => exact fun _ => ⟨rfl, fun e he => absurd he (List.not_mem_nil e)⟩
  | cons p t ih =>
    intro hr
    obtain ⟨pp, kk, hsome, hh, hl, hk⟩ :=
      astar_model_ok g costs start p.1 hstart
        (hr p (List.mem_cons_self _ _))
    obtain ⟨ih1, ih2⟩ := ih (fun q hq => hr q (List.mem_cons_of_mem _ hq))
    have hF : (match astar_model g costs start p.1 with
        | some res => some ((start, p.1), res)
        | none => none) = some ((start, p.1), (pp, kk)) := by
      rw [hsome]
    rw [List.filterMap_cons]
    rw [hsome]
    dsimp only
    constructor
    · rw [List.map_cons, List.map_cons, ih1]
    · intro e he
      rcases List.mem_cons.1 he with h | h
      · rw [h]
        exact ⟨rfl, hh, hl, hk⟩
      · exact ih2 e h

/-- C9: with every dead end reachable from the in-bounds start,
`find_maze_ends_paths` returns exactly one entry per dead-end cell, in
order, keyed by the (start, end) pair; each stored path begins at the
start, ends at its dead end, and carries the path cost. -/
theorem C9_all_ends_paths (g : Grid) (costs : Coords → Option Nat)
    (start : Coords) (hstart : g.inBounds start = true)
    (hreach : ∀ p ∈ ends g, g.Reach start p.1) :
    ((find_maze_ends_paths g costs start).map (fun e => e.1) =
      (ends g).map (fun p => (start, p.1))) ∧
    ∀ e ∈ find_maze_ends_paths g costs start,
      e.1.1 = start ∧ e.2.1.head? = some start ∧
        e.2.1.getLast? = some e.1.2 ∧ e.2.2 = pathCost costs e.2.1 :=
  ends_paths_aux g costs start hstart (ends g) hreach

/-- Witness for C9 on the canonical 4x4 fixture. -/
theorem C9_all_ends_paths_witness :
    ((find_maze_ends_paths fixtureGrid (fun _ => none) (0, 0)).map
        (fun e => e.1) =
      (ends fixtureGrid).map (fun p => (((0, 0) : Coords), p.1))) ∧
    ∀ e ∈ find_maze_ends_paths fixtureGrid (fun _ => none) (0, 0),
      e.1.1 = (0, 0) ∧ e.2.1.head? = some (0, 0) ∧
        e.2.1.getLast? = some e.1.2 ∧
        e.2.2 = pathCost (fun _ => none) e.2.1 := by
  refine C9_all_ends_paths fixtureGrid (fun _ => none) (0, 0)
    (by decide) ?_
  intro p hp
  have hp1 : p.1 ∈ (ends fixtureGrid).map (fun q => q.1) :=
    List.mem_map_of_mem _ hp
  have hE : (ends fixtureGrid).map (fun q => q.1) =
      [(0, 0), (1, 0), (2, 1), (3, 3)] := by decide
  rw [hE] at hp1
  have hp2 : p.1 = (0, 0) ∨ p.1 = (1, 0) ∨ p.1 = (2, 1) ∨ p.1 = (3, 3) := by
    simpa using hp1
  rcases hp2 with h | h | h | h
  · rw [h]
    exact Relation.ReflTransGen.refl
  · rw [h]
    exact chainOk_reach [(0, 1), (1, 1), (1, 2), (2, 2), (3, 2), (3, 1),
      (3, 0), (2, 0), (1, 0)] _ _ (by decide)
  · rw [h]
    exact chainOk_reach [(0, 1), (1, 1), (2, 1)] _ _ (by decide)
  · rw [h]
    exact chainOk_reach [(0, 1), (1, 1), (1, 2), (0, 2), (0, 3), (1, 3),
      (2, 3), (3, 3)] _ _ (by decide)

end Knossos
